import Mathlib

/-!
# todo-txt-agenda: a shallow embedding of `main.go`

The development follows the program bottom-up:

* Go strings are sequences of Unicode code points (`List Char`, that is,
  valid UTF-8); the helpers of package `strings` and `path/filepath` used by
  the program are given with their documented behaviour (`Fields`,
  `HasPrefix`, `TrimPrefix`, `TrimSuffix`, `Join`, `Base` with `/` as the
  separator);
* a `time.Time` is an instant (seconds since January 1 of year 1, UTC, plus
  nanoseconds) together with a `Location`, the history of UTC offsets of a
  time zone; `Date`, `AddDate`, `Before`, `After`, `IsZero` and the layout
  `2006-01-02` of `time.Parse` follow package `time`, integers being
  unbounded;
* `sort.Slice` is any function with the properties of `SliceSort`;
* `parseDueDate`, `parseTask`, `expandTilde` and the body of `main`
  (intake, sort, past-due section, daily sections) follow `src/main.go`; a
  run-time panic is the result `none`, and the loop over the days runs on
  fuel.
-/

namespace TodoAgenda

/-! ## Package `time` -/

/-- A `time.Location`: the UTC offset in force before the first transition
and the list of transitions `(when, offset)`, `when` in Unix seconds and
`offset` in seconds east of UTC. -/
structure Location where
  zone0 : Int
  tx : List (Int × Int)
deriving DecidableEq, Repr

/-- The location `time.UTC`. -/
def UTC : Location := ⟨0, []⟩

/-- Lower sentinel of `Location.lookup` (`alpha = -1 << 63`). -/
def alpha : Int := -(2 ^ 63)

/-- Upper sentinel of `Location.lookup` (`omega = 1<<63 - 1`). -/
def omega : Int := 2 ^ 63 - 1

/-- Scan of the transition table: the entry with the largest `when ≤ sec`
wins; the result is `(offset, start, end)` of the period holding `sec`. -/
def lookupFrom (sec : Int) : List (Int × Int) → Int → Int → Int × Int × Int
  | [], off, start => (off, start, omega)
  | (w, o) :: rest, off, start =>
    if sec < w then (off, start, w) else lookupFrom sec rest o w

/-- `Location.lookup`: offset and validity period of the zone in use at the
Unix time `sec`. -/
def Location.lookup (l : Location) (sec : Int) : Int × Int × Int :=
  lookupFrom sec l.tx l.zone0 alpha

/-- A `time.Time` without monotonic clock reading: `sec` counts seconds
since January 1, year 1 00:00:00 UTC, `nsec` is the nanosecond within the
second. -/
structure Time where
  sec : Int
  nsec : Int
  loc : Location
deriving DecidableEq, Repr

/-- The zero `time.Time` (`time.Time{}`): January 1, year 1, 00:00:00 UTC. -/
def Time.zero : Time := ⟨0, 0, UTC⟩

def secondsPerDay : Int := 86400

/-- Days from year 1 to 1970: `1969*365 + 1969/4 - 1969/100 + 1969/400`
days, in seconds. -/
def unixToInternal : Int := (1969 * 365 + 1969 / 4 - 1969 / 100 + 1969 / 400) * secondsPerDay

def internalToUnix : Int := -unixToInternal

def daysPer400Years : Int := 365 * 400 + 97
def daysPer100Years : Int := 365 * 100 + 24
def daysPer4Years : Int := 365 * 4 + 1

/-- `t.IsZero()`: the instant is January 1, year 1, 00:00:00 UTC. -/
def Time.IsZero (t : Time) : Bool := t.sec == 0 && t.nsec == 0

/-- `t.Before(u)`: the instant `t` is before `u`. -/
def Time.Before (t u : Time) : Bool :=
  decide (t.sec < u.sec) || (t.sec == u.sec && decide (t.nsec < u.nsec))

/-- `t.After(u)`: the instant `t` is after `u`. -/
def Time.After (t u : Time) : Bool :=
  decide (t.sec > u.sec) || (t.sec == u.sec && decide (t.nsec > u.nsec))

/-- `t.Equal(u)`: `t` and `u` are the same instant. -/
def Time.Equal (t u : Time) : Bool := t.sec == u.sec && t.nsec == u.nsec

/-- `t.Add(d)` for a duration of whole seconds. -/
def Time.addSeconds (t : Time) (s : Int) : Time := { t with sec := t.sec + s }

/-- `isLeap(year)`. -/
def isLeap (year : Int) : Bool :=
  year % 4 == 0 && (year % 100 != 0 || year % 400 == 0)

/-- The table `daysBefore`: `daysBefore m` counts the days of a non-leap
year before month `m+1`. -/
def daysBefore (m : Int) : Int :=
  [0, 31, 59, 90, 120, 151, 181, 212, 243, 273, 304, 334, 365].getD m.toNat 0

/-- `daysIn(m, year)`. -/
def daysIn (m : Int) (year : Int) : Int :=
  if m == 2 && isLeap year then 29 else daysBefore m - daysBefore (m - 1)

/-- `norm(hi, lo, base)`: carries `lo` into `hi` until `0 ≤ lo < base`. -/
def norm (hi lo base : Int) : Int × Int :=
  let (hi, lo) :=
    if lo < 0 then
      let n := (-lo - 1) / base + 1
      (hi - n, lo + n * base)
    else (hi, lo)
  if lo ≥ base then
    let n := lo / base
    (hi + n, lo - n * base)
  else (hi, lo)

/-- `daysSinceEpoch(year)`, counted from January 1 of year 1 (package
`time` counts from a year that precedes it by a multiple of 400 years to
stay unsigned; divisions round down). -/
def daysSinceEpoch (year : Int) : Int :=
  let y := year - 1
  let n := y / 400
  let y := y - 400 * n
  let d := daysPer400Years * n
  let n := y / 100
  let y := y - 100 * n
  let d := d + daysPer100Years * n
  let n := y / 4
  let y := y - 4 * n
  let d := d + daysPer4Years * n
  let n := y
  d + 365 * n

/-- `time.Date(year, month, day, hour, min, sec, nsec, loc)`. -/
def Date (year month day hour min sec nsec : Int) (loc : Location) : Time :=
  -- Normalize month, overflowing into year.
  let m := month - 1
  let (year, m) := norm year m 12
  let month := m + 1
  -- Normalize nsec, sec, min, hour, overflowing into day.
  let (sec, nsec) := norm sec nsec 1000000000
  let (min, sec) := norm min sec 60
  let (hour, min) := norm hour min 60
  let (day, hour) := norm day hour 24
  -- Compute days since the epoch.
  let d := daysSinceEpoch year
  -- Add in days before this month.
  let d := d + daysBefore (month - 1)
  let d := if isLeap year && decide (month ≥ 3) then d + 1 else d
  -- Add in days before today.
  let d := d + (day - 1)
  -- Add in time elapsed today.
  let abs := d * secondsPerDay
  let abs := abs + (hour * 3600 + min * 60 + sec)
  let unix := abs + internalToUnix
  -- Look for zone offset for expected time, so we can adjust to UTC.
  let (offset, start, stop) := loc.lookup unix
  let unix :=
    if offset ≠ 0 then
      let utc := unix - offset
      let offset :=
        if utc < start ∨ utc ≥ stop then (loc.lookup utc).1 else offset
      unix - offset
    else unix
  ⟨unix + unixToInternal, nsec, loc⟩

/-- `t.abs()`: seconds since January 1, year 1 on the local clock of `t`. -/
def Time.abs (t : Time) : Int :=
  t.sec + (t.loc.lookup (t.sec + internalToUnix)).1

/-- `absDate(abs, true)`: year, month, day and day of the year (from 0) of
a count of local seconds. -/
def absDate (abs : Int) : Int × Int × Int × Int :=
  -- Split into time and day.
  let d := abs / secondsPerDay
  -- Account for 400 year cycles.
  let n := d / daysPer400Years
  let y := 400 * n
  let d := d - daysPer400Years * n
  -- Cut off 100-year cycles; the last cycle has one extra leap year.
  let n := d / daysPer100Years
  let n := n - n / 4
  let y := y + 100 * n
  let d := d - daysPer100Years * n
  -- Cut off 4-year cycles.
  let n := d / daysPer4Years
  let y := y + 4 * n
  let d := d - daysPer4Years * n
  -- Cut off years within a 4-year cycle.
  let n := d / 365
  let n := n - n / 4
  let y := y + n
  let d := d - 365 * n
  let year := y + 1
  let yday := d
  let day := yday
  if isLeap year && decide (day = 31 + 29 - 1) then
    -- Leap day.
    (year, 2, 29, yday)
  else
    -- After leap day; pretend it was not there.
    let day := if isLeap year && decide (day > 31 + 29 - 1) then day - 1 else day
    -- Estimate month on assumption that every month has 31 days.
    let month := day / 31
    let stop := daysBefore (month + 1)
    let (month, begin) :=
      if day ≥ stop then (month + 1, stop) else (month, daysBefore month)
    (year, month + 1, day - begin + 1, yday)

/-- `t.Year()`. -/
def Time.Year (t : Time) : Int := (absDate t.abs).1

/-- `t.Month()`, January being 1. -/
def Time.Month (t : Time) : Int := (absDate t.abs).2.1

/-- `t.Day()`. -/
def Time.Day (t : Time) : Int := (absDate t.abs).2.2.1

/-- `t.Hour()`. -/
def Time.Hour (t : Time) : Int := t.abs % secondsPerDay / 3600

/-- `t.Minute()`. -/
def Time.Minute (t : Time) : Int := t.abs % 3600 / 60

/-- `t.Second()`. -/
def Time.Second (t : Time) : Int := t.abs % 60

/-- `t.Location()`. -/
def Time.Location (t : Time) : Location := t.loc

/-- `t.AddDate(years, months, days)`. -/
def Time.AddDate (t : Time) (years months days : Int) : Time :=
  Date (t.Year + years) (t.Month + months) (t.Day + days)
    t.Hour t.Minute t.Second t.nsec t.loc

/-! ## Packages `strings`, `unicode` and `path/filepath` -/

/-- `unicode.IsSpace`: the code points with the White_Space property. -/
def isSpace (c : Char) : Bool :=
  let n := c.toNat
  -- '\t', '\n', '\v', '\f', '\r', ' ', U+0085 (NEL), U+00A0 (NBSP)
  n == 9 || n == 10 || n == 11 || n == 12 || n == 13 || n == 32 || n == 0x85 || n == 0xA0 ||
  n == 0x1680 || (decide (0x2000 ≤ n) && decide (n ≤ 0x200a)) ||
  n == 0x2028 || n == 0x2029 || n == 0x202f || n == 0x205f || n == 0x3000

/-- Span scan of `strings.FieldsFunc`: `cur` holds, reversed, the field
being read (empty when the scan is between fields). -/
def fieldsFrom : List Char → List Char → List (List Char)
  | [], cur => if cur.isEmpty then [] else [cur.reverse]
  | c :: cs, cur =>
    if isSpace c then
      if cur.isEmpty then fieldsFrom cs [] else cur.reverse :: fieldsFrom cs []
    else fieldsFrom cs (c :: cur)

/-- `strings.Fields(s)`: the maximal runs of non-space characters of `s`. -/
def Fields (s : List Char) : List (List Char) := fieldsFrom s []

/-- `strings.Join(elems, sep)`. -/
def Join (elems : List (List Char)) (sep : List Char) : List Char :=
  match elems with
  | [] => []
  | [e] => e
  | e :: rest => e ++ sep ++ Join rest sep

/-- `strings.HasPrefix(s, p)`. -/
def HasPrefix (s p : List Char) : Bool := s.take p.length == p

/-- `strings.TrimPrefix(s, p)`. -/
def TrimPrefix (s p : List Char) : List Char :=
  if HasPrefix s p then s.drop p.length else s

/-- `strings.HasSuffix(s, suffix)`. -/
def HasSuffix (s suffix : List Char) : Bool :=
  decide (s.length ≥ suffix.length) && s.drop (s.length - suffix.length) == suffix

/-- `strings.TrimSuffix(s, suffix)`. -/
def TrimSuffix (s suffix : List Char) : List Char :=
  if HasSuffix s suffix then s.take (s.length - suffix.length) else s

/-- `strings.Replace(s, old, new, 1)` for a one-character `old`: the first
occurrence of `old` is replaced. -/
def replaceFirst (old : Char) (new : List Char) : List Char → List Char
  | [] => []
  | c :: cs => if c = old then new ++ cs else c :: replaceFirst old new cs

/-- `filepath.Base(path)` with `/` as the separator. -/
def Base (path : List Char) : List Char :=
  if path.isEmpty then ".".toList
  else
    -- Strip trailing slashes.
    let stripped := (path.reverse.dropWhile (· == '/')).reverse
    -- Find the last element.
    let last := (stripped.reverse.takeWhile (· != '/')).reverse
    -- If empty now, it had only slashes.
    if last.isEmpty then "/".toList else last

/-! ## Layout `2006-01-02` of `time.Parse` -/

/-- The failures of `time.Parse`. -/
inductive ParseError where
  | bad
  | monthOutOfRange
  | dayOutOfRange
  | extraText
deriving DecidableEq, Repr

/-- The test `'0' <= c && c <= '9'`. -/
def isDigitChar (c : Char) : Bool := decide (48 ≤ c.toNat) && decide (c.toNat ≤ 57)

/-- `isDigit(s, i)`: `s[i]` exists and is a decimal digit. -/
def isDigit (s : List Char) (i : Nat) : Bool :=
  match s.get? i with
  | some c => isDigitChar c
  | none => false

/-- Value of a decimal digit. -/
def digitVal (c : Char) : Int := (c.toNat : Int) - 48

/-- `atoi(p)` on the four characters of a `2006` field, whose first one is
known to be a digit: every character must be a digit. -/
def atoi (p : List Char) : Option Int :=
  if p.all isDigitChar then
    some (p.foldl (fun acc c => 10 * acc + digitVal c) 0)
  else none

/-- `getnum(s, true)`: exactly two digits are read. -/
def getnum (s : List Char) : Option (Int × List Char) :=
  if !isDigit s 0 then none
  else if !isDigit s 1 then none
  else
    match s with
    | a :: b :: rest => some (digitVal a * 10 + digitVal b, rest)
    | _ => none

/-- `skip(value, "-")`. -/
def skipDash (value : List Char) : Option (List Char) :=
  match value with
  | [] => none
  | c :: rest => if c ≠ '-' then none else some rest

/-- `time.Parse("2006-01-02", value)`: a four-digit year, a two-digit month
and a two-digit day separated by `-`, nothing after them, the month in
`1..12` and the day within the month; the result is that day at 00:00:00
UTC. -/
def Parse (value : List Char) : Time × Option ParseError :=
  -- stdLongYear
  if value.length < 4 || !isDigit value 0 then (Time.zero, some .bad)
  else
    match atoi (value.take 4) with
    | none => (Time.zero, some .bad)
    | some year =>
      match skipDash (value.drop 4) with
      | none => (Time.zero, some .bad)
      | some value =>
        -- stdZeroMonth
        match getnum value with
        | none => (Time.zero, some .bad)
        | some (month, value) =>
          if month ≤ 0 ∨ 12 < month then (Time.zero, some .monthOutOfRange)
          else
            match skipDash value with
            | none => (Time.zero, some .bad)
            | some value =>
              -- stdZeroDay
              match getnum value with
              | none => (Time.zero, some .bad)
              | some (day, value) =>
                if value.length ≠ 0 then (Time.zero, some .extraText)
                -- Validate the day of the month.
                else if day < 1 ∨ day > daysIn month year then
                  (Time.zero, some .dayOutOfRange)
                else (Date year month day 0 0 0 0 UTC, none)

/-! ## `main.go` -/

/-- Task represents a todo.txt task. -/
structure Task where
  Text : List Char
  DueDate : Time
  FilePath : List Char
  Completed : Bool
deriving DecidableEq, Repr

/-- The zero value `Task{}`. -/
def Task.zero : Task := ⟨[], Time.zero, [], false⟩

/-- `parseDueDate`: the date of `dueDateStr` (format yyyy-mm-dd) with the
time set to the end of the day (23:59:59). -/
def parseDueDate (dueDateStr : List Char) : Time × Option ParseError :=
  let (parsedDate, err) := Parse dueDateStr
  if err ≠ none then (Time.zero, err)
  else
    (Date parsedDate.Year parsedDate.Month parsedDate.Day 23 59 59 0 parsedDate.Location, none)

/-- The loop `for _, part := range parts` of `parseTask`: the first part
that is prefixed with `due:` or equal to `x` ends the scan. -/
def scanParts (task : Task) : List (List Char) → Task × Option ParseError
  | [] => (task, none)
  | part :: rest =>
    if HasPrefix part "due:".toList then
      let dueDateStr := TrimPrefix part "due:".toList
      let (dueDate, err) := parseDueDate dueDateStr
      if err ≠ none then (Task.zero, err)
      else ({ task with DueDate := dueDate }, none)
    else if part = "x".toList then ({ task with Completed := true }, none)
    else scanParts task rest

/-- `parseTask(taskLine, filePath)`; `none` is the run-time panic of
`parts[1:]` on an empty `parts`. -/
def parseTask (taskLine filePath : List Char) : Option (Task × Option ParseError) :=
  let parts := Fields taskLine
  match parts with
  | [] => none
  | _ :: tail =>
    let task : Task :=
      { Text := Join tail " ".toList
        DueDate := Time.zero
        FilePath := TrimSuffix (Base filePath) ".todo.txt".toList
        Completed := false }
    some (scanParts task parts)

/-- `expandTilde(path)`, the result of `os.UserHomeDir()` being `homeDir`. -/
def expandTilde (homeDir path : List Char) : List Char :=
  if HasPrefix path "~".toList then replaceFirst '~' homeDir path else path

/-- The intake test of `main`: completed tasks and tasks without due date
are excluded. -/
def admitted (task : Task) : Bool := !task.Completed && !task.DueDate.IsZero

/-- The scan of one opened todo file in `main`: `tasks` is the collection
so far; `none` is a panic of `parseTask`. -/
def scanLines (filePath : List Char) : List (List Char) → List Task → Option (List Task)
  | [], tasks => some tasks
  | taskLine :: rest, tasks =>
    match parseTask taskLine filePath with
    | none => none
    | some (task, err) =>
      if err ≠ none then scanLines filePath rest tasks
      else if admitted task then scanLines filePath rest (tasks ++ [task])
      else scanLines filePath rest tasks

/-- A todo file as `main` meets it: its path and, when `os.Open` succeeds,
its lines. -/
structure TodoFile where
  path : List Char
  lines : Option (List (List Char))
deriving DecidableEq, Repr

/-- The loop over `todoFiles` in `main`; a file that fails to open is
skipped. -/
def readFiles : List TodoFile → List Task → Option (List Task)
  | [], tasks => some tasks
  | file :: rest, tasks =>
    match file.lines with
    | none => readFiles rest tasks
    | some lines =>
      match scanLines file.path lines tasks with
      | none => none
      | some tasks => readFiles rest tasks

/-- The comparison handed to `sort.Slice`. -/
def lessDue (a b : Task) : Bool := a.DueDate.Before b.DueDate

/-! ### `sort.Slice`

Package `sort` documents `sort.Slice` as sorting the slice by `less`
without any guarantee of stability. Its algorithm changed between Go
releases (quicksort, then pattern-defeating quicksort); every release runs
plain insertion sort on a slice of at most 6 elements. `SliceSort sort`
states exactly these properties of a function `sort`; `main` is given
relative to such a function. -/

/-- Inner loop of `insertionSort_func`: the element `x` is swapped
backwards while it is less than its predecessor; the sorted part is held
reversed (last element first). -/
def sink (less : Task → Task → Bool) (x : Task) : List Task → List Task
  | [] => [x]
  | y :: ys => if less x y then y :: sink less x ys else x :: y :: ys

/-- Outer loop of `insertionSort_func`; `done` is the sorted part,
reversed. -/
def insertionSortFrom (less : Task → Task → Bool) : List Task → List Task → List Task
  | [], done => done.reverse
  | x :: xs, done => insertionSortFrom less xs (sink less x done)

/-- `insertionSort_func(data, 0, len(data))`. -/
def insertionSort (less : Task → Task → Bool) (xs : List Task) : List Task :=
  insertionSortFrom less xs []

/-- What is known of the function computed by the call
`sort.Slice(tasks, less)` of `main`: it permutes the slice, leaves no later
element less than an earlier one, and is insertion sort on at most 6
elements. -/
structure SliceSort (sort : List Task → List Task) : Prop where
  perm : ∀ xs, (sort xs).Perm xs
  sorted : ∀ xs, (sort xs).Pairwise (fun a b => lessDue b a = false)
  small : ∀ xs, xs.length ≤ 6 → sort xs = insertionSort lessDue xs

/-- `data.Swap(i, j)`. -/
def swapAt (data : List Task) (i j : Nat) : List Task :=
  match data.get? i, data.get? j with
  | some x, some y => (data.set i y).set j x
  | _, _ => data

/-- `data.Less(i, j)`. -/
def lessAt (data : List Task) (i j : Nat) : Bool :=
  match data.get? i, data.get? j with
  | some x, some y => lessDue x y
  | _, _ => false

/-- `order2_func(data, a, b, &swaps)`. -/
def order2 (data : List Task) (a b swaps : Nat) : Nat × Nat × Nat :=
  if lessAt data b a then (b, a, swaps + 1) else (a, b, swaps)

/-- `median_func(data, a, b, c, &swaps)`. -/
def median (data : List Task) (a b c swaps : Nat) : Nat × Nat :=
  let (a, b, swaps) := order2 data a b swaps
  let (b, _, swaps) := order2 data b c swaps
  let (_, b, swaps) := order2 data a b swaps
  (b, swaps)

/-- `choosePivot_func(data, 0, len(data))` on 8 to 49 elements: the index
of the median of three and the number of swaps it took. -/
def choosePivot (data : List Task) : Nat × Nat :=
  let l := data.length
  median data (l / 4 * 1) (l / 4 * 2) (l / 4 * 3) 0

/-- The loop `for i <= j && data.Less(i, a) { i++ }` of `partition_func`,
`a` being 0. -/
def scanUp (data : List Task) (j : Nat) : Nat → Nat → Nat
  | 0, i => i
  | fuel + 1, i => if i ≤ j && lessAt data i 0 then scanUp data j fuel (i + 1) else i

/-- The loop `for i <= j && !data.Less(j, a) { j-- }` of `partition_func`,
`a` being 0. -/
def scanDown (data : List Task) (i : Nat) : Nat → Nat → Nat
  | 0, j => j
  | fuel + 1, j => if i ≤ j && !lessAt data j 0 then scanDown data i fuel (j - 1) else j

/-- The main loop of `partition_func`. -/
def partitionLoop : Nat → List Task → Nat → Nat → List Task × Nat
  | 0, data, _, j => (data, j)
  | fuel + 1, data, i, j =>
    let i := scanUp data j data.length i
    let j := scanDown data i data.length j
    if i > j then (data, j) else partitionLoop fuel (swapAt data i j) (i + 1) (j - 1)

/-- `partition_func(data, 0, len(data), pivot)`: the slice after the
partition and the new index of the pivot. -/
def partition (data : List Task) (pivot : Nat) : List Task × Nat :=
  let data := swapAt data 0 pivot
  let i := scanUp data (data.length - 1) data.length 1
  let j := scanDown data i data.length (data.length - 1)
  if i > j then (swapAt data j 0, j)
  else
    let (data, j) := partitionLoop data.length (swapAt data i j) (i + 1) (j - 1)
    (swapAt data j 0, j)

/-- `partialInsertionSort_func` on fewer than 50 elements: it changes
nothing and reports whether the slice is sorted. -/
def adjacentSorted : List Task → Bool
  | a :: b :: rest => !lessDue b a && adjacentSorted (b :: rest)
  | _ => true

/-- The first round of `pdqsort_func` (Go 1.19 and later) on 13 to 49
elements, each side of the partition then being sorted by insertion
sort, as `pdqsort_func` does with sides of at most 12 elements. -/
def pdqRound (xs : List Task) : List Task :=
  let (pivot, swaps) := choosePivot xs
  if swaps == 0 && adjacentSorted xs then xs
  else
    let (data, mid) := partition xs pivot
    insertionSort lessDue (data.take mid) ++ (data.drop mid).take 1 ++
      insertionSort lessDue (data.drop (mid + 1))

/-- A `sort.Slice`: insertion sort on at most 12 elements, else the
result of `pdqRound` when that is a sorted permutation of the slice. -/
def pdqSort (xs : List Task) : List Task :=
  if xs.length ≤ 12 then insertionSort lessDue xs
  else if (pdqRound xs).Perm xs ∧ (pdqRound xs).Pairwise (fun a b => lessDue b a = false) then
    pdqRound xs
  else insertionSort lessDue xs

/-! ### The agenda -/

/-- The past-due section of `main`: the tasks printed under `[PAST DUE]`,
in print order. -/
def pastDue (currentDate : Time) (tasks : List Task) : List Task :=
  tasks.filter (fun task => task.DueDate.Before currentDate)

/-- The tasks printed in the section of the day starting at
`currentDate`, in print order. -/
def dayTasks (currentDate : Time) (tasks : List Task) : List Task :=
  tasks.filter (fun task =>
    task.DueDate.After currentDate && task.DueDate.Before (currentDate.AddDate 0 0 1))

/-- The loop `for currentDate.Before(endDate)` of `main`, run for at most
`fuel` iterations: the sections printed, each with the instant of its
heading; `none` when `fuel` iterations do not end the loop. -/
def dailyLoop (tasks : List Task) (endDate : Time) : Nat → Time → Option (List (Time × List Task))
  | 0, currentDate => if currentDate.Before endDate then none else some []
  | fuel + 1, currentDate =>
    if currentDate.Before endDate then
      (dailyLoop tasks endDate fuel (currentDate.AddDate 0 0 1)).map
        ((currentDate, dayTasks currentDate tasks) :: ·)
    else some []

/-- What `main` prints after the header: the past-due section and the
daily sections. -/
structure Agenda where
  pastDue : List Task
  days : List (Time × List Task)
deriving DecidableEq, Repr

/-- The three ways a run of `main` on readable input ends. -/
inductive Run where
  | panicked
  | unfinished
  | printed (a : Agenda)
deriving DecidableEq, Repr

/-- The agenda part of `main` on the admitted collection `tasks`:
sort, past-due section, daily sections. -/
def agenda (sortSlice : List Task → List Task) (fuel : Nat) (now : Time)
    (tasks : List Task) : Option Agenda :=
  let tasks := sortSlice tasks
  let currentDate := now
  let endDate := currentDate.AddDate 0 0 7
  (dailyLoop tasks endDate fuel currentDate).map (fun days => ⟨pastDue currentDate tasks, days⟩)

/-- The body of `main` after the control file is read: `files` are the todo
files in control-file order and `now` is the value of `time.Now()`. -/
def run (sortSlice : List Task → List Task) (fuel : Nat) (now : Time)
    (files : List TodoFile) : Run :=
  match readFiles files [] with
  | none => .panicked
  | some tasks =>
    match agenda sortSlice fuel now tasks with
    | none => .unfinished
    | some a => .printed a

/-- The line printed for a task: `fmt.Printf("  - %s (%s)\n", task.Text,
task.FilePath)`, without the newline. -/
def taskLine (task : Task) : List Char :=
  "  - ".toList ++ task.Text ++ " (".toList ++ task.FilePath ++ ")".toList

/-! ## Auxiliary definitions of the proofs -/

/-- Year and day of the year of a day count: the first half of `absDate`. -/
def yearDay (d : Int) : Int × Int :=
  let n := d / daysPer400Years
  let y := 400 * n
  let d := d - daysPer400Years * n
  let n := d / daysPer100Years
  let n := n - n / 4
  let y := y + 100 * n
  let d := d - daysPer100Years * n
  let n := d / daysPer4Years
  let y := y + 4 * n
  let d := d - daysPer4Years * n
  let n := d / 365
  let n := n - n / 4
  let y := y + n
  let d := d - 365 * n
  (y + 1, d)

/-- Month and day of a day of the year: the second half of `absDate`. -/
def monthDay (year yday : Int) : Int × Int × Int × Int :=
  let day := yday
  if isLeap year && decide (day = 31 + 29 - 1) then
    (year, 2, 29, yday)
  else
    let day := if isLeap year && decide (day > 31 + 29 - 1) then day - 1 else day
    let month := day / 31
    let stop := daysBefore (month + 1)
    let (month, begin) :=
      if day ≥ stop then (month + 1, stop) else (month, daysBefore month)
    (year, month + 1, day - begin + 1, yday)

/-- Day count of a calendar date, as `Date` computes it. -/
def civilDays (year month day : Int) : Int :=
  daysSinceEpoch year + daysBefore (month - 1) +
    (if isLeap year && decide (month ≥ 3) then 1 else 0) + (day - 1)

/-- Zone adjustment at the end of `Date`: from the local reading `unix` to
the Unix time. -/
def zoneAdjust (loc : Location) (unix : Int) : Int :=
  let (offset, start, stop) := loc.lookup unix
  if offset ≠ 0 then
    let utc := unix - offset
    let offset :=
      if utc < start ∨ utc ≥ stop then (loc.lookup utc).1 else offset
    unix - offset
  else unix

/-- A well-formed `Time`: the nanosecond lies within the second. -/
def Time.Valid (t : Time) : Prop := 0 ≤ t.nsec ∧ t.nsec < 1000000000

/-- A location without transitions: one UTC offset at all times. -/
def Location.Fixed (l : Location) : Prop := l.tx = []

/-- The numbers written in a text of the shape `YYYY-MM-DD`: four digits,
`-`, two digits, `-`, two digits. -/
def dateFields (s : List Char) : Option (Int × Int × Int) :=
  match s with
  | [y1, y2, y3, y4, s1, m1, m2, s2, d1, d2] =>
    if [y1, y2, y3, y4, m1, m2, d1, d2].all isDigitChar && s1 == '-' && s2 == '-' then
      some (1000 * digitVal y1 + 100 * digitVal y2 + 10 * digitVal y3 + digitVal y4,
        10 * digitVal m1 + digitVal m2, 10 * digitVal d1 + digitVal d2)
    else none
  | _ => none

/-- The calendar date written by a well-formed `YYYY-MM-DD` text: the
month is one of the twelve and the day exists in that month of that year;
`none` for every other text. -/
def calendarDate (s : List Char) : Option (Int × Int × Int) :=
  match dateFields s with
  | some (y, m, d) =>
    if 1 ≤ m ∧ m ≤ 12 ∧ 1 ≤ d ∧ d ≤ daysIn m y then some (y, m, d) else none
  | none => none

/-- The task `parseTask` fills in before the scan of the parts. -/
def baseTask (parts : List (List Char)) (filePath : List Char) : Task :=
  { Text := Join parts.tail " ".toList
    DueDate := Time.zero
    FilePath := TrimSuffix (Base filePath) ".todo.txt".toList
    Completed := false }

/-- The instant `t` is not after the instant `u`. -/
def Time.notAfter (t u : Time) : Prop :=
  t.sec < u.sec ∨ (t.sec = u.sec ∧ t.nsec ≤ u.nsec)

/-- The tasks of `out` that are due at the instant `d` stand in the order
they have in `inp`. -/
def keepsOrderAt (d : Time) (inp out : List Task) : Prop :=
  out.filter (fun t => t.DueDate.Equal d) = inp.filter (fun t => t.DueDate.Equal d)

/-- The sorted part, held reversed: no element is less than one that
follows it in the list. -/
def Descending (done : List Task) : Prop :=
  done.Pairwise (fun a b => lessDue a b = false)

/-- The lines of a todo file: twelve tasks due 2024-01-02 followed by one
task due 2024-01-01. -/
def thirteenLines : List (List Char) :=
  (["a01", "a02", "a03", "a04", "a05", "a06", "a07", "a08", "a09", "a10", "a11", "a12"].map
    (fun s => ("(A) " ++ s ++ " due:2024-01-02").toList)) ++ ["(A) b due:2024-01-01".toList]

/-- The collection the intake builds from `thirteenLines`. -/
def thirteenTasks : List Task :=
  (["a01", "a02", "a03", "a04", "a05", "a06", "a07", "a08", "a09", "a10", "a11", "a12"].map
    (fun s => (⟨(s ++ " due:2024-01-02").toList, Date 2024 1 2 23 59 59 0 UTC, "work".toList,
      false⟩ : Task))) ++
    [⟨"b due:2024-01-01".toList, Date 2024 1 1 23 59 59 0 UTC, "work".toList, false⟩]

/-- The tasks a file adds to the collection; `none` when a line of it
makes `parseTask` panic, the empty list when the file cannot be opened. -/
def fileTasks (file : TodoFile) : Option (List Task) :=
  match file.lines with
  | none => some []
  | some lines => scanLines file.path lines []

/-- Two runs of the intake end alike: both panic, or both return and the
collections are permutations of each other. -/
def sameIntake (r1 r2 : Option (List Task)) : Prop :=
  match r1, r2 with
  | none, none => True
  | some t1, some t2 => t1.Perm t2
  | _, _ => False

/-- Two lists of daily sections with the same headings and, under each
heading, the same tasks up to their order. -/
def sameDays (d1 d2 : List (Time × List Task)) : Prop :=
  List.Forall₂ (fun x y => x.1 = y.1 ∧ x.2.Perm y.2) d1 d2

/-- Two runs that end alike: both panic, both fail to finish, or both
print the same sections with the same tasks up to their order inside a
section. -/
def sameUpToTies (r1 r2 : Run) : Prop :=
  match r1, r2 with
  | .panicked, .panicked => True
  | .unfinished, .unfinished => True
  | .printed a, .printed b => a.pastDue.Perm b.pastDue ∧ sameDays a.days b.days
  | _, _ => False

/-- The end of a run of `main` whose intake ended with `r`. -/
def finish (sort : List Task → List Task) (fuel : Nat) (now : Time)
    (r : Option (List Task)) : Run :=
  match r with
  | none => .panicked
  | some tasks =>
    match agenda sort fuel now tasks with
    | none => .unfinished
    | some a => .printed a

/-- The instant at which the `i`-th daily section starts: `now` advanced
`i` times by `AddDate(0, 0, 1)`. -/
def dayStart (now : Time) : Nat → Time
  | 0 => now
  | i + 1 => dayStart (now.AddDate 0 0 1) i

/-- The lines printed under `[PAST DUE]` by a run that prints. -/
def pastDueLines (r : Run) : List (List Char) :=
  match r with
  | .printed a => a.pastDue.map taskLine
  | _ => []

/-- The texts of the tasks printed in each daily section by a run that
prints. -/
def dayTexts (r : Run) : List (List (List Char)) :=
  match r with
  | .printed a => a.days.map (fun d => d.2.map Task.Text)
  | _ => []

/-- A todo file with one task due 2024-01-01. -/
def fileOne : TodoFile := ⟨"/home/u/one.todo.txt".toList, some ["(A) pay due:2024-01-01".toList]⟩

/-- Another todo file with one task due 2024-01-01. -/
def fileTwo : TodoFile := ⟨"/home/u/two.todo.txt".toList, some ["(B) call due:2024-01-01".toList]⟩

/-- A todo file with one task due 2024-01-08. -/
def fileLate : TodoFile := ⟨"/home/u/late.todo.txt".toList, some ["(C) buy due:2024-01-08".toList]⟩

/-- A todo file with tasks due 2024-01-01, 2024-01-03 and 2024-01-02, in
this order. -/
def fileJan : TodoFile :=
  ⟨"/home/u/jan.todo.txt".toList,
    some ["(A) first due:2024-01-01".toList, "(A) third due:2024-01-03".toList,
      "(A) second due:2024-01-02".toList]⟩

/-- The collection the intake builds from `fileJan`. -/
def janTasks : List Task :=
  [⟨"first due:2024-01-01".toList, Date 2024 1 1 23 59 59 0 UTC, "jan".toList, false⟩,
   ⟨"third due:2024-01-03".toList, Date 2024 1 3 23 59 59 0 UTC, "jan".toList, false⟩,
   ⟨"second due:2024-01-02".toList, Date 2024 1 2 23 59 59 0 UTC, "jan".toList, false⟩]

/-- A todo file with one task due 2024-06-10. -/
def fileJune : TodoFile := ⟨"/home/u/work.todo.txt".toList, some ["(A) call due:2024-06-10".toList]⟩

/-- A todo file with one task due 2024-03-10. -/
def fileMarch : TodoFile :=
  ⟨"/home/u/work.todo.txt".toList, some ["(A) call due:2024-03-10".toList]⟩

/-- A location with the offset of US Eastern time and its transition to
daylight saving time of 2024-03-10 07:00:00 UTC. -/
def newYork : Location := ⟨-18000, [(1710054000, -14400)]⟩

/-- The first part that ends the scan of `parseTask`: the first one that is
prefixed with `due:` or equal to `x`. -/
def firstMarker : List (List Char) → Option (List Char)
  | [] => none
  | part :: rest =>
    if HasPrefix part "due:".toList || part == "x".toList then some part else firstMarker rest

/-- The Unix time of `t` (`t.Unix()`). -/
def Time.Unix (t : Time) : Int := t.sec + internalToUnix

/-- The UTC offset in force at `t` in the location of `t`. -/
def Time.offset (t : Time) : Int := (t.loc.lookup t.Unix).1

/-- The scan of `lookupFrom` for all the Unix times from `lo` to `hi` at
once: every offset the scan can end with for one of them. A transition at
or before `lo` is passed by all of them, one after `hi` stops all of them,
and one in between stops some and is passed by the others. -/
def offsetsFrom (lo hi : Int) : List (Int × Int) → Int → List Int
  | [], off => [off]
  | (w, o) :: rest, off =>
    if w ≤ lo then offsetsFrom lo hi rest o
    else if hi < w then [off]
    else off :: offsetsFrom lo hi rest o

/-- The UTC offsets in force in a location at the Unix times from `lo` to
`hi`. -/
def Location.offsetsOn (l : Location) (lo hi : Int) : List Int :=
  offsetsFrom lo hi l.tx l.zone0

/-- The UTC offsets in force in the location of `t` during the ten days
that start at `t`. -/
def Time.offsetsAhead (t : Time) : List Int :=
  t.loc.offsetsOn t.Unix (t.Unix + 10 * secondsPerDay)

/-- During the ten days that start at `t`, every UTC offset in force in the
location of `t` is within 24 hours of UTC, and no offset in force is more
than `d` seconds east of another one. -/
def Time.OffsetsWithin (t : Time) (d : Int) : Prop :=
  ∀ a ∈ t.offsetsAhead, -secondsPerDay ≤ a ∧ a ≤ secondsPerDay ∧
    ∀ b ∈ t.offsetsAhead, b - a ≤ d

/-- The location of `t` keeps the UTC offset it has at `t` through the seven
days that start at `t`. `Date` looks the zone up at the local clock reading
taken as a Unix time before it looks it up at the instant itself, so the
seven days are taken on both clocks: from `t` to `t` plus 7 times 24 hours,
and from the local reading of `t` plus 24 hours to the local reading of `t`
plus 7 times 24 hours. -/
def Time.Steady (t : Time) : Prop :=
  ∀ a ∈ t.loc.offsetsOn (min t.Unix (t.Unix + t.offset + secondsPerDay))
      (max (t.Unix + 7 * secondsPerDay) (t.Unix + t.offset + 7 * secondsPerDay)),
    a = t.offset

/-- A location whose clock moves from UTC-12 to UTC+14 at 2024-06-11
19:59:59 UTC, leaving out two calendar days. -/
def dateLine : Location := ⟨-43200, [(1718135999, 50400)]⟩

/-- The location `Asia/Manila`: local mean time 15:56 west of UTC until the
end of 1844, then 8:04 east of UTC, and UTC+8 since 1899 apart from spells
at UTC+9 in 1936-37, 1942-44, 1954 and 1978. -/
def manila : Location :=
  ⟨-57360, [(-3944621040, 29040), (-2229321840, 28800), (-1046678400, 32400),
    (-1038733200, 28800), (-873273600, 32400), (-794221200, 28800), (-496224000, 32400),
    (-489315600, 28800), (259344000, 32400), (275151600, 28800)]⟩

/-- The location `Pacific/Apia` from 2010 to 2013: UTC-11 with summer time
UTC-10, then, leaving out the calendar day 2011-12-30, UTC+13 with summer
time UTC+14. -/
def apia : Location :=
  ⟨-39600, [(1285498800, -36000), (1301752800, -39600), (1316872800, -36000),
    (1325239200, 50400), (1333202400, 46800), (1348927200, 50400), (1365256800, 46800)]⟩

/-- Every task line of the agenda, in print order: the past-due section,
then the daily sections. -/
def Agenda.rendered (a : Agenda) : List Task :=
  a.pastDue ++ (a.days.map (·.2)).flatten

/-- A todo file with one task due 2024-03-16. -/
def fileIdes : TodoFile :=
  ⟨"/home/u/work.todo.txt".toList, some ["(A) call due:2024-03-16".toList]⟩

/-- Three tasks due 2012-03-26, 2012-03-27 and 2012-03-31. -/
def apiaTasks : List Task :=
  [⟨"rent due:2012-03-26".toList, Date 2012 3 26 23 59 59 0 UTC, "home".toList, false⟩,
   ⟨"call due:2012-03-27".toList, Date 2012 3 27 23 59 59 0 UTC, "home".toList, false⟩,
   ⟨"boat due:2012-03-31".toList, Date 2012 3 31 23 59 59 0 UTC, "home".toList, false⟩]

/-- The collection the intake builds from `fileJune`. -/
def juneTasks : List Task :=
  [⟨"call due:2024-06-10".toList, Date 2024 6 10 23 59 59 0 UTC, "work".toList, false⟩]

/-- The collection the intake builds from `fileMarch`. -/
def marchTasks : List Task :=
  [⟨"call due:2024-03-10".toList, Date 2024 3 10 23 59 59 0 UTC, "work".toList, false⟩]

/-- The agenda of a run whose loop over the days ends after seven rounds:
the past-due section and the sections of the days that start at `now`
advanced 0 to 6 times by one calendar day. -/
def sevenDays (sortSlice : List Task → List Task) (now : Time) (tasks : List Task) : Agenda :=
  ⟨pastDue now (sortSlice tasks),
    (List.range 7).map (fun i => (dayStart now i, dayTasks (dayStart now i) (sortSlice tasks)))⟩

/-! ## The calendar of package `time` -/

theorem isLeap_iff (y : Int) :
    isLeap y = true ↔ y % 4 = 0 ∧ (y % 100 ≠ 0 ∨ y % 400 = 0) := by
  simp [isLeap]

/-- The cycle decomposition of a day count. -/
theorem cycles (d : Int) :
    ∃ a b c e yd : Int, yearDay d = (400 * a + 100 * b + 4 * c + e + 1, yd) ∧
      0 ≤ b ∧ b ≤ 3 ∧ 0 ≤ c ∧ c ≤ 24 ∧ 0 ≤ e ∧ e ≤ 3 ∧ 0 ≤ yd ∧ yd ≤ 365 ∧
      (yd = 365 → e = 3 ∧ (c = 24 → b = 3)) ∧
      d = 146097 * a + 36524 * b + 1461 * c + 365 * e + yd := by
  simp only [yearDay, daysPer400Years, daysPer100Years, daysPer4Years]
  norm_num only
  generalize ha : d / 146097 = a
  generalize hd1 : d - 146097 * a = d1
  have h1 : 0 ≤ d1 ∧ d1 < 146097 := by omega
  generalize hb0 : d1 / 36524 = b0
  generalize hb : b0 - b0 / 4 = b
  have h2 : 0 ≤ b ∧ b ≤ 3 ∧ (b0 = b ∨ (b0 = 4 ∧ b = 3)) := by omega
  generalize hd2 : d1 - 36524 * b = d2
  have h3 : 0 ≤ d2 ∧ d2 ≤ 36524 ∧ (d2 = 36524 → b = 3) := by omega
  generalize hc : d2 / 1461 = c
  generalize hd3 : d2 - 1461 * c = d3
  have h4 : 0 ≤ d3 ∧ d3 < 1461 ∧ 0 ≤ c ∧ c ≤ 24 := by omega
  generalize he0 : d3 / 365 = e0
  generalize he : e0 - e0 / 4 = e
  have h5 : 0 ≤ e ∧ e ≤ 3 ∧ (e0 = e ∨ (e0 = 4 ∧ e = 3)) := by omega
  refine ⟨a, b, c, e, d3 - 365 * e, rfl, ?_, ?_, ?_, ?_, ?_, ?_, ?_, ?_, ?_, ?_⟩ <;> omega

theorem daysSinceEpoch_cycles (a b c e : Int) (hb : 0 ≤ b ∧ b ≤ 3) (hc : 0 ≤ c ∧ c ≤ 24)
    (he : 0 ≤ e ∧ e ≤ 3) :
    daysSinceEpoch (400 * a + 100 * b + 4 * c + e + 1) =
      146097 * a + 36524 * b + 1461 * c + 365 * e := by
  simp only [daysSinceEpoch, daysPer400Years, daysPer100Years, daysPer4Years]
  norm_num only
  have h0 : 400 * a + 100 * b + 4 * c + e + 1 - 1 = 400 * a + 100 * b + 4 * c + e := by omega
  rw [h0]
  have h1 : (400 * a + 100 * b + 4 * c + e) / 400 = a := by omega
  rw [h1]
  have h2 : (400 * a + 100 * b + 4 * c + e - 400 * a) / 100 = b := by omega
  rw [h2]
  have h3 : (400 * a + 100 * b + 4 * c + e - 400 * a - 100 * b) / 4 = c := by omega
  rw [h3]
  omega

theorem yearDay_spec (d : Int) :
    daysSinceEpoch (yearDay d).1 + (yearDay d).2 = d ∧ 0 ≤ (yearDay d).2 ∧
      (yearDay d).2 < 365 + (if isLeap (yearDay d).1 then 1 else 0) := by
  obtain ⟨a, b, c, e, yd, hy, hb0, hb1, hc0, hc1, he0, he1, hyd0, hyd1, hleap, hd⟩ := cycles d
  rw [hy]
  simp only
  rw [daysSinceEpoch_cycles a b c e ⟨hb0, hb1⟩ ⟨hc0, hc1⟩ ⟨he0, he1⟩]
  refine ⟨by omega, hyd0, ?_⟩
  split
  · omega
  · rename_i h
    rw [isLeap_iff] at h
    omega

theorem absDate_eq (abs : Int) :
    absDate abs = monthDay (yearDay (abs / secondsPerDay)).1 (yearDay (abs / secondsPerDay)).2 :=
  rfl

theorem daysBefore_vals :
    daysBefore 0 = 0 ∧ daysBefore 1 = 31 ∧ daysBefore 2 = 59 ∧ daysBefore 3 = 90 ∧
    daysBefore 4 = 120 ∧ daysBefore 5 = 151 ∧ daysBefore 6 = 181 ∧ daysBefore 7 = 212 ∧
    daysBefore 8 = 243 ∧ daysBefore 9 = 273 ∧ daysBefore 10 = 304 ∧ daysBefore 11 = 334 ∧
    daysBefore 12 = 365 := by decide

theorem month_part (day : Int) (h0 : 0 ≤ day) (h1 : day < 365) :
    ∃ mo : Int, 0 ≤ mo ∧ mo ≤ 11 ∧ daysBefore mo ≤ day ∧ day < daysBefore (mo + 1) ∧
      (if day ≥ daysBefore (day / 31 + 1) then (day / 31 + 1, daysBefore (day / 31 + 1))
        else (day / 31, daysBefore (day / 31))) = (mo, daysBefore mo) := by
  obtain ⟨v0, v1, v2, v3, v4, v5, v6, v7, v8, v9, v10, v11, v12⟩ := daysBefore_vals
  have hm : day / 31 = 0 ∨ day / 31 = 1 ∨ day / 31 = 2 ∨ day / 31 = 3 ∨ day / 31 = 4 ∨
      day / 31 = 5 ∨ day / 31 = 6 ∨ day / 31 = 7 ∨ day / 31 = 8 ∨ day / 31 = 9 ∨
      day / 31 = 10 ∨ day / 31 = 11 := by omega
  rcases hm with h | h | h | h | h | h | h | h | h | h | h | h <;> rw [h] <;>
    norm_num only [v0, v1, v2, v3, v4, v5, v6, v7, v8, v9, v10, v11, v12] <;>
    split
  all_goals first
    | (exfalso; omega)
    | (refine ⟨_, ?_, ?_, ?_, ?_, rfl⟩ <;>
        norm_num only [v0, v1, v2, v3, v4, v5, v6, v7, v8, v9, v10, v11, v12] <;> omega)

/-- Facts on a month index `0..11` used to turn table look-ups into
arithmetic. -/
theorem month_cases (mo : Int) (h0 : 0 ≤ mo) (h1 : mo ≤ 11) :
    mo = 0 ∨ mo = 1 ∨ mo = 2 ∨ mo = 3 ∨ mo = 4 ∨ mo = 5 ∨ mo = 6 ∨ mo = 7 ∨ mo = 8 ∨
      mo = 9 ∨ mo = 10 ∨ mo = 11 := by omega

theorem monthDay_spec (y yd : Int) (h0 : 0 ≤ yd)
    (h1 : yd < 365 + (if isLeap y then 1 else 0)) :
    (monthDay y yd).1 = y ∧ 1 ≤ (monthDay y yd).2.1 ∧ (monthDay y yd).2.1 ≤ 12 ∧
      1 ≤ (monthDay y yd).2.2.1 ∧ (monthDay y yd).2.2.1 ≤ daysIn (monthDay y yd).2.1 y ∧
      daysBefore ((monthDay y yd).2.1 - 1) +
        (if isLeap y && decide ((monthDay y yd).2.1 ≥ 3) then 1 else 0) +
        ((monthDay y yd).2.2.1 - 1) = yd := by
  obtain ⟨v0, v1, v2, v3, v4, v5, v6, v7, v8, v9, v10, v11, v12⟩ := daysBefore_vals
  unfold monthDay
  cases hl : isLeap y
  · -- common year
    simp only [hl, if_false, Bool.false_and, Bool.false_eq_true] at h1 ⊢
    obtain ⟨mo, hm0, hm1, hlo, hhi, he⟩ := month_part yd h0 (by omega)
    simp only [he]
    have e1 : mo + 1 - 1 = mo := by omega
    simp only [e1, daysIn, hl, Bool.and_false, Bool.false_eq_true, if_false]
    refine ⟨?_, ?_, ?_, ?_, ?_, ?_⟩ <;> first | trivial | omega
  · simp only [hl, if_true, Bool.true_and] at h1 ⊢
    by_cases h59 : yd = 31 + 29 - 1
    · simp only [h59, decide_True, if_true, daysIn, hl]
      norm_num [v1]
    · simp only [h59, decide_False, Bool.false_eq_true, if_false]
      by_cases hgt : yd > 31 + 29 - 1
      · simp only [hgt, decide_True, if_true]
        obtain ⟨mo, hm0, hm1, hlo, hhi, he⟩ := month_part (yd - 1) (by omega) (by omega)
        simp only [he]
        have e1 : mo + 1 - 1 = mo := by omega
        simp only [e1, daysIn, hl, Bool.and_true]
        have hmo : 2 ≤ mo := by
          rcases month_cases mo hm0 hm1 with h | h | h | h | h | h | h | h | h | h | h | h <;>
            subst h <;> norm_num only [v0, v1, v2] at hhi ⊢ <;> omega
        have hd : decide (mo + 1 ≥ 3) = true := by simp; omega
        have hd2 : decide (mo + 1 = 2) = false := by simp; omega
        simp only [hd, hd2, if_true, Bool.false_eq_true, if_false, beq_iff_eq]
        refine ⟨?_, ?_, ?_, ?_, ?_, ?_⟩ <;> first | trivial | omega
      · simp only [hgt, decide_False, Bool.false_eq_true, if_false]
        obtain ⟨mo, hm0, hm1, hlo, hhi, he⟩ := month_part yd (by omega) (by omega)
        simp only [he]
        have e1 : mo + 1 - 1 = mo := by omega
        simp only [e1, daysIn, hl, Bool.and_true]
        have hmo : mo ≤ 1 := by
          rcases month_cases mo hm0 hm1 with h | h | h | h | h | h | h | h | h | h | h | h <;>
            subst h <;> norm_num only [v0, v1, v2, v3, v4, v5, v6, v7, v8, v9, v10, v11, v12] at hlo ⊢ <;> omega
        have hd : decide (mo + 1 ≥ 3) = false := by simp; omega
        simp only [hd, Bool.false_eq_true, if_false]
        rcases month_cases mo hm0 hm1 with h | h | h | h | h | h | h | h | h | h | h | h <;>
          subst h <;> norm_num [v0, v1, v2] at hlo hhi hmo ⊢ <;> omega

/-- The calendar date of `absDate` is a valid date whose day count is the
day part of the argument. -/
theorem absDate_spec (abs : Int) :
    1 ≤ (absDate abs).2.1 ∧ (absDate abs).2.1 ≤ 12 ∧ 1 ≤ (absDate abs).2.2.1 ∧
      (absDate abs).2.2.1 ≤ daysIn (absDate abs).2.1 (absDate abs).1 ∧
      civilDays (absDate abs).1 (absDate abs).2.1 (absDate abs).2.2.1 = abs / secondsPerDay := by
  rw [absDate_eq]
  obtain ⟨hd, hy0, hy1⟩ := yearDay_spec (abs / secondsPerDay)
  obtain ⟨m1, m2, m3, m4, m5, m6⟩ := monthDay_spec _ _ hy0 hy1
  refine ⟨m2, m3, m4, ?_, ?_⟩
  · rw [m1]; exact m5
  · unfold civilDays
    rw [m1]
    omega

theorem norm_id (hi lo base : Int) (h0 : 0 ≤ lo) (h1 : lo < base) : norm hi lo base = (hi, lo) := by
  unfold norm
  have a : ¬ lo < 0 := by omega
  have b : ¬ lo ≥ base := by omega
  simp only [a, b, if_false]

/-- `Date` on fields that need no carrying. -/
theorem Date_normal (year month day hour min sec nsec : Int) (loc : Location)
    (hm : 1 ≤ month ∧ month ≤ 12) (hh : 0 ≤ hour ∧ hour < 24) (hmi : 0 ≤ min ∧ min < 60)
    (hs : 0 ≤ sec ∧ sec < 60) (hn : 0 ≤ nsec ∧ nsec < 1000000000) :
    Date year month day hour min sec nsec loc =
      ⟨zoneAdjust loc (civilDays year month day * secondsPerDay +
          (hour * 3600 + min * 60 + sec) + internalToUnix) + unixToInternal, nsec, loc⟩ := by
  have n1 := norm_id year (month - 1) 12 (by omega) (by omega)
  have n2 := norm_id sec nsec 1000000000 hn.1 hn.2
  have n3 := norm_id min sec 60 hs.1 hs.2
  have n4 := norm_id hour min 60 hmi.1 hmi.2
  have n5 := norm_id day hour 24 hh.1 hh.2
  have e : month - 1 + 1 = month := by omega
  have hc : (if (isLeap year && decide (month ≥ 3)) = true then
        daysSinceEpoch year + daysBefore (month - 1) + 1
      else daysSinceEpoch year + daysBefore (month - 1)) + (day - 1) = civilDays year month day := by
    unfold civilDays
    split <;> omega
  unfold Date zoneAdjust
  simp only [n1]
  simp only [n2, n3, n4, n5]
  rw [e, hc]

theorem civilDays_add (y m d k : Int) : civilDays y m (d + k) = civilDays y m d + k := by
  unfold civilDays; omega

/-- `AddDate(0, 0, k)` moves the local clock reading by `k` days. -/
theorem AddDate_days (t : Time) (k : Int) (hn : t.Valid) :
    t.AddDate 0 0 k =
      ⟨zoneAdjust t.loc (t.abs + secondsPerDay * k + internalToUnix) + unixToInternal,
        t.nsec, t.loc⟩ := by
  obtain ⟨a1, a2, _, _, a5⟩ := absDate_spec t.abs
  unfold Time.AddDate Time.Year Time.Month Time.Day Time.Hour Time.Minute Time.Second
  simp only [add_zero]
  rw [Date_normal _ _ _ _ _ _ _ _ ⟨a1, a2⟩ (by unfold secondsPerDay; omega) (by omega) (by omega) hn]
  rw [civilDays_add, a5]
  have e : (t.abs / secondsPerDay + k) * secondsPerDay +
      (t.abs % secondsPerDay / 3600 * 3600 + t.abs % 3600 / 60 * 60 + t.abs % 60) =
      t.abs + secondsPerDay * k := by
    unfold secondsPerDay; omega
  rw [e]

theorem lookup_fixed (l : Location) (h : l.Fixed) (sec : Int) :
    l.lookup sec = (l.zone0, alpha, omega) := by
  unfold Location.lookup
  rw [h]
  rfl

theorem zoneAdjust_fixed (l : Location) (h : l.Fixed) (unix : Int) :
    zoneAdjust l unix = unix - l.zone0 := by
  unfold zoneAdjust
  simp only [lookup_fixed l h]
  split
  · split <;> rfl
  · rename_i h0
    simp only [ne_eq, not_not] at h0
    omega

theorem abs_fixed (t : Time) (h : t.loc.Fixed) : t.abs = t.sec + t.loc.zone0 := by
  unfold Time.abs
  rw [lookup_fixed _ h]

/-- In a location with one offset `AddDate(0, 0, k)` adds `k` times 24
hours. -/
theorem AddDate_fixed (t : Time) (k : Int) (hn : t.Valid) (h : t.loc.Fixed) :
    t.AddDate 0 0 k = t.addSeconds (secondsPerDay * k) := by
  rw [AddDate_days t k hn, zoneAdjust_fixed _ h, abs_fixed t h]
  unfold Time.addSeconds internalToUnix
  congr 1
  omega

theorem daysSinceEpoch_closed (y : Int) :
    daysSinceEpoch y = 365 * (y - 1) + (y - 1) / 4 - (y - 1) / 100 + (y - 1) / 400 := by
  simp only [daysSinceEpoch, daysPer400Years, daysPer100Years, daysPer4Years]
  norm_num only
  generalize hz : y - 1 = z
  generalize ha : z / 400 = a
  generalize hz1 : z - 400 * a = z1
  have h1 : 0 ≤ z1 ∧ z1 < 400 := by omega
  generalize hb : z1 / 100 = b
  generalize hz2 : z1 - 100 * b = z2
  have h2 : 0 ≤ z2 ∧ z2 < 100 ∧ 0 ≤ b ∧ b ≤ 3 := by omega
  generalize hc : z2 / 4 = c
  have e4 : z / 4 = 100 * a + 25 * b + c := by omega
  have e100 : z / 100 = 4 * a + b := by omega
  omega

theorem daysSinceEpoch_succ (y : Int) :
    daysSinceEpoch (y + 1) = daysSinceEpoch y + 365 + (if isLeap y then 1 else 0) := by
  rw [daysSinceEpoch_closed, daysSinceEpoch_closed]
  have e : y + 1 - 1 = y := by omega
  rw [e]
  split
  · rename_i h
    rw [isLeap_iff] at h
    omega
  · rename_i h
    rw [isLeap_iff] at h
    omega

theorem daysSinceEpoch_mono (y : Int) (k : Nat) :
    daysSinceEpoch (y + 1) ≤ daysSinceEpoch (y + 1 + k) := by
  induction k with
  | zero => simp
  | succ n ih =>
    have := daysSinceEpoch_succ (y + 1 + n)
    have e : y + 1 + ((n + 1 : Nat) : Int) = y + 1 + n + 1 := by push_cast; ring
    rw [e, this]
    split <;> omega

/-- A valid date lies within its year. -/
theorem civilDays_bounds (y m d : Int) (hm : 1 ≤ m ∧ m ≤ 12) (hd : 1 ≤ d ∧ d ≤ daysIn m y) :
    daysSinceEpoch y ≤ civilDays y m d ∧ civilDays y m d < daysSinceEpoch (y + 1) := by
  obtain ⟨v0, v1, v2, v3, v4, v5, v6, v7, v8, v9, v10, v11, v12⟩ := daysBefore_vals
  rw [daysSinceEpoch_succ]
  unfold civilDays
  unfold daysIn at hd
  have hc : m = 1 ∨ m = 2 ∨ m = 3 ∨ m = 4 ∨ m = 5 ∨ m = 6 ∨ m = 7 ∨ m = 8 ∨ m = 9 ∨
      m = 10 ∨ m = 11 ∨ m = 12 := by omega
  cases hl : isLeap y <;>
  rcases hc with h | h | h | h | h | h | h | h | h | h | h | h <;> subst h <;>
    norm_num [hl, v0, v1, v2, v3, v4, v5, v6, v7, v8, v9, v10, v11, v12] at hd ⊢ <;> omega

theorem civilDays_year (y m d y2 m2 d2 : Int) (hm : 1 ≤ m ∧ m ≤ 12)
    (hd : 1 ≤ d ∧ d ≤ daysIn m y) (hm2 : 1 ≤ m2 ∧ m2 ≤ 12) (hd2 : 1 ≤ d2 ∧ d2 ≤ daysIn m2 y2)
    (h : civilDays y m d = civilDays y2 m2 d2) : y = y2 := by
  have b1 := civilDays_bounds y m d hm hd
  have b2 := civilDays_bounds y2 m2 d2 hm2 hd2
  by_contra hne
  rcases Int.lt_or_gt_of_ne hne with hlt | hgt
  · have := daysSinceEpoch_mono y (y2 - y - 1).toNat
    have e : y + 1 + ((y2 - y - 1).toNat : Int) = y2 := by omega
    rw [e] at this
    omega
  · have := daysSinceEpoch_mono y2 (y - y2 - 1).toNat
    have e : y2 + 1 + ((y - y2 - 1).toNat : Int) = y := by omega
    rw [e] at this
    omega

/-- Inside one year the day count determines the month and the day. -/
theorem civilDays_month (y m d m2 d2 : Int) (hm : 1 ≤ m ∧ m ≤ 12)
    (hd : 1 ≤ d ∧ d ≤ daysIn m y) (hm2 : 1 ≤ m2 ∧ m2 ≤ 12) (hd2 : 1 ≤ d2 ∧ d2 ≤ daysIn m2 y)
    (h : civilDays y m d = civilDays y m2 d2) : m = m2 ∧ d = d2 := by
  obtain ⟨v0, v1, v2, v3, v4, v5, v6, v7, v8, v9, v10, v11, v12⟩ := daysBefore_vals
  unfold civilDays at h
  unfold daysIn at hd hd2
  have hc : m = 1 ∨ m = 2 ∨ m = 3 ∨ m = 4 ∨ m = 5 ∨ m = 6 ∨ m = 7 ∨ m = 8 ∨ m = 9 ∨
      m = 10 ∨ m = 11 ∨ m = 12 := by omega
  have hc2 : m2 = 1 ∨ m2 = 2 ∨ m2 = 3 ∨ m2 = 4 ∨ m2 = 5 ∨ m2 = 6 ∨ m2 = 7 ∨ m2 = 8 ∨ m2 = 9 ∨
      m2 = 10 ∨ m2 = 11 ∨ m2 = 12 := by omega
  cases hl : isLeap y <;>
  rcases hc with c | c | c | c | c | c | c | c | c | c | c | c <;> subst c <;>
  norm_num [hl, v0, v1, v2, v3, v4, v5, v6, v7, v8, v9, v10, v11, v12] at hd h <;>
  rcases hc2 with c | c | c | c | c | c | c | c | c | c | c | c <;> subst c <;>
  norm_num [hl, v0, v1, v2, v3, v4, v5, v6, v7, v8, v9, v10, v11, v12] at hd2 h ⊢ <;> omega

/-- `absDate` recovers a valid date from any second of its day. -/
theorem absDate_civilDays (y m d r : Int) (hm : 1 ≤ m ∧ m ≤ 12) (hd : 1 ≤ d ∧ d ≤ daysIn m y)
    (hr : 0 ≤ r ∧ r < secondsPerDay) :
    (absDate (civilDays y m d * secondsPerDay + r)).1 = y ∧
      (absDate (civilDays y m d * secondsPerDay + r)).2.1 = m ∧
      (absDate (civilDays y m d * secondsPerDay + r)).2.2.1 = d := by
  obtain ⟨a1, a2, a3, a4, a5⟩ := absDate_spec (civilDays y m d * secondsPerDay + r)
  have e : (civilDays y m d * secondsPerDay + r) / secondsPerDay = civilDays y m d := by
    unfold secondsPerDay at hr ⊢; omega
  rw [e] at a5
  have hy := civilDays_year _ _ _ _ _ _ ⟨a1, a2⟩ ⟨a3, a4⟩ hm hd a5
  rw [hy] at a4 a5
  have := civilDays_month _ _ _ _ _ ⟨a1, a2⟩ ⟨a3, a4⟩ hm hd a5
  exact ⟨hy, this.1, this.2⟩

/-! ## The layout `2006-01-02` -/

theorem Parse_fields (s : List Char) (y m d : Int) (h : dateFields s = some (y, m, d)) :
    Parse s =
      if m ≤ 0 ∨ 12 < m then (Time.zero, some .monthOutOfRange)
      else if d < 1 ∨ d > daysIn m y then (Time.zero, some .dayOutOfRange)
      else (Date y m d 0 0 0 0 UTC, none) := by
  unfold dateFields at h
  split at h
  · rename_i y1 y2 y3 y4 s1 m1 m2 s2 d1 d2
    split at h
    · rename_i hc
      simp only [List.all_cons, List.all_nil, Bool.and_true, Bool.and_eq_true, beq_iff_eq] at hc
      obtain ⟨⟨⟨hy1, hy2, hy3, hy4, hm1, hm2, hd1, hd2⟩, hs1⟩, hs2⟩ := hc
      simp only [Option.some.injEq, Prod.mk.injEq] at h
      obtain ⟨rfl, rfl, rfl⟩ := h
      subst hs1 hs2
      simp [Parse, isDigit, atoi, getnum, skipDash, hy1, hy2, hy3, hy4, hm1, hm2, hd1, hd2]
      have e1 : digitVal m1 * 10 + digitVal m2 = 10 * digitVal m1 + digitVal m2 := by ring
      have e2 : digitVal d1 * 10 + digitVal d2 = 10 * digitVal d1 + digitVal d2 := by ring
      have e3 : 10 * (10 * (10 * digitVal y1 + digitVal y2) + digitVal y3) + digitVal y4 =
          1000 * digitVal y1 + 100 * digitVal y2 + 10 * digitVal y3 + digitVal y4 := by ring
      rw [e1, e2, e3]
    · exact absurd h (by simp)
  · exact absurd h (by simp)

theorem getnum_some (v rest : List Char) (n : Int) (h : getnum v = some (n, rest)) :
    ∃ a b, v = a :: b :: rest ∧ isDigitChar a = true ∧ isDigitChar b = true ∧
      n = digitVal a * 10 + digitVal b := by
  unfold getnum at h
  rcases v with _ | ⟨a, _ | ⟨b, r⟩⟩
  · simp [isDigit] at h
  · simp [isDigit] at h
  · simp only [isDigit, List.get?] at h
    by_cases ha : isDigitChar a = true
    · by_cases hb : isDigitChar b = true
      · simp only [ha, hb, Bool.not_true, Bool.false_eq_true, if_false, Option.some.injEq,
          Prod.mk.injEq] at h
        exact ⟨a, b, by rw [h.2], ha, hb, h.1.symm⟩
      · simp [ha, hb] at h
    · simp [ha] at h

theorem skipDash_some (v rest : List Char) (h : skipDash v = some rest) : v = '-' :: rest := by
  unfold skipDash at h
  rcases v with _ | ⟨c, r⟩
  · simp at h
  · by_cases hc : c = '-'
    · simp [hc] at h; rw [hc, h]
    · simp [hc] at h

theorem atoi_some (v : List Char) (year : Int) (hl : ¬ v.length < 4)
    (h : atoi (v.take 4) = some year) :
    ∃ a b c d rest, v = a :: b :: c :: d :: rest ∧ isDigitChar a = true ∧
      isDigitChar b = true ∧ isDigitChar c = true ∧ isDigitChar d = true ∧
      year = 10 * (10 * (10 * digitVal a + digitVal b) + digitVal c) + digitVal d := by
  rcases v with _ | ⟨a, _ | ⟨b, _ | ⟨c, _ | ⟨d, rest⟩⟩⟩⟩
  · simp at hl
  · simp at hl
  · simp at hl
  · simp at hl
  · unfold atoi at h
    simp only [List.take, List.all_cons, List.all_nil, Bool.and_true] at h
    split at h
    · rename_i hc
      simp only [Bool.and_eq_true] at hc
      simp only [List.foldl, Option.some.injEq] at h
      exact ⟨a, b, c, d, rest, rfl, hc.1, hc.2.1, hc.2.2.1, hc.2.2.2, by rw [← h]; ring⟩
    · simp at h

/-- A text accepted by `Parse` has the shape `YYYY-MM-DD`. -/
theorem Parse_ok_fields (s : List Char) (h : (Parse s).2 = none) :
    ∃ y m d, dateFields s = some (y, m, d) := by
  unfold Parse at h
  split at h
  · simp at h
  · rename_i hlen
    simp only [Bool.or_eq_true, decide_eq_true_eq, not_or] at hlen
    split at h
    · simp at h
    · rename_i year hy
      obtain ⟨a, b, c, d, r1, rfl, ha, hb, hc, hd, -⟩ := atoi_some s year hlen.1 hy
      simp only [List.drop] at h
      split at h
      · simp at h
      · rename_i v1 h1
        have := skipDash_some _ _ h1
        subst this
        split at h
        · simp at h
        · rename_i month v2 h2
          obtain ⟨m1, m2, rfl, hm1, hm2, -⟩ := getnum_some _ _ _ h2
          split at h
          · simp at h
          · split at h
            · simp at h
            · rename_i v3 h3
              have := skipDash_some _ _ h3
              subst this
              split at h
              · simp at h
              · rename_i day v4 h4
                obtain ⟨d1, d2, rfl, hd1, hd2, -⟩ := getnum_some _ _ _ h4
                split at h
                · simp at h
                · rename_i h5
                  simp only [ne_eq, List.length_eq_zero, not_not] at h5
                  subst h5
                  simp [dateFields, ha, hb, hc, hd, hm1, hm2, hd1, hd2]

theorem Parse_no_fields (s : List Char) (h : dateFields s = none) : (Parse s).2 ≠ none := by
  intro hp
  obtain ⟨y, m, d, hf⟩ := Parse_ok_fields s hp
  rw [h] at hf
  exact absurd hf (by simp)

/-- `Parse` accepts a well-formed date and yields its day at 00:00:00 UTC. -/
theorem Parse_calendarDate (s : List Char) (y m d : Int) (h : calendarDate s = some (y, m, d)) :
    Parse s = (Date y m d 0 0 0 0 UTC, none) ∧ 1 ≤ m ∧ m ≤ 12 ∧ 1 ≤ d ∧ d ≤ daysIn m y := by
  unfold calendarDate at h
  split at h
  · rename_i y0 m0 d0 hf
    split at h
    · rename_i hv
      simp only [Option.some.injEq, Prod.mk.injEq] at h
      obtain ⟨rfl, rfl, rfl⟩ := h
      refine ⟨?_, hv⟩
      rw [Parse_fields s _ _ _ hf]
      have c1 : ¬ (m0 ≤ 0 ∨ 12 < m0) := by omega
      have c2 : ¬ (d0 < 1 ∨ d0 > daysIn m0 y0) := by omega
      simp only [c1, c2, if_false]
    · simp at h
  · simp at h

/-- `Parse` rejects every text that is not a well-formed date. -/
theorem Parse_malformed (s : List Char) (h : calendarDate s = none) : (Parse s).2 ≠ none := by
  unfold calendarDate at h
  split at h
  · rename_i y0 m0 d0 hf
    split at h
    · simp at h
    · rename_i hv
      rw [Parse_fields s _ _ _ hf]
      by_cases c1 : m0 ≤ 0 ∨ 12 < m0
      · simp [c1]
      · by_cases c2 : d0 < 1 ∨ d0 > daysIn m0 y0
        · simp [c1, c2]
        · exact absurd (by omega) hv
  · rename_i hf
    exact Parse_no_fields s hf

theorem zoneAdjust_UTC (unix : Int) : zoneAdjust UTC unix = unix := by
  have h : UTC.Fixed := rfl
  rw [zoneAdjust_fixed UTC h]
  show unix - 0 = unix
  omega

/-- Seconds of a UTC date with fields that need no carrying. -/
theorem Date_UTC (year month day hour min sec : Int)
    (hm : 1 ≤ month ∧ month ≤ 12) (hh : 0 ≤ hour ∧ hour < 24) (hmi : 0 ≤ min ∧ min < 60)
    (hs : 0 ≤ sec ∧ sec < 60) :
    Date year month day hour min sec 0 UTC =
      ⟨civilDays year month day * secondsPerDay + (hour * 3600 + min * 60 + sec), 0, UTC⟩ := by
  rw [Date_normal year month day hour min sec 0 UTC hm hh hmi hs (by omega), zoneAdjust_UTC]
  unfold internalToUnix
  congr 1
  omega

theorem abs_UTC (sec nsec : Int) : (Time.mk sec nsec UTC).abs = sec := by
  have h : (Time.mk sec nsec UTC).loc.Fixed := rfl
  rw [abs_fixed _ h]
  show sec + 0 = sec
  omega

/-- `parseDueDate` on a well-formed date: the end of that day, in UTC. -/
theorem parseDueDate_calendarDate (s : List Char) (y m d : Int)
    (h : calendarDate s = some (y, m, d)) :
    parseDueDate s = (Date y m d 23 59 59 0 UTC, none) := by
  obtain ⟨hp, hm1, hm2, -, -⟩ := Parse_calendarDate s y m d h
  unfold parseDueDate
  rw [hp]
  simp only [ne_eq, not_true_eq_false, if_false]
  rw [Date_UTC y m d 0 0 0 ⟨hm1, hm2⟩ (by omega) (by omega) (by omega)]
  unfold Time.Year Time.Month Time.Day Time.Location
  simp only [abs_UTC]
  obtain ⟨a1, a2, -, -, a5⟩ := absDate_spec (civilDays y m d * secondsPerDay + (0 * 3600 + 0 * 60 + 0))
  rw [Date_UTC _ _ _ 23 59 59 ⟨a1, a2⟩ (by omega) (by omega) (by omega),
    Date_UTC y m d 23 59 59 ⟨hm1, hm2⟩ (by omega) (by omega) (by omega), a5]
  congr 2
  unfold secondsPerDay
  omega

/-- `parseDueDate` fails on every text that is not a well-formed date. -/
theorem parseDueDate_malformed (s : List Char) (h : calendarDate s = none) :
    ∃ e, parseDueDate s = (Time.zero, some e) := by
  have hp := Parse_malformed s h
  unfold parseDueDate
  cases hq : Parse s with
  | mk t err =>
    rw [hq] at hp
    cases err with
    | none => exact absurd rfl hp
    | some e => exact ⟨e, by simp⟩

/-- The fields of the end of a valid day, read back from the `Time`. -/
theorem Date_endOfDay (y m d : Int) (hm : 1 ≤ m ∧ m ≤ 12) (hd : 1 ≤ d ∧ d ≤ daysIn m y) :
    (Date y m d 23 59 59 0 UTC).Year = y ∧ (Date y m d 23 59 59 0 UTC).Month = m ∧
      (Date y m d 23 59 59 0 UTC).Day = d ∧ (Date y m d 23 59 59 0 UTC).Hour = 23 ∧
      (Date y m d 23 59 59 0 UTC).Minute = 59 ∧ (Date y m d 23 59 59 0 UTC).Second = 59 ∧
      (Date y m d 23 59 59 0 UTC).nsec = 0 ∧ (Date y m d 23 59 59 0 UTC).Location = UTC ∧
      (Date y m d 23 59 59 0 UTC).IsZero = false := by
  rw [Date_UTC y m d 23 59 59 hm (by omega) (by omega) (by omega)]
  unfold Time.Year Time.Month Time.Day Time.Hour Time.Minute Time.Second Time.Location Time.IsZero
  simp only [abs_UTC]
  have e : (23 : Int) * 3600 + 59 * 60 + 59 = 86399 := by norm_num
  rw [e]
  obtain ⟨r1, r2, r3⟩ := absDate_civilDays y m d 86399 hm hd (by unfold secondsPerDay; omega)
  refine ⟨r1, r2, r3, ?_, ?_, ?_, trivial, trivial, ?_⟩
  · unfold secondsPerDay; omega
  · unfold secondsPerDay; omega
  · unfold secondsPerDay; omega
  · have : civilDays y m d * secondsPerDay + 86399 ≠ 0 := by unfold secondsPerDay; omega
    simp [this]

/-! ## `strings.Fields` -/

theorem fieldsFrom_eq_nil (s cur : List Char) :
    fieldsFrom s cur = [] ↔ cur = [] ∧ ∀ c ∈ s, isSpace c = true := by
  induction s generalizing cur with
  | nil => cases cur <;> simp [fieldsFrom]
  | cons c cs ih =>
    unfold fieldsFrom
    by_cases hc : isSpace c = true
    · cases cur with
      | nil => simp [hc, ih]
      | cons a as => simp [hc]
    · simp [hc, ih]

/-- A line has no token exactly when it is empty or all white space. -/
theorem Fields_eq_nil (s : List Char) : Fields s = [] ↔ ∀ c ∈ s, isSpace c = true := by
  unfold Fields
  rw [fieldsFrom_eq_nil]
  simp

/-! ## `parseTask` -/

theorem parseTask_eq (line path : List Char) (h : Fields line ≠ []) :
    parseTask line path = some (scanParts (baseTask (Fields line) path) (Fields line)) := by
  unfold parseTask
  cases hf : Fields line with
  | nil => exact absurd hf h
  | cons a as => rfl

theorem parseTask_eq_none (line path : List Char) :
    parseTask line path = none ↔ Fields line = [] := by
  unfold parseTask
  cases hf : Fields line <;> simp

theorem HasPrefix_append (p s : List Char) : HasPrefix (p ++ s) p = true := by
  simp [HasPrefix]

theorem TrimPrefix_append (p s : List Char) : TrimPrefix (p ++ s) p = s := by
  simp [TrimPrefix, HasPrefix]

/-- Parts that are neither prefixed with `due:` nor equal to `x` are passed
over by the scan. -/
theorem scanParts_skip (task : Task) (pre rest : List (List Char))
    (hd : ∀ p ∈ pre, HasPrefix p "due:".toList = false) (hx : ∀ p ∈ pre, p ≠ "x".toList) :
    scanParts task (pre ++ rest) = scanParts task rest := by
  induction pre with
  | nil => rfl
  | cons p ps ih =>
    have h1 := hd p (List.mem_cons_self _ _)
    have h2 := hx p (List.mem_cons_self _ _)
    rw [List.cons_append, scanParts]
    simp only [h1, Bool.false_eq_true, if_false, h2]
    exact ih (fun q hq => hd q (List.mem_cons_of_mem _ hq)) (fun q hq => hx q (List.mem_cons_of_mem _ hq))

theorem scanParts_x (task : Task) (rest : List (List Char)) :
    scanParts task ("x".toList :: rest) = ({ task with Completed := true }, none) := by
  have : HasPrefix "x".toList "due:".toList = false := by decide
  rw [scanParts, if_neg (by rw [this]; simp), if_pos rfl]

theorem scanParts_due_ok (task : Task) (s : List Char) (rest : List (List Char)) (y m d : Int)
    (h : calendarDate s = some (y, m, d)) :
    scanParts task (("due:".toList ++ s) :: rest) =
      ({ task with DueDate := Date y m d 23 59 59 0 UTC }, none) := by
  rw [scanParts]
  simp only [HasPrefix_append, if_true, TrimPrefix_append, parseDueDate_calendarDate s y m d h]
  simp

theorem scanParts_due_bad (task : Task) (s : List Char) (rest : List (List Char))
    (h : calendarDate s = none) :
    ∃ e, scanParts task (("due:".toList ++ s) :: rest) = (Task.zero, some e) := by
  obtain ⟨e, he⟩ := parseDueDate_malformed s h
  refine ⟨e, ?_⟩
  rw [scanParts]
  simp only [HasPrefix_append, if_true, TrimPrefix_append, he]
  simp

/-- No marker on the line: the task is returned as first filled in. -/
theorem scanParts_none (task : Task) (parts : List (List Char))
    (hd : ∀ p ∈ parts, HasPrefix p "due:".toList = false) (hx : ∀ p ∈ parts, p ≠ "x".toList) :
    scanParts task parts = (task, none) := by
  have := scanParts_skip task parts [] hd hx
  rw [List.append_nil] at this
  rw [this]
  rfl

/-- An `x` that no `due:` part precedes ends the scan. -/
theorem scanParts_x_first (task : Task) (pre post : List (List Char))
    (hd : ∀ p ∈ pre, HasPrefix p "due:".toList = false) :
    scanParts task (pre ++ "x".toList :: post) = ({ task with Completed := true }, none) := by
  induction pre with
  | nil => exact scanParts_x task post
  | cons p ps ih =>
    have h1 := hd p (List.mem_cons_self _ _)
    by_cases hp : p = "x".toList
    · rw [hp, List.cons_append]
      exact scanParts_x task _
    · rw [List.cons_append, scanParts]
      simp only [h1, Bool.false_eq_true, if_false, hp]
      exact ih (fun q hq => hd q (List.mem_cons_of_mem _ hq))

theorem scanParts_shape (task : Task) (parts : List (List Char)) :
    (∃ t, scanParts task parts = (t, none)) ∨ ∃ e, scanParts task parts = (Task.zero, some e) := by
  induction parts with
  | nil => exact Or.inl ⟨task, rfl⟩
  | cons p ps ih =>
    rw [scanParts]
    split
    · rcases hq : parseDueDate (TrimPrefix p "due:".toList) with ⟨dd, _ | e⟩
      · exact Or.inl ⟨{ task with DueDate := dd }, by simp only [hq]; rfl⟩
      · exact Or.inr ⟨e, by simp only [hq]; rfl⟩
    · split
      · exact Or.inl ⟨_, rfl⟩
      · exact ih

/-- A line whose parse is not admitted, or fails, leaves the collection as
it was. -/
theorem scanLines_skip (path line : List Char) (rest : List (List Char)) (tasks : List Task)
    (t : Task) (err : Option ParseError) (h : parseTask line path = some (t, err))
    (hs : err ≠ none ∨ admitted t = false) :
    scanLines path (line :: rest) tasks = scanLines path rest tasks := by
  rw [scanLines, h]
  simp only
  rcases hs with h1 | h1
  · simp [h1]
  · by_cases he : err ≠ none
    · simp [he]
    · simp [he, h1]

/-- A line whose parse is admitted adds its task at the end of the
collection. -/
theorem scanLines_admit (path line : List Char) (rest : List (List Char)) (tasks : List Task)
    (t : Task) (h : parseTask line path = some (t, none)) (hs : admitted t = true) :
    scanLines path (line :: rest) tasks = scanLines path rest (tasks ++ [t]) := by
  rw [scanLines, h]
  simp [hs]

/-- C1 (as amended): on a line whose first `due:` token is a well-formed
`due:YYYY-MM-DD` and which has no token `x`, `parseTask` succeeds with
`Completed = false` and `DueDate` that calendar date at 23:59:59 UTC, zero
nanoseconds. -/
theorem C1_due_date_end_of_day (line path : List Char) (pre post : List (List Char))
    (s : List Char) (y m d : Int)
    (hparts : Fields line = pre ++ ("due:".toList ++ s) :: post)
    (hfirst : ∀ p ∈ pre, HasPrefix p "due:".toList = false)
    (hx : ∀ p ∈ Fields line, p ≠ "x".toList)
    (hs : calendarDate s = some (y, m, d)) :
    ∃ t, parseTask line path = some (t, none) ∧ t.Completed = false ∧
      t.DueDate = Date y m d 23 59 59 0 UTC ∧
      t.DueDate.Year = y ∧ t.DueDate.Month = m ∧ t.DueDate.Day = d ∧
      t.DueDate.Hour = 23 ∧ t.DueDate.Minute = 59 ∧ t.DueDate.Second = 59 ∧
      t.DueDate.nsec = 0 := by
  have hne : Fields line ≠ [] := by rw [hparts]; simp
  have hxpre : ∀ p ∈ pre, p ≠ "x".toList := fun p hp =>
    hx p (by rw [hparts]; exact List.mem_append_left _ hp)
  obtain ⟨-, hm1, hm2, hd1, hd2⟩ := Parse_calendarDate s y m d hs
  obtain ⟨f1, f2, f3, f4, f5, f6, f7, -, -⟩ := Date_endOfDay y m d ⟨hm1, hm2⟩ ⟨hd1, hd2⟩
  refine ⟨{ baseTask (Fields line) path with DueDate := Date y m d 23 59 59 0 UTC }, ?_,
    rfl, rfl, f1, f2, f3, f4, f5, f6, f7⟩
  have key : ∀ task, scanParts task (Fields line) =
      ({ task with DueDate := Date y m d 23 59 59 0 UTC }, none) := by
    intro task
    rw [hparts, scanParts_skip _ pre _ hfirst hxpre, scanParts_due_ok _ s post y m d hs]
  rw [parseTask_eq line path hne, key]

theorem C1_due_date_end_of_day_witness :
    ∃ t, parseTask "(A) pay rent due:2024-02-29 +home".toList "/home/u/work.todo.txt".toList =
        some (t, none) ∧ t.Completed = false ∧
      t.DueDate = Date 2024 2 29 23 59 59 0 UTC ∧
      t.DueDate.Year = 2024 ∧ t.DueDate.Month = 2 ∧ t.DueDate.Day = 29 ∧
      t.DueDate.Hour = 23 ∧ t.DueDate.Minute = 59 ∧ t.DueDate.Second = 59 ∧
      t.DueDate.nsec = 0 :=
  C1_due_date_end_of_day "(A) pay rent due:2024-02-29 +home".toList "/home/u/work.todo.txt".toList
    ["(A)".toList, "pay".toList, "rent".toList] ["+home".toList] "2024-02-29".toList 2024 2 29
    (by decide) (by decide) (by decide) (by decide)

/-- C1 (as stated) fails: the line `a due:tomorrow due:2024-01-01` has a
token, holds the well-formed token `due:2024-01-01` and no token `x`, and
`parseTask` returns an error, not a task. -/
theorem C1_counterexample :
    Fields "a due:tomorrow due:2024-01-01".toList ≠ [] ∧
    "due:2024-01-01".toList ∈ Fields "a due:tomorrow due:2024-01-01".toList ∧
    calendarDate "2024-01-01".toList = some (2024, 1, 1) ∧
    (∀ p ∈ Fields "a due:tomorrow due:2024-01-01".toList, p ≠ "x".toList) ∧
    parseTask "a due:tomorrow due:2024-01-01".toList "/home/u/work.todo.txt".toList =
      some (Task.zero, some ParseError.bad) := by
  decide

/-- C2: on a line where a token `x` occurs with no `due:`-prefixed token
before it, `parseTask` succeeds with `Completed = true` and the zero
`DueDate`, whatever follows the `x`; the task fails the intake test and the
line adds nothing to the collection. -/
theorem C2_x_before_due (line path : List Char) (pre post : List (List Char))
    (hparts : Fields line = pre ++ "x".toList :: post)
    (hfirst : ∀ p ∈ pre, HasPrefix p "due:".toList = false) :
    ∃ t, parseTask line path = some (t, none) ∧ t.Completed = true ∧
      t.DueDate = Time.zero ∧ t.DueDate.IsZero = true ∧ admitted t = false ∧
      ∀ rest tasks, scanLines path (line :: rest) tasks = scanLines path rest tasks := by
  have hne : Fields line ≠ [] := by rw [hparts]; simp
  have key : ∀ task, scanParts task (Fields line) = ({ task with Completed := true }, none) := by
    intro task
    rw [hparts, scanParts_x_first _ pre post hfirst]
  have hp : parseTask line path =
      some ({ baseTask (Fields line) path with Completed := true }, none) := by
    rw [parseTask_eq line path hne, key]
  exact ⟨_, hp, rfl, rfl, rfl, rfl, fun rest tasks =>
    scanLines_skip path line rest tasks _ none hp (Or.inr rfl)⟩

theorem C2_x_before_due_witness :
    ∃ t, parseTask "(B) x call due:2024-01-01 due:never".toList "/home/u/work.todo.txt".toList =
        some (t, none) ∧ t.Completed = true ∧
      t.DueDate = Time.zero ∧ t.DueDate.IsZero = true ∧ admitted t = false ∧
      ∀ rest tasks,
        scanLines "/home/u/work.todo.txt".toList
          ("(B) x call due:2024-01-01 due:never".toList :: rest) tasks =
        scanLines "/home/u/work.todo.txt".toList rest tasks :=
  C2_x_before_due "(B) x call due:2024-01-01 due:never".toList "/home/u/work.todo.txt".toList
    ["(B)".toList] ["call".toList, "due:2024-01-01".toList, "due:never".toList]
    (by decide) (by decide)

/-- C3 (as amended): on a line whose first token that is `due:`-prefixed
or equal to `x` is a `due:` token with a malformed date, `parseTask`
returns an error (with the zero task) and the line adds nothing to the
collection. -/
theorem C3_malformed_due_rejected (line path : List Char) (pre post : List (List Char))
    (s : List Char)
    (hparts : Fields line = pre ++ ("due:".toList ++ s) :: post)
    (hfirst : ∀ p ∈ pre, HasPrefix p "due:".toList = false)
    (hx : ∀ p ∈ pre, p ≠ "x".toList)
    (hs : calendarDate s = none) :
    ∃ e, parseTask line path = some (Task.zero, some e) ∧
      ∀ rest tasks, scanLines path (line :: rest) tasks = scanLines path rest tasks := by
  have hne : Fields line ≠ [] := by rw [hparts]; simp
  obtain ⟨e, he⟩ := scanParts_due_bad (baseTask (Fields line) path) s post hs
  have hp : parseTask line path = some (Task.zero, some e) := by
    rw [parseTask_eq line path hne]
    have key : ∀ task, scanParts task (Fields line) =
        scanParts task (("due:".toList ++ s) :: post) := by
      intro task
      rw [hparts, scanParts_skip _ pre _ hfirst hx]
    rw [key, he]
  exact ⟨e, hp, fun rest tasks =>
    scanLines_skip path line rest tasks _ _ hp (Or.inl (by simp))⟩

theorem C3_malformed_due_rejected_witness :
    ∃ e, parseTask "(A) file taxes due:2024-13-40 x".toList "/home/u/work.todo.txt".toList =
        some (Task.zero, some e) ∧
      ∀ rest tasks,
        scanLines "/home/u/work.todo.txt".toList
          ("(A) file taxes due:2024-13-40 x".toList :: rest) tasks =
        scanLines "/home/u/work.todo.txt".toList rest tasks :=
  C3_malformed_due_rejected "(A) file taxes due:2024-13-40 x".toList
    "/home/u/work.todo.txt".toList ["(A)".toList, "file".toList, "taxes".toList] ["x".toList]
    "2024-13-40".toList (by decide) (by decide) (by decide) (by decide)

/-- C3 (as stated) fails: the line `a due:2024-01-01 due:2024-13-40` holds
the malformed token `due:2024-13-40`, yet `parseTask` returns a task without
error and the intake adds it to the collection. -/
theorem C3_counterexample :
    "due:2024-13-40".toList ∈ Fields "a due:2024-01-01 due:2024-13-40".toList ∧
    calendarDate "2024-13-40".toList = none ∧
    parseTask "a due:2024-01-01 due:2024-13-40".toList "/home/u/work.todo.txt".toList =
      some (⟨"due:2024-01-01 due:2024-13-40".toList, Date 2024 1 1 23 59 59 0 UTC,
        "work".toList, false⟩, none) ∧
    scanLines "/home/u/work.todo.txt".toList ["a due:2024-01-01 due:2024-13-40".toList] [] =
      some [⟨"due:2024-01-01 due:2024-13-40".toList, Date 2024 1 1 23 59 59 0 UTC,
        "work".toList, false⟩] := by
  decide

/-- C9: a line with at least one token, none of them `due:`-prefixed or
equal to `x`, parses without error to a task with the zero `DueDate` and
`Completed = false`; the intake test rejects it and the line adds nothing to
the collection. -/
theorem C9_no_marker (line path : List Char) (hne : Fields line ≠ [])
    (hd : ∀ p ∈ Fields line, HasPrefix p "due:".toList = false)
    (hx : ∀ p ∈ Fields line, p ≠ "x".toList) :
    ∃ t, parseTask line path = some (t, none) ∧ t.DueDate = Time.zero ∧
      t.DueDate.IsZero = true ∧ t.Completed = false ∧ admitted t = false ∧
      ∀ rest tasks, scanLines path (line :: rest) tasks = scanLines path rest tasks := by
  have hp : parseTask line path = some (baseTask (Fields line) path, none) := by
    rw [parseTask_eq line path hne, scanParts_none _ _ hd hx]
  exact ⟨_, hp, rfl, rfl, rfl, rfl, fun rest tasks =>
    scanLines_skip path line rest tasks _ none hp (Or.inr rfl)⟩

theorem C9_no_marker_witness :
    ∃ t, parseTask "(C) water the plants @home".toList "/home/u/personal.txt".toList =
        some (t, none) ∧ t.DueDate = Time.zero ∧
      t.DueDate.IsZero = true ∧ t.Completed = false ∧ admitted t = false ∧
      ∀ rest tasks,
        scanLines "/home/u/personal.txt".toList ("(C) water the plants @home".toList :: rest) tasks =
        scanLines "/home/u/personal.txt".toList rest tasks :=
  C9_no_marker "(C) water the plants @home".toList "/home/u/personal.txt".toList
    (by decide) (by decide) (by decide)

/-- C10: `parseTask` panics exactly on the lines without token, which are
the empty and the all-white-space lines; on every line with a token it
returns, either a task without error or the zero task with an error. -/
theorem C10_fault_iff_no_token (line path : List Char) :
    (parseTask line path = none ↔ Fields line = []) ∧
    (Fields line = [] ↔ ∀ c ∈ line, isSpace c = true) ∧
    (Fields line ≠ [] →
      (∃ t, parseTask line path = some (t, none)) ∨
        ∃ e, parseTask line path = some (Task.zero, some e)) := by
  refine ⟨parseTask_eq_none line path, Fields_eq_nil line, fun hne => ?_⟩
  rw [parseTask_eq line path hne]
  rcases scanParts_shape (baseTask (Fields line) path) (Fields line) with ⟨t, ht⟩ | ⟨e, he⟩
  · exact Or.inl ⟨t, by rw [ht]⟩
  · exact Or.inr ⟨e, by rw [he]⟩

/-! ## Source label -/

theorem TrimSuffix_append (stem suffix : List Char) : TrimSuffix (stem ++ suffix) suffix = stem := by
  simp [TrimSuffix, HasSuffix]

theorem TrimSuffix_of_not (s suffix : List Char) (h : ∀ stem, s ≠ stem ++ suffix) :
    TrimSuffix s suffix = s := by
  unfold TrimSuffix
  split
  · rename_i hs
    unfold HasSuffix at hs
    simp only [Bool.and_eq_true, decide_eq_true_eq, beq_iff_eq] at hs
    exfalso
    apply h (s.take (s.length - suffix.length))
    conv_lhs => rw [← List.take_append_drop (s.length - suffix.length) s]
    rw [hs.2]
  · rfl

theorem takeWhile_append_stop (p : Char → Bool) (l r : List Char) (a : Char)
    (hl : ∀ x ∈ l, p x = true) (ha : p a = false) : (l ++ a :: r).takeWhile p = l := by
  induction l with
  | nil => simp [List.takeWhile, ha]
  | cons x xs ih =>
    have hx := hl x (List.mem_cons_self _ _)
    rw [List.cons_append, List.takeWhile_cons, if_pos hx,
      ih (fun y hy => hl y (List.mem_cons_of_mem _ hy))]

theorem takeWhile_all (p : Char → Bool) (l : List Char) (hl : ∀ x ∈ l, p x = true) :
    l.takeWhile p = l := by
  induction l with
  | nil => rfl
  | cons x xs ih =>
    have hx := hl x (List.mem_cons_self _ _)
    rw [List.takeWhile_cons, if_pos hx, ih (fun y hy => hl y (List.mem_cons_of_mem _ hy))]

/-- `Base` of a path that ends in a name: the name after the last `/`. -/
theorem Base_name (dir name : List Char) (hne : name ≠ []) (hs : ∀ c ∈ name, c ≠ '/') :
    Base (dir ++ '/' :: name) = name ∧ Base name = name := by
  have hrev : name.reverse ≠ [] := by simpa using hne
  obtain ⟨c, cs, hcs⟩ := List.exists_cons_of_ne_nil hrev
  have hc : c ≠ '/' := hs c (by
    have : c ∈ name.reverse := by rw [hcs]; exact List.mem_cons_self _ _
    simpa using this)
  have hb : (c == '/') = false := by simpa using hc
  have hall : ∀ x ∈ name.reverse, (x != '/') = true := by
    intro x hx
    have := hs x (by simpa using hx)
    simpa using this
  constructor
  · unfold Base
    have h1 : (dir ++ '/' :: name).isEmpty = false := by cases dir <;> rfl
    have h2 : (dir ++ '/' :: name).reverse = c :: (cs ++ '/' :: dir.reverse) := by
      simp [hcs]
    have h3 : (c :: (cs ++ '/' :: dir.reverse)).dropWhile (· == '/') =
        c :: (cs ++ '/' :: dir.reverse) := by
      simp [List.dropWhile_cons, hb]
    simp only [h1, Bool.false_eq_true, if_false, h2, h3]
    rw [← h2, List.reverse_reverse, h2]
    have h4 : (c :: (cs ++ '/' :: dir.reverse)).takeWhile (· != '/') = name.reverse := by
      have : c :: (cs ++ '/' :: dir.reverse) = name.reverse ++ '/' :: dir.reverse := by
        rw [hcs]; rfl
      rw [this]
      exact takeWhile_append_stop _ _ _ _ hall (by simp)
    rw [h4, List.reverse_reverse]
    have h5 : name.isEmpty = false := by cases name <;> simp_all
    simp [h5]
  · unfold Base
    have h1 : name.isEmpty = false := by cases name <;> simp_all
    have h3 : name.reverse.dropWhile (· == '/') = name.reverse := by
      rw [hcs]; simp [List.dropWhile_cons, hb]
    simp only [h1, Bool.false_eq_true, if_false, h3, List.reverse_reverse]
    rw [takeWhile_all _ _ hall, List.reverse_reverse]
    simp [h1]

/-- C8: the source label of a parsed task is the base name of the file
path with the suffix `.todo.txt` removed when present and unchanged
otherwise; it is a function of the path alone, the base name of a path
`dir/name` being `name`. -/
theorem C8_source_label (line path : List Char) (t : Task)
    (h : parseTask line path = some (t, none)) :
    t.FilePath = TrimSuffix (Base path) ".todo.txt".toList ∧
    (∀ stem, Base path = stem ++ ".todo.txt".toList → t.FilePath = stem) ∧
    ((∀ stem, Base path ≠ stem ++ ".todo.txt".toList) → t.FilePath = Base path) ∧
    (∀ dir name, name ≠ [] → (∀ c ∈ name, c ≠ '/') → path = dir ++ '/' :: name →
      Base path = name) ∧
    (∀ line2 t2, parseTask line2 path = some (t2, none) → t2.FilePath = t.FilePath) := by
  have lab : ∀ l u, parseTask l path = some (u, none) →
      u.FilePath = TrimSuffix (Base path) ".todo.txt".toList := by
    intro l u hu
    have hne : Fields l ≠ [] := by
      intro h0
      rw [(parseTask_eq_none l path).2 h0] at hu
      exact absurd hu (by simp)
    rw [parseTask_eq l path hne] at hu
    have key : ∀ task parts u, scanParts task parts = (u, none) → u.FilePath = task.FilePath := by
      intro task parts
      induction parts with
      | nil =>
        intro u h1
        simp only [scanParts, Prod.mk.injEq, and_true] at h1
        rw [h1]
      | cons p ps ih =>
        intro u h1
        rw [scanParts] at h1
        split at h1
        · rcases hq : parseDueDate (TrimPrefix p "due:".toList) with ⟨dd, _ | e⟩
          · simp only [hq] at h1
            simp only [ne_eq, not_true_eq_false, if_false, Prod.mk.injEq, and_true] at h1
            rw [← h1]
          · simp only [hq] at h1
            simp at h1
        · split at h1
          · simp only [Prod.mk.injEq, and_true] at h1
            rw [← h1]
          · exact ih u h1
    simp only [Option.some.injEq] at hu
    exact key _ _ _ hu
  have ht := lab line t h
  refine ⟨ht, ?_, ?_, ?_, ?_⟩
  · intro stem hb
    rw [ht, hb, TrimSuffix_append]
  · intro hno
    rw [ht, TrimSuffix_of_not _ _ hno]
  · intro dir name hne hs hp
    rw [hp]
    exact (Base_name dir name hne hs).1
  · intro line2 t2 h2
    rw [ht, lab line2 t2 h2]

theorem C8_source_label_witness :
    "work".toList = TrimSuffix (Base "/home/u/work.todo.txt".toList) ".todo.txt".toList ∧
    "personal.txt".toList =
      TrimSuffix (Base "/home/u/personal.txt".toList) ".todo.txt".toList :=
  ⟨(C8_source_label "(A) call mom due:2024-06-10".toList "/home/u/work.todo.txt".toList
      ⟨"call mom due:2024-06-10".toList, Date 2024 6 10 23 59 59 0 UTC, "work".toList, false⟩
      (by decide)).1,
   (C8_source_label "(A) call mom due:2024-06-10".toList "/home/u/personal.txt".toList
      ⟨"call mom due:2024-06-10".toList, Date 2024 6 10 23 59 59 0 UTC, "personal.txt".toList,
        false⟩ (by decide)).1⟩

/-! ## Order of instants -/

theorem Before_false_iff (t u : Time) : t.Before u = false ↔ u.notAfter t := by
  unfold Time.Before Time.notAfter
  simp only [Bool.or_eq_false_iff, decide_eq_false_iff_not, Bool.and_eq_false_iff, beq_eq_false_iff_ne]
  constructor
  · rintro ⟨h1, h2 | h2⟩ <;> omega
  · intro h
    refine ⟨by omega, ?_⟩
    by_cases hs : t.sec = u.sec
    · right; omega
    · left; exact hs

theorem Before_true_iff (t u : Time) :
    t.Before u = true ↔ t.sec < u.sec ∨ (t.sec = u.sec ∧ t.nsec < u.nsec) := by
  unfold Time.Before
  simp

theorem After_true_iff (t u : Time) :
    t.After u = true ↔ u.sec < t.sec ∨ (t.sec = u.sec ∧ u.nsec < t.nsec) := by
  unfold Time.After
  simp

theorem After_eq_Before (t u : Time) : t.After u = u.Before t := by
  rw [Bool.eq_iff_iff, After_true_iff, Before_true_iff]
  constructor <;> rintro (h | h) <;> omega

theorem notAfter_trans (a b c : Time) (h1 : a.notAfter b) (h2 : b.notAfter c) : a.notAfter c := by
  unfold Time.notAfter at *
  omega

theorem Before_asymm (t u : Time) (h : t.Before u = true) : u.Before t = false := by
  rw [Before_true_iff] at h
  rw [Before_false_iff]
  unfold Time.notAfter
  omega

theorem Equal_iff (t u : Time) : t.Equal u = true ↔ t.sec = u.sec ∧ t.nsec = u.nsec := by
  unfold Time.Equal
  simp

/-! ## Insertion sort -/

theorem sink_perm (x : Task) (done : List Task) : (sink lessDue x done).Perm (x :: done) := by
  induction done with
  | nil => exact List.Perm.refl _
  | cons y ys ih =>
    rw [sink]
    split
    · exact (List.Perm.cons y ih).trans (List.Perm.swap x y ys)
    · exact List.Perm.refl _

theorem insertionSortFrom_perm (xs done : List Task) :
    (insertionSortFrom lessDue xs done).Perm (done.reverse ++ xs) := by
  induction xs generalizing done with
  | nil => simp [insertionSortFrom]
  | cons x xs ih =>
    rw [insertionSortFrom]
    refine (ih _).trans ?_
    have h1 : (sink lessDue x done).reverse.Perm (done.reverse ++ [x]) :=
      (List.reverse_perm _).trans ((sink_perm x done).trans (by
        have : (done.reverse ++ [x]).Perm (x :: done) :=
          List.perm_append_singleton x done.reverse |>.trans (List.Perm.cons x (List.reverse_perm done))
        exact this.symm))
    have h2 := List.Perm.append_right xs h1
    simpa using h2

theorem insertionSort_perm (xs : List Task) : (insertionSort lessDue xs).Perm xs := by
  have := insertionSortFrom_perm xs []
  simpa [insertionSort] using this

theorem sink_mem (x z : Task) (done : List Task) (h : z ∈ sink lessDue x done) : z = x ∨ z ∈ done := by
  have := (sink_perm x done).mem_iff.1 h
  simpa using this

theorem sink_descending (x : Task) (done : List Task) (h : Descending done) :
    Descending (sink lessDue x done) := by
  induction done with
  | nil => simp [sink, Descending]
  | cons y ys ih =>
    unfold Descending at h ih ⊢
    rw [List.pairwise_cons] at h
    rw [sink]
    split
    · rename_i hxy
      rw [List.pairwise_cons]
      refine ⟨?_, ih h.2⟩
      intro z hz
      rcases sink_mem x z ys hz with rfl | hz
      · exact Before_asymm _ _ hxy
      · exact h.1 z hz
    · rename_i hxy
      rw [List.pairwise_cons]
      refine ⟨?_, List.pairwise_cons.2 h⟩
      intro z hz
      rcases List.mem_cons.1 hz with rfl | hz
      · simpa using hxy
      · have h1 : lessDue x y = false := by simpa using hxy
        have h2 := h.1 z hz
        unfold lessDue at *
        rw [Before_false_iff] at *
        exact notAfter_trans _ _ _ h2 h1

theorem insertionSortFrom_sorted (xs done : List Task) (h : Descending done) :
    (insertionSortFrom lessDue xs done).Pairwise (fun a b => lessDue b a = false) := by
  induction xs generalizing done with
  | nil =>
    rw [insertionSortFrom, List.pairwise_reverse]
    exact h
  | cons x xs ih =>
    rw [insertionSortFrom]
    exact ih _ (sink_descending x done h)

theorem insertionSort_sorted (xs : List Task) :
    (insertionSort lessDue xs).Pairwise (fun a b => lessDue b a = false) :=
  insertionSortFrom_sorted xs [] List.Pairwise.nil

theorem sink_filter (d : Time) (x : Task) (done : List Task) :
    (sink lessDue x done).filter (fun t => t.DueDate.Equal d) =
      (x :: done).filter (fun t => t.DueDate.Equal d) := by
  induction done with
  | nil => rfl
  | cons y ys ih =>
    rw [sink]
    split
    · rename_i hxy
      rw [List.filter_cons, ih]
      by_cases hx : x.DueDate.Equal d = true
      · have hy : y.DueDate.Equal d = false := by
          rw [Bool.eq_false_iff]
          intro hy
          rw [Equal_iff] at hx hy
          unfold lessDue at hxy
          rw [Before_true_iff] at hxy
          omega
        simp [List.filter_cons, hx, hy]
      · simp [List.filter_cons, hx]
    · rfl

theorem insertionSortFrom_filter (d : Time) (xs done : List Task) :
    (insertionSortFrom lessDue xs done).filter (fun t => t.DueDate.Equal d) =
      (done.reverse ++ xs).filter (fun t => t.DueDate.Equal d) := by
  induction xs generalizing done with
  | nil => simp [insertionSortFrom]
  | cons x xs ih =>
    rw [insertionSortFrom, ih, List.filter_append, List.filter_append, List.filter_reverse,
      sink_filter, List.filter_reverse]
    simp [List.filter_cons]
    split <;> simp

/-- Insertion sort keeps tasks that are due at the same instant in their
order. -/
theorem insertionSort_stable (d : Time) (xs : List Task) :
    keepsOrderAt d xs (insertionSort lessDue xs) := by
  have := insertionSortFrom_filter d xs []
  simpa [keepsOrderAt, insertionSort] using this

theorem insertionSort_sliceSort : SliceSort (insertionSort lessDue) :=
  ⟨insertionSort_perm, insertionSort_sorted, fun _ _ => rfl⟩

theorem pdqSort_sliceSort : SliceSort pdqSort := by
  refine ⟨?_, ?_, ?_⟩
  · intro xs
    unfold pdqSort
    split
    · exact insertionSort_perm xs
    · split
      · rename_i h
        exact h.1
      · exact insertionSort_perm xs
  · intro xs
    unfold pdqSort
    split
    · exact insertionSort_sorted xs
    · split
      · rename_i h
        exact h.2
      · exact insertionSort_sorted xs
  · intro xs h
    unfold pdqSort
    rw [if_pos (by omega)]

/-- C4 (as amended): the sort of the admitted collection yields a
permutation of it in ascending `DueDate` order; tasks with identical due
timestamps keep their relative order when the collection has at most 6
tasks (`sort.Slice` promises no stability beyond that). -/
theorem C4_sort_ascending_perm (sort : List Task → List Task) (hS : SliceSort sort)
    (tasks : List Task) :
    (sort tasks).Perm tasks ∧
    (sort tasks).Pairwise (fun a b => a.DueDate.notAfter b.DueDate) ∧
    (tasks.length ≤ 6 → ∀ d, keepsOrderAt d tasks (sort tasks)) := by
  refine ⟨hS.perm tasks, ?_, ?_⟩
  · refine (hS.sorted tasks).imp ?_
    intro a b h
    unfold lessDue at h
    exact (Before_false_iff _ _).1 h
  · intro hlen d
    rw [hS.small tasks hlen]
    exact insertionSort_stable d tasks

theorem C4_sort_ascending_perm_witness :
    (pdqSort (thirteenTasks.drop 10)).Perm (thirteenTasks.drop 10) ∧
    (pdqSort (thirteenTasks.drop 10)).Pairwise (fun a b => a.DueDate.notAfter b.DueDate) ∧
    ((thirteenTasks.drop 10).length ≤ 6 →
      ∀ d, keepsOrderAt d (thirteenTasks.drop 10) (pdqSort (thirteenTasks.drop 10))) :=
  C4_sort_ascending_perm pdqSort pdqSort_sliceSort (thirteenTasks.drop 10)

/-- C4 (as stated) fails: on the thirteen admitted tasks of
`thirteenLines` the first round of pattern-defeating quicksort moves the
pivot `a07` before `a01` and `a02` behind `a12`, all due at the same
instant. -/
theorem C4_counterexample :
    SliceSort pdqSort ∧
    scanLines "/home/u/work.todo.txt".toList thirteenLines [] = some thirteenTasks ∧
    (pdqSort thirteenTasks).map (fun t => t.Text.take 3) =
      ["b d", "a07", "a03", "a04", "a05", "a06", "a01", "a08", "a09", "a10", "a11", "a12",
        "a02"].map String.toList ∧
    ¬ keepsOrderAt (Date 2024 1 2 23 59 59 0 UTC) thirteenTasks (pdqSort thirteenTasks) := by
  refine ⟨pdqSort_sliceSort, ?_⟩
  unfold keepsOrderAt
  decide

/-! ## Intake -/

theorem scanLines_acc (path : List Char) (lines : List (List Char)) (acc : List Task) :
    scanLines path lines acc = (scanLines path lines []).map (acc ++ ·) := by
  induction lines generalizing acc with
  | nil => simp [scanLines]
  | cons l ls ih =>
    rw [scanLines, scanLines]
    rcases hp : parseTask l path with _ | ⟨t, err⟩
    · rfl
    · simp only
      split
      · exact ih acc
      · split
        · rw [ih (acc ++ [t]), ih ([] ++ [t])]
          cases scanLines path ls [] <;> simp
        · exact ih acc

theorem readFiles_cons (file : TodoFile) (rest : List TodoFile) (acc : List Task) :
    readFiles (file :: rest) acc =
      match fileTasks file with
      | none => none
      | some ts => readFiles rest (acc ++ ts) := by
  rw [readFiles]
  unfold fileTasks
  cases file.lines with
  | none => simp
  | some lines =>
    simp only
    rw [scanLines_acc]
    cases scanLines file.path lines [] <;> rfl

theorem sameIntake_trans (r1 r2 r3 : Option (List Task)) (h1 : sameIntake r1 r2)
    (h2 : sameIntake r2 r3) : sameIntake r1 r3 := by
  cases r1 <;> cases r2 <;> cases r3 <;> simp_all [sameIntake]
  exact h1.trans h2

theorem readFiles_perm (l1 l2 : List TodoFile) (h : l1.Perm l2) :
    ∀ a1 a2 : List Task, a1.Perm a2 → sameIntake (readFiles l1 a1) (readFiles l2 a2) := by
  induction h with
  | nil =>
    intro a1 a2 ha
    exact ha
  | cons x _ ih =>
    intro a1 a2 ha
    rw [readFiles_cons, readFiles_cons]
    cases fileTasks x with
    | none => trivial
    | some ts => exact ih _ _ (ha.append_right ts)
  | swap x y l =>
    intro a1 a2 ha
    simp only [readFiles_cons]
    cases hx : fileTasks x <;> cases hy : fileTasks y <;> simp only
    · trivial
    · trivial
    · trivial
    · rename_i tx ty
      have hp : (a1 ++ ty ++ tx).Perm (a2 ++ tx ++ ty) := by
        rw [List.append_assoc, List.append_assoc]
        exact ha.append List.perm_append_comm
      have : ∀ (l : List TodoFile) (b1 b2 : List Task), b1.Perm b2 →
          sameIntake (readFiles l b1) (readFiles l b2) := by
        intro l
        induction l with
        | nil => intro b1 b2 hb; exact hb
        | cons z zs ihz =>
          intro b1 b2 hb
          rw [readFiles_cons, readFiles_cons]
          cases fileTasks z with
          | none => trivial
          | some ts => exact ihz _ _ (hb.append_right ts)
      exact this l _ _ hp
  | trans _ _ ih1 ih2 =>
    intro a1 a2 ha
    exact sameIntake_trans _ _ _ (ih1 a1 a1 (List.Perm.refl _)) (ih2 a1 a2 ha)

/-! ## Sorted collections -/

/-- A collection without two tasks due at the same instant has one sorted
order. -/
theorem sorted_unique (l1 l2 : List Task) (hp : l1.Perm l2)
    (h1 : l1.Pairwise (fun a b => lessDue b a = false))
    (h2 : l2.Pairwise (fun a b => lessDue b a = false))
    (hd : l1.Pairwise (fun a b => a.DueDate.Equal b.DueDate = false)) : l1 = l2 := by
  have strict : ∀ a b : Task, lessDue b a = false ∧ a.DueDate.Equal b.DueDate = false →
      lessDue a b = true := by
    intro a b ⟨hl, he⟩
    unfold lessDue at *
    rw [Before_false_iff] at hl
    rw [Before_true_iff]
    have : ¬ (a.DueDate.sec = b.DueDate.sec ∧ a.DueDate.nsec = b.DueDate.nsec) := by
      rw [← Equal_iff, he]; simp
    unfold Time.notAfter at hl
    omega
  have hsym : Symmetric (fun a b : Task => a.DueDate.Equal b.DueDate = false) := by
    intro a b h
    rw [Bool.eq_false_iff] at h ⊢
    intro hb
    apply h
    rw [Equal_iff] at hb ⊢
    omega
  have hd2 : l2.Pairwise (fun a b => a.DueDate.Equal b.DueDate = false) :=
    (hp.pairwise_iff (fun {a b} h => hsym h)).1 hd
  have s1 : l1.Pairwise (fun a b => lessDue a b = true) := (h1.and hd).imp (strict _ _)
  have s2 : l2.Pairwise (fun a b => lessDue a b = true) := (h2.and hd2).imp (strict _ _)
  haveI : IsAntisymm Task (fun a b => lessDue a b = true) :=
    ⟨fun a b hab hba => absurd hba (by
      unfold lessDue at *
      rw [Before_asymm _ _ hab]; simp)⟩
  exact List.eq_of_perm_of_sorted hp s1 s2

/-! ## The sections of the agenda -/

theorem dailyLoop_perm (t1 t2 : List Task) (h : t1.Perm t2) (endDate : Time) (fuel : Nat) :
    ∀ cur, (dailyLoop t1 endDate fuel cur = none ∧ dailyLoop t2 endDate fuel cur = none) ∨
      ∃ d1 d2, dailyLoop t1 endDate fuel cur = some d1 ∧ dailyLoop t2 endDate fuel cur = some d2 ∧
        sameDays d1 d2 := by
  induction fuel with
  | zero =>
    intro cur
    rw [dailyLoop, dailyLoop]
    split
    · exact Or.inl ⟨rfl, rfl⟩
    · exact Or.inr ⟨[], [], rfl, rfl, List.Forall₂.nil⟩
  | succ n ih =>
    intro cur
    rw [dailyLoop, dailyLoop]
    split
    · rcases ih (cur.AddDate 0 0 1) with ⟨e1, e2⟩ | ⟨d1, d2, e1, e2, hs⟩
      · left; rw [e1, e2]; exact ⟨rfl, rfl⟩
      · right
        rw [e1, e2]
        exact ⟨_, _, rfl, rfl, List.Forall₂.cons ⟨rfl, h.filter _⟩ hs⟩
    · exact Or.inr ⟨[], [], rfl, rfl, List.Forall₂.nil⟩

theorem run_eq (sort : List Task → List Task) (fuel : Nat) (now : Time) (files : List TodoFile) :
    run sort fuel now files = finish sort fuel now (readFiles files []) := rfl

theorem run_perm (sort : List Task → List Task) (hS : SliceSort sort) (fuel : Nat) (now : Time)
    (r1 r2 : Option (List Task)) (h : sameIntake r1 r2) :
    sameUpToTies (finish sort fuel now r1) (finish sort fuel now r2) := by
  cases r1 <;> cases r2 <;> simp only [sameIntake] at h
  · trivial
  · rename_i t1 t2
    have hp : (sort t1).Perm (sort t2) := ((hS.perm t1).trans h).trans (hS.perm t2).symm
    simp only [finish, agenda]
    rcases dailyLoop_perm _ _ hp (now.AddDate 0 0 7) fuel now with ⟨e1, e2⟩ | ⟨d1, d2, e1, e2, hs⟩
    · rw [e1, e2]; trivial
    · rw [e1, e2]
      exact ⟨hp.filter _, hs⟩

/-- C5 (as amended): for every list of todo files, every permutation of
it and the same `now`, the two runs end alike and every section holds the
same tasks up to their order inside the section; when no two admitted tasks
are due at the same instant the two runs print the same. -/
theorem C5_file_order (sort : List Task → List Task) (hS : SliceSort sort) (fuel : Nat)
    (now : Time) (files1 files2 : List TodoFile) (hperm : files1.Perm files2) :
    sameUpToTies (run sort fuel now files1) (run sort fuel now files2) ∧
    (∀ tasks, readFiles files1 [] = some tasks →
      tasks.Pairwise (fun a b => a.DueDate.Equal b.DueDate = false) →
      run sort fuel now files1 = run sort fuel now files2) := by
  have hi := readFiles_perm files1 files2 hperm [] [] (List.Perm.refl _)
  refine ⟨?_, ?_⟩
  · rw [run_eq, run_eq]
    exact run_perm sort hS fuel now _ _ hi
  · intro tasks h1 hd
    rw [run_eq, run_eq]
    rw [h1] at hi ⊢
    rcases h2 : readFiles files2 [] with _ | tasks2
    · rw [h2] at hi; exact absurd hi (by simp [sameIntake])
    · rw [h2] at hi
      simp only [sameIntake] at hi
      have hp : (sort tasks).Perm (sort tasks2) :=
        ((hS.perm tasks).trans hi).trans (hS.perm tasks2).symm
      have hsym : ∀ {a b : Task}, a.DueDate.Equal b.DueDate = false →
          b.DueDate.Equal a.DueDate = false := by
        intro a b h
        rw [Bool.eq_false_iff] at h ⊢
        intro hb
        apply h
        rw [Equal_iff] at hb ⊢
        omega
      have hd1 : (sort tasks).Pairwise (fun a b => a.DueDate.Equal b.DueDate = false) :=
        ((hS.perm tasks).pairwise_iff hsym).2 hd
      have he : sort tasks = sort tasks2 :=
        sorted_unique _ _ hp (hS.sorted tasks) (hS.sorted tasks2) hd1
      simp only [finish, agenda, he]

theorem C5_file_order_witness :
    sameUpToTies (run pdqSort 7 (Date 2024 1 5 9 0 0 0 UTC) [fileOne, fileJan])
      (run pdqSort 7 (Date 2024 1 5 9 0 0 0 UTC) [fileJan, fileOne]) ∧
    run pdqSort 7 (Date 2024 1 5 9 0 0 0 UTC) [fileLate, fileJan] =
      run pdqSort 7 (Date 2024 1 5 9 0 0 0 UTC) [fileJan, fileLate] :=
  ⟨(C5_file_order pdqSort pdqSort_sliceSort 7 (Date 2024 1 5 9 0 0 0 UTC) [fileOne, fileJan]
      [fileJan, fileOne] (List.Perm.swap _ _ _)).1,
    (C5_file_order pdqSort pdqSort_sliceSort 7 (Date 2024 1 5 9 0 0 0 UTC) [fileLate, fileJan]
      [fileJan, fileLate] (List.Perm.swap _ _ _)).2
      (⟨"buy due:2024-01-08".toList, Date 2024 1 8 23 59 59 0 UTC, "late".toList, false⟩ ::
        janTasks) (by decide) (by decide)⟩

/-- C5 (as stated) fails: two files hold one task each, both due
2024-01-01; read in the order one, two the past-due section lists `pay`
before `call`, read in the order two, one it lists `call` before `pay`. -/
theorem C5_counterexample :
    [fileOne, fileTwo].Perm [fileTwo, fileOne] ∧
    pastDueLines (run pdqSort 7 (Date 2024 1 5 9 0 0 0 UTC) [fileOne, fileTwo]) =
      ["  - pay due:2024-01-01 (one)".toList, "  - call due:2024-01-01 (two)".toList] ∧
    pastDueLines (run pdqSort 7 (Date 2024 1 5 9 0 0 0 UTC) [fileTwo, fileOne]) =
      ["  - call due:2024-01-01 (two)".toList, "  - pay due:2024-01-01 (one)".toList] :=
  ⟨List.Perm.swap _ _ _, by decide, by decide⟩

/-- C6: the past-due section holds exactly the admitted tasks due
strictly before `now`, in ascending `DueDate` order whatever their
calendar day. -/
theorem C6_past_due (sort : List Task → List Task) (hS : SliceSort sort) (now : Time)
    (tasks : List Task) :
    (pastDue now (sort tasks)).Perm (tasks.filter (fun t => t.DueDate.Before now)) ∧
    (pastDue now (sort tasks)).Pairwise (fun a b => a.DueDate.notAfter b.DueDate) ∧
    (∀ t, t ∈ pastDue now (sort tasks) ↔ t ∈ tasks ∧ t.DueDate.Before now = true) ∧
    (∀ fuel a, agenda sort fuel now tasks = some a → a.pastDue = pastDue now (sort tasks)) := by
  refine ⟨(hS.perm tasks).filter _, ?_, ?_, ?_⟩
  · unfold pastDue
    refine ((hS.sorted tasks).imp ?_).filter _
    intro a b h
    unfold lessDue at h
    exact (Before_false_iff _ _).1 h
  · intro t
    unfold pastDue
    rw [List.mem_filter, (hS.perm tasks).mem_iff]
  · intro fuel a ha
    unfold agenda at ha
    simp only [Option.map_eq_some'] at ha
    obtain ⟨days, -, rfl⟩ := ha
    rfl

theorem C6_past_due_witness :
    ((pastDue (Date 2024 1 5 0 0 0 0 UTC) (pdqSort janTasks)).Perm
        (janTasks.filter (fun t => t.DueDate.Before (Date 2024 1 5 0 0 0 0 UTC))) ∧
      (pastDue (Date 2024 1 5 0 0 0 0 UTC) (pdqSort janTasks)).Pairwise
        (fun a b => a.DueDate.notAfter b.DueDate) ∧
      (∀ t, t ∈ pastDue (Date 2024 1 5 0 0 0 0 UTC) (pdqSort janTasks) ↔
        t ∈ janTasks ∧ t.DueDate.Before (Date 2024 1 5 0 0 0 0 UTC) = true) ∧
      (∀ fuel a, agenda pdqSort fuel (Date 2024 1 5 0 0 0 0 UTC) janTasks = some a →
        a.pastDue = pastDue (Date 2024 1 5 0 0 0 0 UTC) (pdqSort janTasks))) ∧
    readFiles [fileJan] [] = some janTasks ∧
    pastDueLines (run pdqSort 7 (Date 2024 1 5 0 0 0 0 UTC) [fileJan]) =
      ["  - first due:2024-01-01 (jan)".toList, "  - second due:2024-01-02 (jan)".toList,
        "  - third due:2024-01-03 (jan)".toList] :=
  ⟨C6_past_due pdqSort pdqSort_sliceSort (Date 2024 1 5 0 0 0 0 UTC) janTasks,
    by decide, by decide⟩

/-! ## The daily sections -/

theorem dailyLoop_get (tasks : List Task) (endDate : Time) (fuel : Nat) :
    ∀ cur days, dailyLoop tasks endDate fuel cur = some days →
      ∀ i x, days.get? i = some x → x = (dayStart cur i, dayTasks (dayStart cur i) tasks) := by
  induction fuel with
  | zero =>
    intro cur days h i x hx
    rw [dailyLoop] at h
    split at h
    · exact absurd h (by simp)
    · simp only [Option.some.injEq] at h
      subst h
      simp at hx
  | succ n ih =>
    intro cur days h i x hx
    rw [dailyLoop] at h
    split at h
    · simp only [Option.map_eq_some'] at h
      obtain ⟨rest, hr, rfl⟩ := h
      cases i with
      | zero =>
        simp only [List.get?, Option.some.injEq] at hx
        rw [← hx]
        rfl
      | succ j =>
        simp only [List.get?] at hx
        exact ih _ _ hr j x hx
    · simp only [Option.some.injEq] at h
      subst h
      simp at hx

theorem addSeconds_valid (t : Time) (s : Int) (h : t.Valid) : (t.addSeconds s).Valid := h

theorem addSeconds_zero (t : Time) : t.addSeconds 0 = t := by
  cases t
  simp [Time.addSeconds]

theorem addSeconds_add (t : Time) (a b : Int) :
    (t.addSeconds a).addSeconds b = t.addSeconds (a + b) := by
  unfold Time.addSeconds
  simp only [Time.mk.injEq, and_true]
  omega

theorem dayStart_succ (now : Time) (i : Nat) :
    dayStart now (i + 1) = dayStart (now.AddDate 0 0 1) i := rfl

theorem mem_dayTasks (sort : List Task → List Task) (hS : SliceSort sort) (start : Time)
    (tasks : List Task) (t : Task) :
    t ∈ dayTasks start (sort tasks) ↔
      t ∈ tasks ∧ t.DueDate.After start = true ∧
        t.DueDate.Before (start.AddDate 0 0 1) = true := by
  unfold dayTasks
  rw [List.mem_filter, (hS.perm tasks).mem_iff, Bool.and_eq_true]

/-! ## Text of a task -/

theorem Join_eq_intercalate (elems : List (List Char)) (sep : List Char) :
    Join elems sep = sep.intercalate elems := by
  induction elems with
  | nil => rfl
  | cons e rest ih =>
    cases rest with
    | nil => simp [Join, List.intercalate]
    | cons f more =>
      rw [Join, ih]
      · simp [List.intercalate, List.intersperse]
      · exact fun h => List.cons_ne_nil _ _ h

/-- The scan of the parts changes `DueDate` and `Completed` only. -/
theorem scanParts_keeps (task : Task) (parts : List (List Char)) (u : Task)
    (h : scanParts task parts = (u, none)) : u.Text = task.Text ∧ u.FilePath = task.FilePath := by
  induction parts with
  | nil =>
    simp only [scanParts, Prod.mk.injEq, and_true] at h
    rw [h]
    exact ⟨rfl, rfl⟩
  | cons p ps ih =>
    rw [scanParts] at h
    split at h
    · rcases hq : parseDueDate (TrimPrefix p "due:".toList) with ⟨dd, _ | e⟩
      · simp only [hq] at h
        simp only [ne_eq, not_true_eq_false, if_false, Prod.mk.injEq, and_true] at h
        rw [← h]
        exact ⟨rfl, rfl⟩
      · simp only [hq] at h
        simp at h
    · split at h
      · simp only [Prod.mk.injEq, and_true] at h
        rw [← h]
        exact ⟨rfl, rfl⟩
      · exact ih h

/-- C11: when `parseTask` succeeds, `Text` is the tokens of the line
without the first one, joined with single spaces: the first token is
dropped whatever it is, and later `due:` and `x` tokens stay in the text. -/
theorem C11_text_drops_first_token (line path : List Char) (t : Task)
    (h : parseTask line path = some (t, none)) :
    t.Text = Join (Fields line).tail " ".toList ∧
    t.Text = " ".toList.intercalate (Fields line).tail ∧
    (∀ first rest, Fields line = first :: rest → t.Text = " ".toList.intercalate rest) := by
  have hne : Fields line ≠ [] := by
    intro h0
    rw [(parseTask_eq_none line path).2 h0] at h
    exact absurd h (by simp)
  rw [parseTask_eq line path hne] at h
  simp only [Option.some.injEq] at h
  have hk := (scanParts_keeps _ _ _ h).1
  have h1 : t.Text = Join (Fields line).tail " ".toList := hk
  refine ⟨h1, ?_, ?_⟩
  · rw [h1, Join_eq_intercalate]
  · intro first rest hf
    rw [h1, Join_eq_intercalate, hf]
    rfl

theorem C11_text_drops_first_token_witness :
    ("pay rent x due:2024-03-01".toList =
        Join (Fields "due:2024-02-29 pay rent x due:2024-03-01".toList).tail " ".toList ∧
      "pay rent x due:2024-03-01".toList =
        " ".toList.intercalate (Fields "due:2024-02-29 pay rent x due:2024-03-01".toList).tail ∧
      (∀ first rest, Fields "due:2024-02-29 pay rent x due:2024-03-01".toList = first :: rest →
        "pay rent x due:2024-03-01".toList = " ".toList.intercalate rest)) ∧
    "buy milk due:2024-03-01".toList =
      Join (Fields "x  buy milk\tdue:2024-03-01".toList).tail " ".toList :=
  ⟨C11_text_drops_first_token "due:2024-02-29 pay rent x due:2024-03-01".toList
      "/home/u/work.todo.txt".toList
      ⟨"pay rent x due:2024-03-01".toList, Date 2024 2 29 23 59 59 0 UTC, "work".toList, false⟩
      (by decide),
    (C11_text_drops_first_token "x  buy milk\tdue:2024-03-01".toList
      "/home/u/work.todo.txt".toList
      ⟨"buy milk due:2024-03-01".toList, Time.zero, "work".toList, true⟩ (by decide)).1⟩

/-! ## The first marker -/

theorem HasPrefix_eq_append (m p : List Char) (h : HasPrefix m p = true) :
    m = p ++ TrimPrefix m p := by
  unfold TrimPrefix
  rw [if_pos h]
  unfold HasPrefix at h
  simp only [beq_iff_eq] at h
  conv_lhs => rw [← List.take_append_drop p.length m, h]

/-- The scan of the parts looks at the parts up to the first marker and at
nothing after it. -/
theorem scanParts_firstMarker (task : Task) (parts : List (List Char)) :
    scanParts task parts =
      match firstMarker parts with
      | none => (task, none)
      | some m => scanParts task [m] := by
  induction parts with
  | nil => rfl
  | cons p ps ih =>
    rw [firstMarker]
    by_cases hd : HasPrefix p "due:".toList = true
    · simp only [hd, Bool.true_or, if_true]
      rw [scanParts, scanParts, if_pos hd, if_pos hd]
    · by_cases hx : p = "x".toList
      · have hb : (HasPrefix p "due:".toList || p == "x".toList) = true := by
          rw [Bool.or_eq_true]; exact Or.inr (beq_iff_eq.2 hx)
        simp only [hb, if_true]
        rw [scanParts, scanParts, if_neg hd, if_neg hd, if_pos hx, if_pos hx]
      · have hb : (HasPrefix p "due:".toList || p == "x".toList) = false := by
          rw [Bool.or_eq_false_iff]
          exact ⟨Bool.eq_false_of_not_eq_true hd, by simp only [beq_eq_false_iff_ne, ne_eq]; exact hx⟩
        simp only [hb, Bool.false_eq_true, if_false]
        rw [scanParts, if_neg hd, if_neg hx]
        exact ih

theorem firstMarker_append (pre post : List (List Char)) (m : List Char)
    (hd : ∀ p ∈ pre, HasPrefix p "due:".toList = false) (hx : ∀ p ∈ pre, p ≠ "x".toList)
    (hm : HasPrefix m "due:".toList = true ∨ m = "x".toList) :
    firstMarker (pre ++ m :: post) = some m := by
  induction pre with
  | nil =>
    rw [List.nil_append, firstMarker]
    have hb : (HasPrefix m "due:".toList || m == "x".toList) = true := by
      rw [Bool.or_eq_true]
      exact hm.imp id (fun h => beq_iff_eq.2 h)
    rw [if_pos hb]
  | cons p ps ih =>
    have h1 := hd p (List.mem_cons_self _ _)
    have h2 := hx p (List.mem_cons_self _ _)
    have hb : (HasPrefix p "due:".toList || p == "x".toList) = false := by
      rw [Bool.or_eq_false_iff]
      exact ⟨h1, by simp only [beq_eq_false_iff_ne, ne_eq]; exact h2⟩
    rw [List.cons_append, firstMarker, if_neg (by rw [hb]; simp)]
    exact ih (fun q hq => hd q (List.mem_cons_of_mem _ hq))
      (fun q hq => hx q (List.mem_cons_of_mem _ hq))

theorem firstMarker_some (parts : List (List Char)) (m : List Char)
    (h : firstMarker parts = some m) :
    HasPrefix m "due:".toList = true ∨ m = "x".toList := by
  induction parts with
  | nil => simp [firstMarker] at h
  | cons p ps ih =>
    rw [firstMarker] at h
    split at h
    · rename_i hb
      simp only [Option.some.injEq] at h
      subst h
      rw [Bool.or_eq_true] at hb
      exact hb.imp id (fun h => beq_iff_eq.1 h)
    · exact ih h

/-- The result of the scan when the first marker is `m`. -/
theorem scanParts_one (task : Task) (m : List Char) :
    (m = "x".toList → scanParts task [m] = ({ task with Completed := true }, none)) ∧
    (∀ s y mo d, m = "due:".toList ++ s → calendarDate s = some (y, mo, d) →
      scanParts task [m] = ({ task with DueDate := Date y mo d 23 59 59 0 UTC }, none)) ∧
    (∀ s, m = "due:".toList ++ s → calendarDate s = none →
      ∃ e, scanParts task [m] = (Task.zero, some e)) :=
  ⟨fun h => by rw [h]; exact scanParts_x task [],
   fun s y mo d h hc => by rw [h]; exact scanParts_due_ok task s [] y mo d hc,
   fun s h hc => by rw [h]; exact scanParts_due_bad task s [] hc⟩

theorem scanParts_agree (a b : Task) (parts : List (List Char))
    (h1 : a.DueDate = b.DueDate) (h2 : a.Completed = b.Completed) :
    (scanParts a parts).1.DueDate = (scanParts b parts).1.DueDate ∧
    (scanParts a parts).1.Completed = (scanParts b parts).1.Completed ∧
    (scanParts a parts).2 = (scanParts b parts).2 := by
  induction parts with
  | nil => exact ⟨h1, h2, rfl⟩
  | cons p ps ih =>
    rw [scanParts, scanParts]
    split
    · rcases hq : parseDueDate (TrimPrefix p "due:".toList) with ⟨dd, _ | e⟩
      · simp only [hq]
        exact ⟨rfl, h2, rfl⟩
      · simp only [hq]
        exact ⟨rfl, rfl, rfl⟩
    · split
      · exact ⟨h1, rfl, rfl⟩
      · exact ih

/-- C14 (as amended): the scan stops at the first token that is
`due:`-prefixed or exactly `x`. On a line whose first such token is a
well-formed `due:` token, `parseTask` yields that due date with
`Completed = false` and the task is admitted, whatever follows; and the
tokens after the first marker never change `DueDate`, `Completed` or the
error. -/
theorem C14_first_marker_wins (line path : List Char) (pre post : List (List Char))
    (s : List Char) (y m d : Int)
    (hparts : Fields line = pre ++ ("due:".toList ++ s) :: post)
    (hd : ∀ p ∈ pre, HasPrefix p "due:".toList = false)
    (hx : ∀ p ∈ pre, p ≠ "x".toList)
    (hs : calendarDate s = some (y, m, d)) :
    (∃ t, parseTask line path = some (t, none) ∧ t.DueDate = Date y m d 23 59 59 0 UTC ∧
      t.Completed = false ∧ admitted t = true ∧
      ∀ rest tasks, scanLines path (line :: rest) tasks = scanLines path rest (tasks ++ [t])) ∧
    (∀ (lineA lineB : List Char) (front after1 after2 : List (List Char)) (mk : List Char),
      Fields lineA = front ++ mk :: after1 → Fields lineB = front ++ mk :: after2 →
      (∀ p ∈ front, HasPrefix p "due:".toList = false) → (∀ p ∈ front, p ≠ "x".toList) →
      (HasPrefix mk "due:".toList = true ∨ mk = "x".toList) →
      ∃ r1 r2, parseTask lineA path = some r1 ∧ parseTask lineB path = some r2 ∧
        r1.1.DueDate = r2.1.DueDate ∧ r1.1.Completed = r2.1.Completed ∧ r1.2 = r2.2) := by
  constructor
  · have hne : Fields line ≠ [] := by rw [hparts]; simp
    obtain ⟨-, hm1, hm2, hd1, hd2⟩ := Parse_calendarDate s y m d hs
    obtain ⟨-, -, -, -, -, -, -, -, fz⟩ := Date_endOfDay y m d ⟨hm1, hm2⟩ ⟨hd1, hd2⟩
    have key : ∀ task, scanParts task (Fields line) =
        ({ task with DueDate := Date y m d 23 59 59 0 UTC }, none) := by
      intro task
      rw [hparts, scanParts_skip _ pre _ hd hx, scanParts_due_ok _ s post y m d hs]
    have hp : parseTask line path =
        some ({ baseTask (Fields line) path with DueDate := Date y m d 23 59 59 0 UTC }, none) := by
      rw [parseTask_eq line path hne, key]
    have ha : admitted { baseTask (Fields line) path with
        DueDate := Date y m d 23 59 59 0 UTC } = true := by
      unfold admitted
      simp only [fz]
      rfl
    exact ⟨_, hp, rfl, rfl, ha, fun rest tasks => scanLines_admit path line rest tasks _ hp ha⟩
  · intro lineA lineB front after1 after2 mk hA hB hfd hfx hmk
    have hneA : Fields lineA ≠ [] := by rw [hA]; simp
    have hneB : Fields lineB ≠ [] := by rw [hB]; simp
    refine ⟨_, _, parseTask_eq lineA path hneA, parseTask_eq lineB path hneB, ?_⟩
    have e1 : ∀ task, scanParts task (Fields lineA) = scanParts task [mk] := by
      intro task
      rw [scanParts_firstMarker task (Fields lineA), hA,
        firstMarker_append front after1 mk hfd hfx hmk]
    have e2 : ∀ task, scanParts task (Fields lineB) = scanParts task [mk] := by
      intro task
      rw [scanParts_firstMarker task (Fields lineB), hB,
        firstMarker_append front after2 mk hfd hfx hmk]
    rw [e1, e2]
    exact scanParts_agree _ _ [mk] rfl rfl

theorem C14_first_marker_wins_witness :
    ∃ t, parseTask "(A) pay due:2024-05-01 x due:never".toList "/home/u/work.todo.txt".toList =
        some (t, none) ∧ t.DueDate = Date 2024 5 1 23 59 59 0 UTC ∧
      t.Completed = false ∧ admitted t = true ∧
      ∀ rest tasks,
        scanLines "/home/u/work.todo.txt".toList
          ("(A) pay due:2024-05-01 x due:never".toList :: rest) tasks =
        scanLines "/home/u/work.todo.txt".toList rest (tasks ++ [t]) :=
  (C14_first_marker_wins "(A) pay due:2024-05-01 x due:never".toList
    "/home/u/work.todo.txt".toList ["(A)".toList, "pay".toList]
    ["x".toList, "due:never".toList] "2024-05-01".toList 2024 5 1
    (by decide) (by decide) (by decide) (by decide)).1

/-- C14 (as stated) fails: on `a due:soon due:2024-05-01 x` the
well-formed token `due:2024-05-01` precedes the only `x`, yet the scan stops
at `due:soon` and `parseTask` returns an error: no due date, no task. -/
theorem C14_counterexample :
    Fields "a due:soon due:2024-05-01 x".toList =
      ["a".toList, "due:soon".toList, "due:2024-05-01".toList, "x".toList] ∧
    calendarDate "2024-05-01".toList = some (2024, 5, 1) ∧
    parseTask "a due:soon due:2024-05-01 x".toList "/home/u/work.todo.txt".toList =
      some (Task.zero, some ParseError.bad) ∧
    scanLines "/home/u/work.todo.txt".toList ["a due:soon due:2024-05-01 x".toList] [] =
      some [] := by
  decide

/-- C15: on a line with at least one token, `parseTask` returns an error
exactly when the first token that is `due:`-prefixed or exactly `x` is a
`due:` token whose remainder is not a valid `YYYY-MM-DD` calendar date; the
task returned with an error is the zero task. -/
theorem C15_error_iff_first_marker_malformed (line path : List Char)
    (hne : Fields line ≠ []) :
    ((∃ t e, parseTask line path = some (t, some e)) ↔
      ∃ s, firstMarker (Fields line) = some ("due:".toList ++ s) ∧ calendarDate s = none) ∧
    (∀ t e, parseTask line path = some (t, some e) → t = Task.zero) := by
  rw [parseTask_eq line path hne, scanParts_firstMarker]
  constructor
  · constructor
    · rintro ⟨t, e, h⟩
      rcases hf : firstMarker (Fields line) with _ | mk
      · rw [hf] at h
        simp at h
      · rw [hf] at h
        simp only [Option.some.injEq] at h
        rcases firstMarker_some _ _ hf with hp | hxm
        · have hm := HasPrefix_eq_append mk _ hp
          refine ⟨TrimPrefix mk "due:".toList, by rw [← hm], ?_⟩
          rcases hc : calendarDate (TrimPrefix mk "due:".toList) with _ | ⟨y, mo, d⟩
          · rfl
          · rw [(scanParts_one _ mk).2.1 _ y mo d hm hc] at h
            simp at h
        · rw [(scanParts_one _ mk).1 hxm] at h
          simp at h
    · rintro ⟨s, hf, hc⟩
      rw [hf]
      obtain ⟨e, he⟩ := (scanParts_one (baseTask (Fields line) path) _).2.2 s rfl hc
      exact ⟨Task.zero, e, by simp only [he]⟩
  · intro t e h
    rcases scanParts_shape (baseTask (Fields line) path) (Fields line) with ⟨u, hu⟩ | ⟨e2, he2⟩
    · rw [← scanParts_firstMarker, hu] at h
      simp at h
    · rw [← scanParts_firstMarker, he2] at h
      simp only [Option.some.injEq, Prod.mk.injEq] at h
      exact h.1.symm

theorem C15_error_iff_first_marker_malformed_witness :
    ((∃ t e, parseTask "(A) file taxes due:2024-02-30 x".toList "/home/u/work.todo.txt".toList =
        some (t, some e)) ↔
      ∃ s, firstMarker (Fields "(A) file taxes due:2024-02-30 x".toList) =
        some ("due:".toList ++ s) ∧ calendarDate s = none) ∧
    (∀ t e, parseTask "(A) file taxes due:2024-02-30 x".toList "/home/u/work.todo.txt".toList =
      some (t, some e) → t = Task.zero) :=
  C15_error_iff_first_marker_malformed "(A) file taxes due:2024-02-30 x".toList
    "/home/u/work.todo.txt".toList (by decide)

/-! ## Dated tasks -/

/-- A due date that `parseDueDate` returns without error is the end of a
day of the calendar, which is not the zero instant. -/
theorem parseDueDate_ok (s : List Char) (t : Time) (h : parseDueDate s = (t, none)) :
    ∃ y m d, calendarDate s = some (y, m, d) ∧ t = Date y m d 23 59 59 0 UTC ∧
      t.IsZero = false := by
  rcases hc : calendarDate s with _ | ⟨y, m, d⟩
  · obtain ⟨e, he⟩ := parseDueDate_malformed s hc
    rw [he] at h
    simp at h
  · rw [parseDueDate_calendarDate s y m d hc] at h
    simp only [Prod.mk.injEq, and_true] at h
    obtain ⟨-, hm1, hm2, hd1, hd2⟩ := Parse_calendarDate s y m d hc
    obtain ⟨-, -, -, -, -, -, -, -, fz⟩ := Date_endOfDay y m d ⟨hm1, hm2⟩ ⟨hd1, hd2⟩
    exact ⟨y, m, d, rfl, h.symm, by rw [← h]; exact fz⟩

/-- C18: a due date parsed without error is never the zero instant, so
the intake never drops a dated task: a line with at least one token adds a
task to the collection exactly when its first token that is
`due:`-prefixed or exactly `x` is a `due:` token with a well-formed date,
and adds nothing otherwise. -/
theorem C18_dated_task_admitted (line path : List Char) (hne : Fields line ≠ []) :
    (∀ s t, parseDueDate s = (t, none) → t.IsZero = false) ∧
    ((∃ t, ∀ rest tasks, scanLines path (line :: rest) tasks =
        scanLines path rest (tasks ++ [t])) ↔
      ∃ s y m d, firstMarker (Fields line) = some ("due:".toList ++ s) ∧
        calendarDate s = some (y, m, d)) ∧
    ((∃ s y m d, firstMarker (Fields line) = some ("due:".toList ++ s) ∧
        calendarDate s = some (y, m, d)) ∨
      ∀ rest tasks, scanLines path (line :: rest) tasks = scanLines path rest tasks) := by
  have hz : ∀ s t, parseDueDate s = (t, none) → t.IsZero = false := by
    intro s t h
    obtain ⟨-, -, -, -, -, h3⟩ := parseDueDate_ok s t h
    exact h3
  have hp := parseTask_eq line path hne
  rw [scanParts_firstMarker] at hp
  -- the three ways the scan ends
  have cases3 :
      (∃ s y m d, firstMarker (Fields line) = some ("due:".toList ++ s) ∧
        calendarDate s = some (y, m, d) ∧
        parseTask line path = some ({ baseTask (Fields line) path with
          DueDate := Date y m d 23 59 59 0 UTC }, none)) ∨
      ((¬ ∃ s y m d, firstMarker (Fields line) = some ("due:".toList ++ s) ∧
        calendarDate s = some (y, m, d)) ∧
        ∃ t err, parseTask line path = some (t, err) ∧ (err ≠ none ∨ admitted t = false)) := by
    rcases hf : firstMarker (Fields line) with _ | mk
    · right
      rw [hf] at hp
      exact ⟨by simp, _, none, hp, Or.inr rfl⟩
    · rw [hf] at hp
      simp only at hp
      rcases firstMarker_some _ _ hf with hpre | hxm
      · have hm := HasPrefix_eq_append mk _ hpre
        rcases hc : calendarDate (TrimPrefix mk "due:".toList) with _ | ⟨y, mo, d⟩
        · right
          obtain ⟨e, he⟩ := (scanParts_one (baseTask (Fields line) path) mk).2.2 _ hm hc
          rw [he] at hp
          refine ⟨?_, _, some e, hp, Or.inl (by simp)⟩
          rintro ⟨s, y, m, d, h1, h2⟩
          simp only [Option.some.injEq] at h1
          rw [hm] at h1
          have := List.append_cancel_left h1
          rw [this, h2] at hc
          simp at hc
        · left
          rw [(scanParts_one (baseTask (Fields line) path) mk).2.1 _ y mo d hm hc] at hp
          exact ⟨_, y, mo, d, by rw [← hm], hc, hp⟩
      · right
        rw [(scanParts_one (baseTask (Fields line) path) mk).1 hxm] at hp
        refine ⟨?_, _, none, hp, Or.inr rfl⟩
        rintro ⟨s, y, m, d, h1, -⟩
        simp only [Option.some.injEq] at h1
        rw [hxm] at h1
        simp at h1
  refine ⟨hz, ⟨?_, ?_⟩, ?_⟩
  · rintro ⟨t, ht⟩
    rcases cases3 with ⟨s, y, m, d, h1, h2, -⟩ | ⟨-, u, err, h3, h4⟩
    · exact ⟨s, y, m, d, h1, h2⟩
    · exfalso
      have h5 := ht [] []
      rw [scanLines_skip path line [] [] u err h3 h4] at h5
      simp [scanLines] at h5
  · rintro ⟨s, y, m, d, h1, h2⟩
    rcases cases3 with ⟨s2, y2, m2, d2, g1, g2, g3⟩ | ⟨hno, -⟩
    · obtain ⟨-, hm1, hm2, hd1, hd2⟩ := Parse_calendarDate s2 y2 m2 d2 g2
      obtain ⟨-, -, -, -, -, -, -, -, fz⟩ := Date_endOfDay y2 m2 d2 ⟨hm1, hm2⟩ ⟨hd1, hd2⟩
      have ha : admitted { baseTask (Fields line) path with
          DueDate := Date y2 m2 d2 23 59 59 0 UTC } = true := by
        unfold admitted
        simp only [fz]
        rfl
      exact ⟨_, fun rest tasks => scanLines_admit path line rest tasks _ g3 ha⟩
    · exact absurd ⟨s, y, m, d, h1, h2⟩ hno
  · rcases cases3 with ⟨s, y, m, d, h1, h2, -⟩ | ⟨-, u, err, h3, h4⟩
    · exact Or.inl ⟨s, y, m, d, h1, h2⟩
    · exact Or.inr (fun rest tasks => scanLines_skip path line rest tasks u err h3 h4)

theorem C18_dated_task_admitted_witness :
    ∃ t, ∀ rest tasks,
      scanLines "/home/u/work.todo.txt".toList
        ("(A) pay due:0001-01-01 x".toList :: rest) tasks =
      scanLines "/home/u/work.todo.txt".toList rest (tasks ++ [t]) :=
  (C18_dated_task_admitted "(A) pay due:0001-01-01 x".toList "/home/u/work.todo.txt".toList
    (by decide)).2.1.2 ⟨"0001-01-01".toList, 1, 1, 1, by decide, by decide⟩

/-! ## `expandTilde` -/

/-- C17: `expandTilde` returns a path that does not begin with `~`
unchanged, and otherwise the home directory followed by the path without
its leading `~`; what follows the leading `~` is kept as it is, be it a
user name or another `~`. -/
theorem C17_expandTilde (homeDir path : List Char) :
    (HasPrefix path "~".toList = false → expandTilde homeDir path = path) ∧
    (∀ rest, path = '~' :: rest → expandTilde homeDir path = homeDir ++ rest) ∧
    (HasPrefix path "~".toList = true ↔ ∃ rest, path = '~' :: rest) ∧
    expandTilde homeDir ("~bob/notes~1.txt".toList) = homeDir ++ "bob/notes~1.txt".toList := by
  have hpre : ∀ rest : List Char, HasPrefix ('~' :: rest) "~".toList = true := by
    intro rest
    simp [HasPrefix]
  have hrep : ∀ rest : List Char, replaceFirst '~' homeDir ('~' :: rest) = homeDir ++ rest := by
    intro rest
    simp [replaceFirst]
  refine ⟨?_, ?_, ?_, ?_⟩
  · intro h
    unfold expandTilde
    rw [h]
    rfl
  · intro rest h
    unfold expandTilde
    rw [h, hpre rest, if_pos rfl, hrep]
  · constructor
    · intro h
      cases path with
      | nil => simp [HasPrefix] at h
      | cons c cs =>
        have : c = '~' := by simpa [HasPrefix] using h
        exact ⟨cs, by rw [this]⟩
    · rintro ⟨rest, rfl⟩
      exact hpre rest
  · unfold expandTilde
    have e : "~bob/notes~1.txt".toList = '~' :: "bob/notes~1.txt".toList := rfl
    rw [e, hpre, if_pos rfl, hrep]

/-! ## Calendar-day steps in a location -/

theorem offsetsFrom_lookup (lo hi s : Int) (h1 : lo ≤ s) (h2 : s ≤ hi) (tx : List (Int × Int)) :
    ∀ off start : Int, (lookupFrom s tx off start).1 ∈ offsetsFrom lo hi tx off := by
  induction tx with
  | nil =>
    intro off start
    simp [lookupFrom, offsetsFrom]
  | cons p rest ih =>
    intro off start
    obtain ⟨w, o⟩ := p
    rw [lookupFrom, offsetsFrom]
    by_cases hw : w ≤ lo
    · have hs : ¬ s < w := by omega
      simp only [hw, hs, if_true, if_false]
      exact ih o w
    · by_cases hh : hi < w
      · have hs : s < w := by omega
        simp only [hw, hh, hs, if_true, if_false, List.mem_singleton]
      · by_cases hs : s < w
        · simp only [hw, hh, hs, if_true, if_false, List.mem_cons, true_or]
        · simp only [hw, hh, hs, if_false]
          exact List.mem_cons_of_mem _ (ih o w)

/-- The offset in force at a time of the interval is one of the offsets in
force on the interval. -/
theorem lookup_offsetsOn (l : Location) (lo hi s : Int) (h1 : lo ≤ s) (h2 : s ≤ hi) :
    (l.lookup s).1 ∈ l.offsetsOn lo hi :=
  offsetsFrom_lookup lo hi s h1 h2 l.tx l.zone0 alpha

/-- The zone adjustment of `Date` subtracts the offset in force at the
local reading taken as a Unix time, or the one in force that offset
earlier. -/
theorem zoneAdjust_cases (l : Location) (x : Int) :
    zoneAdjust l x = x - (l.lookup x).1 ∨
      zoneAdjust l x = x - (l.lookup (x - (l.lookup x).1)).1 := by
  unfold zoneAdjust
  rcases hq : l.lookup x with ⟨offset, start, stop⟩
  simp only
  split
  · split
    · right; rfl
    · left; rfl
  · rename_i h0
    simp only [ne_eq, not_not] at h0
    left
    omega

/-- A step of `k` calendar days: the local clock reading moves by `k` times
24 hours and is read in one of two offsets. -/
theorem AddDate_sec (t : Time) (k : Int) (hv : t.Valid) :
    (t.AddDate 0 0 k).nsec = t.nsec ∧ (t.AddDate 0 0 k).loc = t.loc ∧
    ((t.AddDate 0 0 k).sec = t.sec + secondsPerDay * k + t.offset -
        (t.loc.lookup (t.Unix + t.offset + secondsPerDay * k)).1 ∨
      (t.AddDate 0 0 k).sec = t.sec + secondsPerDay * k + t.offset -
        (t.loc.lookup (t.Unix + t.offset + secondsPerDay * k -
          (t.loc.lookup (t.Unix + t.offset + secondsPerDay * k)).1)).1) := by
  rw [AddDate_days t k hv]
  refine ⟨rfl, rfl, ?_⟩
  have hx : t.abs + secondsPerDay * k + internalToUnix = t.Unix + t.offset + secondsPerDay * k := by
    unfold Time.abs Time.offset Time.Unix
    omega
  have hi : internalToUnix + unixToInternal = 0 := by unfold internalToUnix; omega
  rw [hx]
  have hu : t.Unix = t.sec + internalToUnix := rfl
  rcases zoneAdjust_cases t.loc (t.Unix + t.offset + secondsPerDay * k) with h | h
  · left
    simp only [h]
    omega
  · right
    simp only [h]
    omega

/-! ## A week without a change of offset -/

theorem steady_lookup (now : Time) (hs : now.Steady) (s : Int)
    (h1 : min now.Unix (now.Unix + now.offset + secondsPerDay) ≤ s)
    (h2 : s ≤ max (now.Unix + 7 * secondsPerDay) (now.Unix + now.offset + 7 * secondsPerDay)) :
    (now.loc.lookup s).1 = now.offset :=
  hs _ (lookup_offsetsOn _ _ _ _ h1 h2)

theorem fixed_steady (now : Time) (h : now.loc.Fixed) : now.Steady := by
  unfold Time.Steady Location.offsetsOn Time.offset
  rw [lookup_fixed _ h]
  unfold Location.Fixed at h
  rw [h]
  intro a ha
  simpa [offsetsFrom] using ha

/-- In a week without a change of offset a step of `k` calendar days from
`now + i*24h` is a step of `k` times 24 hours, as long as it stays within
the week. -/
theorem AddDate_steady (now : Time) (hv : now.Valid) (hs : now.Steady) (i k : Int)
    (hi : 0 ≤ i) (hk : 1 ≤ k) (hik : i + k ≤ 7) :
    (now.addSeconds (secondsPerDay * i)).AddDate 0 0 k =
      now.addSeconds (secondsPerDay * (i + k)) := by
  have hu : (now.addSeconds (secondsPerDay * i)).Unix = now.Unix + secondsPerDay * i := by
    unfold Time.Unix Time.addSeconds
    simp only
    omega
  have ho : (now.addSeconds (secondsPerDay * i)).offset = now.offset := by
    unfold Time.offset
    rw [hu]
    exact steady_lookup now hs _ (by unfold secondsPerDay; omega) (by unfold secondsPerDay; omega)
  obtain ⟨a, b, c⟩ := AddDate_sec (now.addSeconds (secondsPerDay * i)) k (addSeconds_valid now _ hv)
  rw [hu, ho] at c
  have l1 : (now.loc.lookup (now.Unix + secondsPerDay * i + now.offset + secondsPerDay * k)).1 =
      now.offset :=
    steady_lookup now hs _ (by unfold secondsPerDay; omega) (by unfold secondsPerDay; omega)
  have l2 : (now.loc.lookup (now.Unix + secondsPerDay * i + now.offset + secondsPerDay * k -
      now.offset)).1 = now.offset :=
    steady_lookup now hs _ (by unfold secondsPerDay; omega) (by unfold secondsPerDay; omega)
  have hl : (now.addSeconds (secondsPerDay * i)).loc = now.loc := rfl
  rw [hl, l1, l2] at c
  rcases hq : (now.addSeconds (secondsPerDay * i)).AddDate 0 0 k with ⟨s, n, l⟩
  rw [hq] at a b c
  simp only at a b c
  unfold Time.addSeconds at a b c ⊢
  simp only at a b c ⊢
  rw [a, b]
  congr 1
  unfold secondsPerDay at c ⊢
  omega

theorem dayStart_step (i : Nat) : ∀ now : Time,
    dayStart now (i + 1) = (dayStart now i).AddDate 0 0 1 := by
  induction i with
  | zero => intro now; rfl
  | succ n ih =>
    intro now
    rw [dayStart_succ, ih (now.AddDate 0 0 1), ← dayStart_succ]

theorem dayStart_steady (now : Time) (hv : now.Valid) (hs : now.Steady) (i : Nat) (hi : i ≤ 7) :
    dayStart now i = now.addSeconds (secondsPerDay * i) := by
  induction i with
  | zero =>
    show now = now.addSeconds (secondsPerDay * ((0 : Nat) : Int))
    rw [Nat.cast_zero, mul_zero, addSeconds_zero]
  | succ n ih =>
    rw [dayStart_step, ih (by omega), AddDate_steady now hv hs n 1 (by omega) (by omega) (by omega)]
    congr 1

theorem Before_addSeconds_lt (now : Time) (i k : Int) :
    (now.addSeconds (secondsPerDay * i)).Before (now.addSeconds (secondsPerDay * k)) =
      decide (i < k) := by
  rw [Bool.eq_iff_iff, Before_true_iff]
  unfold Time.addSeconds secondsPerDay
  simp only [decide_eq_true_eq]
  constructor
  · intro h; omega
  · intro h; left; omega

/-- In a week without a change of offset the loop over the days, entered
at `now + i*24h`, runs until `now + 7*24h`. -/
theorem dailyLoop_steady (now : Time) (hv : now.Valid) (hs : now.Steady) (tasks : List Task)
    (k : Nat) : ∀ (fuel i : Nat), i + k = 7 → k ≤ fuel →
      ∃ days, dailyLoop tasks (now.addSeconds (secondsPerDay * 7)) fuel
          (now.addSeconds (secondsPerDay * i)) = some days ∧ days.length = k := by
  induction k with
  | zero =>
    intro fuel i hik _
    refine ⟨[], ?_, rfl⟩
    have hb := Before_addSeconds_lt now i 7
    have : ¬ ((i : Int) < 7) := by omega
    simp only [this, decide_False] at hb
    cases fuel <;> rw [dailyLoop, hb] <;> simp
  | succ n ih =>
    intro fuel i hik hk
    obtain ⟨f, rfl⟩ : ∃ f, fuel = f + 1 := ⟨fuel - 1, by omega⟩
    have hb := Before_addSeconds_lt now i 7
    have : ((i : Int) < 7) := by omega
    simp only [this, decide_True] at hb
    rw [dailyLoop, hb]
    simp only [if_true]
    rw [AddDate_steady now hv hs i 1 (by omega) (by omega) (by omega)]
    obtain ⟨days, hd, hl⟩ := ih f (i + 1) (by omega) (by omega)
    push_cast at hd
    rw [hd]
    exact ⟨_, rfl, by simp [hl]⟩

/-- In a week without a change of offset the agenda has seven daily
sections, the `i`-th one starting at `now + i*24h`. -/
theorem agenda_steady (sort : List Task → List Task) (now : Time) (hv : now.Valid)
    (hs : now.Steady) (tasks : List Task) (fuel : Nat) (hfuel : 7 ≤ fuel) :
    now.AddDate 0 0 7 = now.addSeconds (secondsPerDay * 7) ∧
    ∃ days, agenda sort fuel now tasks = some ⟨pastDue now (sort tasks), days⟩ ∧
      days.length = 7 ∧
      ∀ i : Nat, i < 7 → days.get? i =
        some (now.addSeconds (secondsPerDay * i),
          dayTasks (now.addSeconds (secondsPerDay * i)) (sort tasks)) := by
  have h7 : now.AddDate 0 0 7 = now.addSeconds (secondsPerDay * 7) := by
    have := AddDate_steady now hv hs 0 7 (by omega) (by omega) (by omega)
    rw [mul_zero, addSeconds_zero, zero_add] at this
    exact this
  refine ⟨h7, ?_⟩
  obtain ⟨days, hd, hl⟩ := dailyLoop_steady now hv hs (sort tasks) 7 fuel 0 (by omega) hfuel
  rw [Nat.cast_zero, mul_zero, addSeconds_zero] at hd
  have ha : agenda sort fuel now tasks = some ⟨pastDue now (sort tasks), days⟩ := by
    unfold agenda
    simp only [h7]
    rw [hd]
    rfl
  refine ⟨days, ha, hl, ?_⟩
  intro i hi
  have hlt : i < days.length := by omega
  have hg := dailyLoop_get _ _ _ _ _ hd i _ (List.get?_eq_get hlt)
  rw [List.get?_eq_get hlt, hg, dayStart_steady now hv hs i (by omega)]

/-! ## Days with a change of offset -/

theorem OffsetsWithin_mono (now : Time) (d e : Int) (hde : d ≤ e) (hw : now.OffsetsWithin d) :
    now.OffsetsWithin e := by
  intro a ha
  obtain ⟨h1, h2, h3⟩ := hw a ha
  exact ⟨h1, h2, fun b hb => le_trans (h3 b hb) hde⟩

/-- One calendar day after a start of the first eight days: the instant
moves by 24 hours, corrected by the difference of two offsets in force in
the ten days from `now`, which is at most `d` either way. -/
theorem step_within (now cur : Time) (d : Int) (hd : d ≤ secondsPerDay)
    (hw : now.OffsetsWithin d) (hv : cur.Valid) (hl : cur.loc = now.loc)
    (h1 : now.sec ≤ cur.sec) (h2 : cur.sec ≤ now.sec + 8 * secondsPerDay) :
    (cur.AddDate 0 0 1).nsec = cur.nsec ∧ (cur.AddDate 0 0 1).loc = cur.loc ∧
      cur.sec + (secondsPerDay - d) ≤ (cur.AddDate 0 0 1).sec ∧
      (cur.AddDate 0 0 1).sec ≤ cur.sec + (secondsPerDay + d) := by
  obtain ⟨a, b, c⟩ := AddDate_sec cur 1 hv
  refine ⟨a, b, ?_⟩
  have hsd : secondsPerDay = 86400 := rfl
  have hu : cur.Unix = cur.sec + internalToUnix := rfl
  have hnu : now.Unix = now.sec + internalToUnix := rfl
  have m0 : cur.offset ∈ now.offsetsAhead := by
    unfold Time.offset
    rw [hl]
    exact lookup_offsetsOn _ _ _ _ (by omega) (by omega)
  obtain ⟨p1, p2, p3⟩ := hw _ m0
  have m1 : (cur.loc.lookup (cur.Unix + cur.offset + secondsPerDay * 1)).1 ∈ now.offsetsAhead := by
    rw [hl]
    exact lookup_offsetsOn _ _ _ _ (by omega) (by omega)
  obtain ⟨q1, q2, q3⟩ := hw _ m1
  have r1 := p3 _ m1
  have r2 := q3 _ m0
  have m2 : (cur.loc.lookup (cur.Unix + cur.offset + secondsPerDay * 1 -
      (cur.loc.lookup (cur.Unix + cur.offset + secondsPerDay * 1)).1)).1 ∈ now.offsetsAhead := by
    rw [hl] at r1 r2 ⊢
    exact lookup_offsetsOn _ _ _ _ (by omega) (by omega)
  have r3 := p3 _ m2
  have r4 := (hw _ m2).2.2 _ m0
  rcases c with c | c <;> rw [c] <;> constructor <;> omega

/-- The end of the week, `now` advanced by seven calendar days, is seven
times 24 hours after `now`, up to `d` seconds. -/
theorem endDate_within (now : Time) (d : Int) (hd : d ≤ secondsPerDay)
    (hw : now.OffsetsWithin d) (hv : now.Valid) :
    (now.AddDate 0 0 7).nsec = now.nsec ∧
      (now.AddDate 0 0 7).sec ≤ now.sec + 8 * secondsPerDay ∧
      now.sec + (7 * secondsPerDay - d) ≤ (now.AddDate 0 0 7).sec := by
  obtain ⟨a, -, c⟩ := AddDate_sec now 7 hv
  refine ⟨a, ?_⟩
  have hsd : secondsPerDay = 86400 := rfl
  have hnu : now.Unix = now.sec + internalToUnix := rfl
  have m0 : now.offset ∈ now.offsetsAhead :=
    lookup_offsetsOn _ _ _ _ (by omega) (by omega)
  obtain ⟨p1, p2, p3⟩ := hw _ m0
  have m1 : (now.loc.lookup (now.Unix + now.offset + secondsPerDay * 7)).1 ∈ now.offsetsAhead :=
    lookup_offsetsOn _ _ _ _ (by omega) (by omega)
  obtain ⟨q1, q2, q3⟩ := hw _ m1
  have r1 := p3 _ m1
  have r2 := q3 _ m0
  have m2 : (now.loc.lookup (now.Unix + now.offset + secondsPerDay * 7 -
      (now.loc.lookup (now.Unix + now.offset + secondsPerDay * 7)).1)).1 ∈ now.offsetsAhead :=
    lookup_offsetsOn _ _ _ _ (by omega) (by omega)
  obtain ⟨-, -, t3⟩ := hw _ m2
  have r3 := t3 _ m0
  have r4 := p3 _ m2
  rcases c with c | c <;> rw [c] <;> constructor <;> omega

/-- The starts of the daily sections, as long as the loop goes on: each is
in the location of `now`, not before `now`, and between `24h - d` and
`24h + d` after the start before it. -/
theorem dayStart_within (now : Time) (d : Int) (hd : d ≤ secondsPerDay)
    (hw : now.OffsetsWithin d) (hv : now.Valid) (i : Nat)
    (hb : ∀ j, j < i → (dayStart now j).Before (now.AddDate 0 0 7) = true) :
    (dayStart now i).nsec = now.nsec ∧ (dayStart now i).loc = now.loc ∧
      now.sec ≤ (dayStart now i).sec ∧
      ∀ j, j < i → (dayStart now j).sec + (secondsPerDay - d) ≤ (dayStart now (j + 1)).sec ∧
        (dayStart now (j + 1)).sec ≤ (dayStart now j).sec + (secondsPerDay + d) := by
  induction i with
  | zero => exact ⟨rfl, rfl, le_refl _, fun j hj => absurd hj (by omega)⟩
  | succ n ih =>
    obtain ⟨i1, i2, i3, i4⟩ := ih (fun j hj => hb j (by omega))
    have hbn := hb n (by omega)
    rw [Before_true_iff] at hbn
    obtain ⟨-, e2, -⟩ := endDate_within now d hd hw hv
    have hvn : (dayStart now n).Valid := by
      unfold Time.Valid at hv ⊢
      rw [i1]
      exact hv
    obtain ⟨s1, s2, s3, s4⟩ := step_within now (dayStart now n) d hd hw hvn i2 i3 (by omega)
    rw [← dayStart_step] at s1 s2 s3 s4
    refine ⟨by rw [s1, i1], by rw [s2, i2], by omega, ?_⟩
    intro j hj
    by_cases h : j = n
    · subst h
      exact ⟨s3, s4⟩
    · exact i4 j (by omega)

theorem dayStart_within_mono (now : Time) (hw : now.OffsetsWithin secondsPerDay)
    (hv : now.Valid) (i : Nat)
    (hb : ∀ j, j < i → (dayStart now j).Before (now.AddDate 0 0 7) = true) (j k : Nat)
    (hjk : j ≤ k) (hk : k ≤ i) : (dayStart now j).sec ≤ (dayStart now k).sec := by
  induction k with
  | zero =>
    have : j = 0 := by omega
    rw [this]
  | succ n ih =>
    by_cases h : j = n + 1
    · rw [h]
    · have := ih (by omega) (by omega)
      have := ((dayStart_within now secondsPerDay (le_refl _) hw hv i hb).2.2.2 n (by omega)).1
      omega

/-- More rounds than the loop needs change nothing. -/
theorem dailyLoop_more (tasks : List Task) (endDate : Time) (fuel : Nat) :
    ∀ cur days, dailyLoop tasks endDate fuel cur = some days →
      ∀ more, fuel ≤ more → dailyLoop tasks endDate more cur = some days := by
  induction fuel with
  | zero =>
    intro cur days h more _
    rw [dailyLoop] at h
    split at h
    · exact absurd h (by simp)
    · rename_i hb
      cases more <;> rw [dailyLoop, if_neg hb] <;> exact h
  | succ n ih =>
    intro cur days h more hm
    obtain ⟨m, rfl⟩ : ∃ m, more = m + 1 := ⟨more - 1, by omega⟩
    rw [dailyLoop] at h ⊢
    split at h
    · rename_i hb
      rw [if_pos hb]
      simp only [Option.map_eq_some'] at h ⊢
      obtain ⟨rest, hr, rfl⟩ := h
      exact ⟨rest, ih _ _ hr m (by omega), rfl⟩
    · rename_i hb
      rw [if_neg hb]
      exact h

/-- When the offsets in force differ by less than 24 hours every start is
later than the one before, and the loop over the days ends. -/
theorem dailyLoop_within (now : Time) (d : Int) (hd : d < secondsPerDay)
    (hw : now.OffsetsWithin d) (hv : now.Valid) (tasks : List Task) (fuel : Nat) :
    ∀ i : Nat, (∀ j, j < i → (dayStart now j).Before (now.AddDate 0 0 7) = true) →
      (now.AddDate 0 0 7).sec - (dayStart now i).sec < fuel →
      ∃ days, dailyLoop tasks (now.AddDate 0 0 7) fuel (dayStart now i) = some days := by
  induction fuel with
  | zero =>
    intro i _ hm
    refine ⟨[], ?_⟩
    have hb : (dayStart now i).Before (now.AddDate 0 0 7) = false := by
      rw [Bool.eq_false_iff, ne_eq, Before_true_iff]
      push_cast at hm
      omega
    rw [dailyLoop, hb]
    rfl
  | succ n ih =>
    intro i hb hm
    rw [dailyLoop]
    split
    · rename_i hbi
      have hb2 : ∀ j, j < i + 1 → (dayStart now j).Before (now.AddDate 0 0 7) = true := by
        intro j hj
        by_cases h : j = i
        · rw [h]; exact hbi
        · exact hb j (by omega)
      have hs := ((dayStart_within now d (le_of_lt hd) hw hv (i + 1) hb2).2.2.2 i (by omega)).1
      obtain ⟨days, hdays⟩ := ih (i + 1) hb2 (by push_cast at hm; omega)
      rw [← dayStart_step, hdays]
      exact ⟨_, rfl⟩
    · exact ⟨[], rfl⟩

/-- When the offsets in force in the ten days from `now` differ by less
than 24 hours the agenda is printed: some number of rounds ends the loop
over the days, and more rounds change nothing. -/
theorem agenda_within (sort : List Task → List Task) (now : Time) (d : Int)
    (hd : d < secondsPerDay) (hw : now.OffsetsWithin d) (hv : now.Valid) (tasks : List Task) :
    ∃ fuel a, agenda sort fuel now tasks = some a ∧
      ∀ more, fuel ≤ more → agenda sort more now tasks = some a := by
  obtain ⟨days, hdays⟩ := dailyLoop_within now d hd hw hv (sort tasks)
    ((now.AddDate 0 0 7).sec - now.sec + 1).toNat 0 (fun j hj => absurd hj (by omega))
    (by
      show (now.AddDate 0 0 7).sec - now.sec < _
      omega)
  rw [show dayStart now 0 = now from rfl] at hdays
  refine ⟨((now.AddDate 0 0 7).sec - now.sec + 1).toNat, ⟨pastDue now (sort tasks), days⟩, ?_, ?_⟩
  · unfold agenda
    simp only
    rw [hdays]
    rfl
  · intro more hm
    unfold agenda
    simp only
    rw [dailyLoop_more _ _ _ _ _ hdays more hm]
    rfl

/-! ## Sections of the agenda, one by one -/

set_option maxRecDepth 8000

theorem agenda_sections (sort : List Task → List Task) (fuel : Nat) (now : Time)
    (tasks : List Task) (a : Agenda) (ha : agenda sort fuel now tasks = some a) :
    a.pastDue = pastDue now (sort tasks) ∧
    dailyLoop (sort tasks) (now.AddDate 0 0 7) fuel now = some a.days ∧
    ∀ i x, a.days.get? i = some x →
      x = (dayStart now i, dayTasks (dayStart now i) (sort tasks)) := by
  unfold agenda at ha
  simp only [Option.map_eq_some'] at ha
  obtain ⟨days, hd, rfl⟩ := ha
  exact ⟨rfl, hd, dailyLoop_get _ _ _ _ _ hd⟩

theorem mem_pastDue (now : Time) (l : List Task) (t : Task) :
    t ∈ pastDue now l ↔ t ∈ l ∧ t.DueDate.Before now = true := by
  unfold pastDue
  rw [List.mem_filter]

theorem mem_dayTasks_iff (start : Time) (l : List Task) (t : Task) :
    t ∈ dayTasks start l ↔ t ∈ l ∧ t.DueDate.After start = true ∧
      t.DueDate.Before (start.AddDate 0 0 1) = true := by
  unfold dayTasks
  rw [List.mem_filter, Bool.and_eq_true]

/-- The loop over the days runs as long as the start of the day is before
`endDate`, and stops at the first start that is not. -/
theorem dailyLoop_ends (tasks : List Task) (endDate : Time) (fuel : Nat) :
    ∀ cur days, dailyLoop tasks endDate fuel cur = some days →
      (∀ i, i < days.length → (dayStart cur i).Before endDate = true) ∧
      (dayStart cur days.length).Before endDate = false := by
  induction fuel with
  | zero =>
    intro cur days h
    rw [dailyLoop] at h
    split at h
    · exact absurd h (by simp)
    · rename_i hb
      simp only [Option.some.injEq] at h
      subst h
      exact ⟨fun i hi => absurd hi (by simp), by simpa using hb⟩
  | succ n ih =>
    intro cur days h
    rw [dailyLoop] at h
    split at h
    · rename_i hb
      simp only [Option.map_eq_some'] at h
      obtain ⟨rest, hr, rfl⟩ := h
      obtain ⟨i1, i2⟩ := ih _ _ hr
      refine ⟨?_, ?_⟩
      · intro i hi
        cases i with
        | zero => exact hb
        | succ j =>
          rw [dayStart_succ]
          exact i1 j (by simpa using hi)
      · rw [List.length_cons, dayStart_succ]
        exact i2
    · rename_i hb
      simp only [Option.some.injEq] at h
      subst h
      exact ⟨fun i hi => absurd hi (by simp), by simpa using hb⟩

/-- The starts of the sections of a printed agenda, when the offsets in
force in the ten days from `now` lie within 24 hours of one another: no
start is before `now` or before an earlier start. -/
theorem sections_within (sort : List Task → List Task) (fuel : Nat) (now : Time)
    (tasks : List Task) (a : Agenda) (ha : agenda sort fuel now tasks = some a)
    (hv : now.Valid) (hw : now.OffsetsWithin secondsPerDay) (i : Nat) (hi : i ≤ a.days.length) :
    (dayStart now i).nsec = now.nsec ∧ now.sec ≤ (dayStart now i).sec ∧
      ∀ j, j ≤ i → (dayStart now j).sec ≤ (dayStart now i).sec := by
  obtain ⟨-, hd, -⟩ := agenda_sections sort fuel now tasks a ha
  obtain ⟨e1, -⟩ := dailyLoop_ends _ _ _ _ _ hd
  have hb : ∀ j, j < i → (dayStart now j).Before (now.AddDate 0 0 7) = true :=
    fun j hj => e1 j (by omega)
  obtain ⟨w1, -, w3, -⟩ := dayStart_within now secondsPerDay (le_refl _) hw hv i hb
  exact ⟨w1, w3, fun j hj => dayStart_within_mono now hw hv i hb j i hj (le_refl _)⟩

/-- When the offsets in force in the ten days from `now` lie within three
hours of one another, as with a change to or from daylight saving time, a
printed agenda has at least seven daily sections. -/
theorem seven_sections_within (sort : List Task → List Task) (fuel : Nat) (now : Time)
    (tasks : List Task) (a : Agenda) (ha : agenda sort fuel now tasks = some a)
    (hv : now.Valid) (hw : now.OffsetsWithin (3 * 3600)) : 7 ≤ a.days.length := by
  obtain ⟨-, hd, -⟩ := agenda_sections sort fuel now tasks a ha
  obtain ⟨e1, e2⟩ := dailyLoop_ends _ _ _ _ _ hd
  by_contra hlt
  have hsd : secondsPerDay = 86400 := rfl
  obtain ⟨w1, -, -, w4⟩ := dayStart_within now (3 * 3600) (by omega) hw hv a.days.length e1
  obtain ⟨n1, -, n3⟩ := endDate_within now (3 * 3600) (by omega) hw hv
  have hup : ∀ m : Nat, m ≤ a.days.length →
      (dayStart now m).sec ≤ now.sec + 97200 * m := by
    intro m
    induction m with
    | zero =>
      intro _
      show now.sec ≤ now.sec + 97200 * ((0 : Nat) : Int)
      omega
    | succ k ih =>
      intro hk
      have := ih (by omega)
      have := (w4 k (by omega)).2
      push_cast
      omega
  have h6 := hup a.days.length (le_refl _)
  have hb : (dayStart now a.days.length).Before (now.AddDate 0 0 7) = true := by
    rw [Before_true_iff]
    left
    have : (a.days.length : Int) ≤ 6 := by omega
    omega
  rw [hb] at e2
  exact absurd e2 (by simp)

theorem get_some_lt {α : Type} (l : List α) (i : Nat) (x : α) (h : l.get? i = some x) :
    i < l.length := by
  by_contra hge
  rw [List.get?_eq_none.2 (by omega)] at h
  exact absurd h (by simp)

/-! ## The daily sections, day by day -/

/-- C7 (as amended): the `i`-th daily section, when it is printed, starts
at `now` advanced `i` times by one calendar day (`AddDate(0, 0, 1)` in the
location of `now`) and holds the admitted tasks due strictly after its
start and strictly before its start advanced by one more calendar day. The
agenda is printed whenever the UTC offsets in force in the ten days from
`now` are within 24 hours of UTC and less than 24 hours from one another,
and the sections 0 to 6 are all printed when these offsets are within three
hours of one another. When the location keeps one UTC offset through the
week there are exactly seven sections, and a task is in the `i`-th one
exactly when it is due strictly after `now + i*24h` and strictly before
`now + (i+1)*24h`. -/
theorem C7_daily_bucket (sort : List Task → List Task) (hS : SliceSort sort) (now : Time)
    (tasks : List Task) :
    (∀ fuel a, agenda sort fuel now tasks = some a → ∀ i x, a.days.get? i = some x →
      x.1 = dayStart now i ∧
      ∀ t, t ∈ x.2 ↔ t ∈ tasks ∧ t.DueDate.After (dayStart now i) = true ∧
        t.DueDate.Before ((dayStart now i).AddDate 0 0 1) = true) ∧
    (now.Valid → now.OffsetsWithin (secondsPerDay - 1) →
      ∃ fuel a, agenda sort fuel now tasks = some a ∧
        ∀ more, fuel ≤ more → agenda sort more now tasks = some a) ∧
    (now.Valid → now.OffsetsWithin (3 * 3600) →
      ∃ fuel a, agenda sort fuel now tasks = some a ∧ 7 ≤ a.days.length) ∧
    (now.Valid → now.Steady → ∀ fuel, 7 ≤ fuel →
      ∃ a, agenda sort fuel now tasks = some a ∧ a.days.length = 7 ∧
        ∀ i : Nat, i < 7 → ∃ x, a.days.get? i = some x ∧
          ∀ t, t ∈ x.2 ↔ t ∈ tasks ∧
            t.DueDate.After (now.addSeconds (24 * 3600 * i)) = true ∧
            t.DueDate.Before (now.addSeconds (24 * 3600 * (i + 1))) = true) := by
  refine ⟨?_, ?_, ?_, ?_⟩
  · intro fuel a ha i x hx
    obtain ⟨-, -, hday⟩ := agenda_sections sort fuel now tasks a ha
    rw [hday i x hx]
    exact ⟨rfl, fun t => mem_dayTasks sort hS _ tasks t⟩
  · intro hv hw
    exact agenda_within sort now (secondsPerDay - 1) (by unfold secondsPerDay; omega) hw hv tasks
  · intro hv hw
    obtain ⟨fuel, a, ha, -⟩ := agenda_within sort now (secondsPerDay - 1)
      (by unfold secondsPerDay; omega)
      (OffsetsWithin_mono now _ _ (by unfold secondsPerDay; omega) hw) hv tasks
    exact ⟨fuel, a, ha, seven_sections_within sort fuel now tasks a ha hv hw⟩
  · intro hv hs fuel hfuel
    obtain ⟨-, days, ha, hl, hget⟩ := agenda_steady sort now hv hs tasks fuel hfuel
    refine ⟨_, ha, hl, ?_⟩
    intro i hi
    refine ⟨_, hget i hi, ?_⟩
    intro t
    simp only
    rw [mem_dayTasks sort hS, AddDate_steady now hv hs i 1 (by omega) (by omega) (by omega)]
    have e1 : secondsPerDay * (i : Int) = 24 * 3600 * i := by unfold secondsPerDay; ring
    have e2 : secondsPerDay * ((i : Int) + 1) = 24 * 3600 * (i + 1) := by
      unfold secondsPerDay; ring
    rw [e1, e2]

theorem C7_daily_bucket_witness :
    (agenda pdqSort 7 (Date 2024 3 9 19 30 0 0 newYork) marchTasks =
        some (sevenDays pdqSort (Date 2024 3 9 19 30 0 0 newYork) marchTasks) ∧
      (∃ fuel a, agenda pdqSort fuel (Date 2024 3 9 19 30 0 0 newYork) marchTasks = some a ∧
        7 ≤ a.days.length) ∧
      ∀ i x, (sevenDays pdqSort (Date 2024 3 9 19 30 0 0 newYork) marchTasks).days.get? i =
          some x →
        x.1 = dayStart (Date 2024 3 9 19 30 0 0 newYork) i ∧
        ∀ t, t ∈ x.2 ↔ t ∈ marchTasks ∧
          t.DueDate.After (dayStart (Date 2024 3 9 19 30 0 0 newYork) i) = true ∧
          t.DueDate.Before ((dayStart (Date 2024 3 9 19 30 0 0 newYork) i).AddDate 0 0 1) =
            true) ∧
    (∃ fuel a, agenda pdqSort fuel (Date 2012 3 28 9 0 0 0 apia) apiaTasks = some a ∧
      ∀ more, fuel ≤ more → agenda pdqSort more (Date 2012 3 28 9 0 0 0 apia) apiaTasks =
        some a) ∧
    (∃ a, agenda pdqSort 7 (Date 2024 6 10 9 0 0 0 manila) juneTasks = some a ∧
        a.days.length = 7 ∧
        ∀ i : Nat, i < 7 → ∃ x, a.days.get? i = some x ∧
          ∀ t, t ∈ x.2 ↔ t ∈ juneTasks ∧
            t.DueDate.After ((Date 2024 6 10 9 0 0 0 manila).addSeconds (24 * 3600 * i)) = true ∧
            t.DueDate.Before ((Date 2024 6 10 9 0 0 0 manila).addSeconds (24 * 3600 * (i + 1))) =
              true) ∧
    (¬ newYork.Fixed ∧
      ∃ a, agenda pdqSort 7 (Date 2024 6 10 9 0 0 0 newYork) juneTasks = some a ∧
        a.days.length = 7 ∧
        ∀ i : Nat, i < 7 → ∃ x, a.days.get? i = some x ∧
          ∀ t, t ∈ x.2 ↔ t ∈ juneTasks ∧
            t.DueDate.After ((Date 2024 6 10 9 0 0 0 newYork).addSeconds (24 * 3600 * i)) =
              true ∧
            t.DueDate.Before
              ((Date 2024 6 10 9 0 0 0 newYork).addSeconds (24 * 3600 * (i + 1))) = true) ∧
    readFiles [fileJune] [] = some juneTasks ∧
    dayTexts (run pdqSort 7 (Date 2024 6 10 9 0 0 0 manila) [fileJune]) =
      [["call due:2024-06-10".toList], [], [], [], [], [], []] ∧
    dayTexts (run pdqSort 7 (Date 2024 6 10 9 0 0 0 newYork) [fileJune]) =
      [["call due:2024-06-10".toList], [], [], [], [], [], []] ∧
    dayTexts (run pdqSort 7 (Date 2024 6 10 9 0 0 0 UTC) [fileJune]) =
      [["call due:2024-06-10".toList], [], [], [], [], [], []] ∧
    dayTexts (run pdqSort 7 (Date 2024 3 9 19 30 0 0 newYork) [fileMarch]) =
      [[], ["call due:2024-03-10".toList], [], [], [], [], []] ∧
    (agenda pdqSort 7 (Date 2012 3 28 9 0 0 0 apia) apiaTasks).map
        (fun a => a.days.map (fun d => d.2.map Task.Text)) =
      some [["call due:2012-03-27".toList], [], [], [], ["boat due:2012-03-31".toList], [], []] :=
  ⟨⟨by decide,
      (C7_daily_bucket pdqSort pdqSort_sliceSort (Date 2024 3 9 19 30 0 0 newYork)
        marchTasks).2.2.1
        (by unfold Time.Valid; decide)
        (by unfold Time.OffsetsWithin Time.offsetsAhead Location.offsetsOn Time.Unix; decide),
      (C7_daily_bucket pdqSort pdqSort_sliceSort (Date 2024 3 9 19 30 0 0 newYork)
        marchTasks).1 7 _ (by decide)⟩,
    (C7_daily_bucket pdqSort pdqSort_sliceSort (Date 2012 3 28 9 0 0 0 apia) apiaTasks).2.1
      (by unfold Time.Valid; decide)
      (by unfold Time.OffsetsWithin Time.offsetsAhead Location.offsetsOn Time.Unix; decide),
    (C7_daily_bucket pdqSort pdqSort_sliceSort (Date 2024 6 10 9 0 0 0 manila) juneTasks).2.2.2
      (by unfold Time.Valid; decide)
      (by unfold Time.Steady Location.offsetsOn Time.offset Time.Unix; decide) 7 (le_refl 7),
    ⟨by unfold Location.Fixed; decide,
      (C7_daily_bucket pdqSort pdqSort_sliceSort (Date 2024 6 10 9 0 0 0 newYork)
        juneTasks).2.2.2
        (by unfold Time.Valid; decide)
        (by unfold Time.Steady Location.offsetsOn Time.offset Time.Unix; decide) 7 (le_refl 7)⟩,
    by decide, by decide, by decide, by decide, by decide, by decide⟩

/-- C7 (as stated) fails: in a location that moves to daylight saving
time on 2024-03-10, with `now` = 2024-03-09 19:30 local (00:30 UTC of
2024-03-10), the task due 2024-03-10T23:59:59 UTC lies strictly between
`now` and `now + 24h` and is printed in the second daily section, not in
the first: the first section ends at 19:30 local of the next day, 23
hours after `now`. -/
theorem C7_counterexample :
    (Date 2024 3 9 19 30 0 0 newYork).Valid ∧
    Time.After (Date 2024 3 10 23 59 59 0 UTC) (Date 2024 3 9 19 30 0 0 newYork) = true ∧
    Time.Before (Date 2024 3 10 23 59 59 0 UTC)
      ((Date 2024 3 9 19 30 0 0 newYork).addSeconds (24 * 3600)) = true ∧
    readFiles [fileMarch] [] =
      some [⟨"call due:2024-03-10".toList, Date 2024 3 10 23 59 59 0 UTC, "work".toList,
        false⟩] ∧
    ((Date 2024 3 9 19 30 0 0 newYork).AddDate 0 0 1).sec =
      (Date 2024 3 9 19 30 0 0 newYork).sec + 23 * 3600 ∧
    dayTexts (run pdqSort 7 (Date 2024 3 9 19 30 0 0 newYork) [fileMarch]) =
      [[], ["call due:2024-03-10".toList], [], [], [], [], []] := by
  unfold Time.Valid
  decide

/-! ## Disjoint sections -/

/-- C12: the sections are disjoint. For every `now` in whose location the
UTC offsets in force during the ten days from `now` are within 24 hours of
UTC and of one another, no admitted task is printed both in the past-due
section and in a daily section, or in two daily sections. -/
theorem C12_sections_disjoint (sort : List Task → List Task) (now : Time) (tasks : List Task)
    (hv : now.Valid) (hw : now.OffsetsWithin secondsPerDay) (fuel : Nat) (a : Agenda)
    (ha : agenda sort fuel now tasks = some a) (t : Task) :
    (t ∈ a.pastDue → ∀ i x, a.days.get? i = some x → t ∉ x.2) ∧
    (∀ i j x y, i < j → a.days.get? i = some x → a.days.get? j = some y →
      t ∈ x.2 → t ∉ y.2) := by
  obtain ⟨hp, -, hday⟩ := agenda_sections sort fuel now tasks a ha
  constructor
  · intro htp i x hx hmem
    rw [hp, mem_pastDue, Before_true_iff] at htp
    rw [hday i x hx] at hmem
    simp only at hmem
    rw [mem_dayTasks_iff, After_true_iff] at hmem
    obtain ⟨f1, f2, -⟩ := sections_within sort fuel now tasks a ha hv hw i
      (le_of_lt (get_some_lt _ _ _ hx))
    omega
  · intro i j x y hij hx hy hmx hmy
    rw [hday i x hx] at hmx
    rw [hday j y hy] at hmy
    simp only at hmx hmy
    rw [mem_dayTasks_iff, ← dayStart_step, Before_true_iff] at hmx
    rw [mem_dayTasks_iff, After_true_iff] at hmy
    have hj := get_some_lt _ _ _ hy
    obtain ⟨n1, -, -⟩ := sections_within sort fuel now tasks a ha hv hw (i + 1) (by omega)
    obtain ⟨n2, -, hm⟩ := sections_within sort fuel now tasks a ha hv hw j (le_of_lt hj)
    have := hm (i + 1) hij
    omega

theorem C12_sections_disjoint_witness :
    (agenda pdqSort 7 (Date 2024 1 2 9 0 0 0 manila) janTasks =
        some (sevenDays pdqSort (Date 2024 1 2 9 0 0 0 manila) janTasks) ∧
      (sevenDays pdqSort (Date 2024 1 2 9 0 0 0 manila) janTasks).pastDue.map Task.Text =
        ["first due:2024-01-01".toList] ∧
      (sevenDays pdqSort (Date 2024 1 2 9 0 0 0 manila) janTasks).days.map
          (fun d => d.2.map Task.Text) =
        [["second due:2024-01-02".toList], ["third due:2024-01-03".toList], [], [], [], [], []] ∧
      ∀ t,
        (t ∈ (sevenDays pdqSort (Date 2024 1 2 9 0 0 0 manila) janTasks).pastDue →
          ∀ i x, (sevenDays pdqSort (Date 2024 1 2 9 0 0 0 manila) janTasks).days.get? i =
            some x → t ∉ x.2) ∧
        (∀ i j x y, i < j →
          (sevenDays pdqSort (Date 2024 1 2 9 0 0 0 manila) janTasks).days.get? i = some x →
          (sevenDays pdqSort (Date 2024 1 2 9 0 0 0 manila) janTasks).days.get? j = some y →
          t ∈ x.2 → t ∉ y.2)) ∧
    (agenda pdqSort 7 (Date 2012 3 28 9 0 0 0 apia) apiaTasks =
        some (sevenDays pdqSort (Date 2012 3 28 9 0 0 0 apia) apiaTasks) ∧
      (sevenDays pdqSort (Date 2012 3 28 9 0 0 0 apia) apiaTasks).pastDue.map Task.Text =
        ["rent due:2012-03-26".toList] ∧
      (sevenDays pdqSort (Date 2012 3 28 9 0 0 0 apia) apiaTasks).days.map
          (fun d => d.2.map Task.Text) =
        [["call due:2012-03-27".toList], [], [], [], ["boat due:2012-03-31".toList], [], []] ∧
      ∀ t,
        (t ∈ (sevenDays pdqSort (Date 2012 3 28 9 0 0 0 apia) apiaTasks).pastDue →
          ∀ i x, (sevenDays pdqSort (Date 2012 3 28 9 0 0 0 apia) apiaTasks).days.get? i =
            some x → t ∉ x.2) ∧
        (∀ i j x y, i < j →
          (sevenDays pdqSort (Date 2012 3 28 9 0 0 0 apia) apiaTasks).days.get? i = some x →
          (sevenDays pdqSort (Date 2012 3 28 9 0 0 0 apia) apiaTasks).days.get? j = some y →
          t ∈ x.2 → t ∉ y.2)) :=
  ⟨⟨by decide, by decide, by decide, fun t =>
      C12_sections_disjoint pdqSort (Date 2024 1 2 9 0 0 0 manila) janTasks
        (by unfold Time.Valid; decide)
        (by unfold Time.OffsetsWithin Time.offsetsAhead Location.offsetsOn Time.Unix; decide)
        7 _ (by decide) t⟩,
    ⟨by decide, by decide, by decide, fun t =>
      C12_sections_disjoint pdqSort (Date 2012 3 28 9 0 0 0 apia) apiaTasks
        (by unfold Time.Valid; decide)
        (by unfold Time.OffsetsWithin Time.offsetsAhead Location.offsetsOn Time.Unix; decide)
        7 _ (by decide) t⟩⟩

/-- C13: an admitted task due exactly at `now` is printed neither in the
past-due section nor in the first daily section; and for every `now` in
whose location the UTC offsets in force during the ten days from `now` are
within 24 hours of UTC and of one another, it is printed in no section at
all. -/
theorem C13_due_now_unprinted (sort : List Task → List Task) (now : Time) (tasks : List Task)
    (fuel : Nat) (a : Agenda) (ha : agenda sort fuel now tasks = some a) (t : Task)
    (hdue : t.DueDate.Equal now = true) :
    t ∉ a.pastDue ∧ (∀ x, a.days.get? 0 = some x → t ∉ x.2) ∧
    (now.Valid → now.OffsetsWithin secondsPerDay →
      ∀ i x, a.days.get? i = some x → t ∉ x.2) := by
  obtain ⟨hp, -, hday⟩ := agenda_sections sort fuel now tasks a ha
  rw [Equal_iff] at hdue
  refine ⟨?_, ?_, ?_⟩
  · intro htp
    rw [hp, mem_pastDue, Before_true_iff] at htp
    omega
  · intro x hx hmem
    rw [hday 0 x hx] at hmem
    simp only at hmem
    rw [mem_dayTasks_iff, After_true_iff] at hmem
    have : dayStart now 0 = now := rfl
    rw [this] at hmem
    omega
  · intro hv hw i x hx hmem
    rw [hday i x hx] at hmem
    simp only at hmem
    rw [mem_dayTasks_iff, After_true_iff] at hmem
    obtain ⟨f1, f2, -⟩ := sections_within sort fuel now tasks a ha hv hw i
      (le_of_lt (get_some_lt _ _ _ hx))
    omega

theorem C13_due_now_unprinted_witness :
    agenda pdqSort 7 ⟨(Date 2012 3 27 23 59 59 0 UTC).sec, 0, apia⟩ apiaTasks =
      some (sevenDays pdqSort ⟨(Date 2012 3 27 23 59 59 0 UTC).sec, 0, apia⟩ apiaTasks) ∧
    (sevenDays pdqSort ⟨(Date 2012 3 27 23 59 59 0 UTC).sec, 0, apia⟩ apiaTasks).pastDue.map
        Task.Text = ["rent due:2012-03-26".toList] ∧
    (sevenDays pdqSort ⟨(Date 2012 3 27 23 59 59 0 UTC).sec, 0, apia⟩ apiaTasks).days.map
        (fun d => d.2.map Task.Text) =
      [[], [], [], ["boat due:2012-03-31".toList], [], [], []] ∧
    (⟨"call due:2012-03-27".toList, Date 2012 3 27 23 59 59 0 UTC, "home".toList, false⟩ :
        Task) ∉
      (sevenDays pdqSort ⟨(Date 2012 3 27 23 59 59 0 UTC).sec, 0, apia⟩ apiaTasks).pastDue ∧
    (∀ x, (sevenDays pdqSort ⟨(Date 2012 3 27 23 59 59 0 UTC).sec, 0, apia⟩
        apiaTasks).days.get? 0 = some x →
      (⟨"call due:2012-03-27".toList, Date 2012 3 27 23 59 59 0 UTC, "home".toList, false⟩ :
        Task) ∉ x.2) ∧
    ∀ i x, (sevenDays pdqSort ⟨(Date 2012 3 27 23 59 59 0 UTC).sec, 0, apia⟩
        apiaTasks).days.get? i = some x →
      (⟨"call due:2012-03-27".toList, Date 2012 3 27 23 59 59 0 UTC, "home".toList, false⟩ :
        Task) ∉ x.2 :=
  have h := C13_due_now_unprinted pdqSort ⟨(Date 2012 3 27 23 59 59 0 UTC).sec, 0, apia⟩
    apiaTasks 7 _
    (show agenda pdqSort 7 ⟨(Date 2012 3 27 23 59 59 0 UTC).sec, 0, apia⟩ apiaTasks =
      some (sevenDays pdqSort ⟨(Date 2012 3 27 23 59 59 0 UTC).sec, 0, apia⟩ apiaTasks) by
      decide)
    ⟨"call due:2012-03-27".toList, Date 2012 3 27 23 59 59 0 UTC, "home".toList, false⟩
    (by decide)
  ⟨by decide, by decide, by decide, h.1, h.2.1,
    h.2.2 (by unfold Time.Valid; decide)
      (by unfold Time.OffsetsWithin Time.offsetsAhead Location.offsetsOn Time.Unix; decide)⟩

/-- In a location whose clock jumps by more than 24 hours the condition on
the offsets fails and so does the order of the starts: where the clock
moves from UTC-12 to UTC+14 on the next day, with `now` = 2024-06-10
12:59:59 local, one calendar day after `now` is two hours before `now`, and
the task due 2024-06-10T23:59:59 UTC, one hour before `now`, is printed in
the past-due section and again in the fourth daily section. -/
theorem dateLine_sections_overlap :
    ¬ (Date 2024 6 10 12 59 59 0 dateLine).OffsetsWithin secondsPerDay ∧
    ((Date 2024 6 10 12 59 59 0 dateLine).AddDate 0 0 1).sec =
      (Date 2024 6 10 12 59 59 0 dateLine).sec - 2 * 3600 ∧
    pastDueLines (run pdqSort 10 (Date 2024 6 10 12 59 59 0 dateLine) [fileJune]) =
      ["  - call due:2024-06-10 (work)".toList] ∧
    dayTexts (run pdqSort 10 (Date 2024 6 10 12 59 59 0 dateLine) [fileJune]) =
      [[], [], [], ["call due:2024-06-10".toList], [], [], [], [], [], []] := by
  unfold Time.OffsetsWithin Time.offsetsAhead Location.offsetsOn Time.Unix
  decide

/-! ## The number of daily sections -/

/-- C16, at the input where `main` departs from it: with `now` =
2024-03-09 02:30 in a location that moves to daylight saving time on
2024-03-10, the second section starts at 01:30 (02:30 does not exist on
2024-03-10) and so does every later one; the eighth start, 2024-03-16
01:30, is still before `endDate`, `now` plus seven days, 2024-03-16 02:30:
seven rounds do not end the loop, and eight sections are printed. -/
theorem C16_eight_sections :
    (Date 2024 3 9 2 30 0 0 newYork).Valid ∧
    agenda pdqSort 7 (Date 2024 3 9 2 30 0 0 newYork) [] = none ∧
    (agenda pdqSort 8 (Date 2024 3 9 2 30 0 0 newYork) []).map (fun a => a.days.length) =
      some 8 ∧
    (dayStart (Date 2024 3 9 2 30 0 0 newYork) 7).Before
      ((Date 2024 3 9 2 30 0 0 newYork).AddDate 0 0 7) = true ∧
    (dayStart (Date 2024 3 9 2 30 0 0 newYork) 1).sec =
      (Date 2024 3 9 2 30 0 0 newYork).sec + 23 * 3600 ∧
    ((Date 2024 3 9 2 30 0 0 newYork).AddDate 0 0 7).sec =
      (Date 2024 3 9 2 30 0 0 newYork).sec + 7 * 24 * 3600 - 3600 := by
  unfold Time.Valid
  decide

/-- With `now` = 2011-12-29 05:00 in `Pacific/Apia` the loop over the days
never ends: the calendar day 2011-12-30 was left out there, `Date` reads
2011-12-30 05:00 as 2011-12-29 05:00, and one calendar day after `now` is
`now` again. -/
theorem apia_loop_never_ends (sort : List Task → List Task) (tasks : List Task) (fuel : Nat) :
    (Date 2011 12 29 5 0 0 0 apia).AddDate 0 0 1 = Date 2011 12 29 5 0 0 0 apia ∧
    agenda sort fuel (Date 2011 12 29 5 0 0 0 apia) tasks = none := by
  have hfix : (Date 2011 12 29 5 0 0 0 apia).AddDate 0 0 1 = Date 2011 12 29 5 0 0 0 apia := by
    decide
  have hb : (Date 2011 12 29 5 0 0 0 apia).Before ((Date 2011 12 29 5 0 0 0 apia).AddDate 0 0 7) =
      true := by decide
  refine ⟨hfix, ?_⟩
  have hloop : ∀ n : Nat, dailyLoop (sort tasks) ((Date 2011 12 29 5 0 0 0 apia).AddDate 0 0 7) n
      (Date 2011 12 29 5 0 0 0 apia) = none := by
    intro n
    induction n with
    | zero => rw [dailyLoop, if_pos hb]
    | succ m ih => rw [dailyLoop, if_pos hb, hfix, ih]; rfl
  unfold agenda
  simp only [hloop fuel, Option.map_none']

/-! ## Coverage of the sections -/

theorem count_filter_ite (p : Task → Bool) (t : Task) (l : List Task) :
    (l.filter p).count t = if p t = true then l.count t else 0 := by
  split
  · rename_i h
    exact List.count_filter h
  · rename_i h
    rw [List.count_eq_zero, List.mem_filter]
    exact fun hm => h hm.2

/-- In a week without a change of offset, the number of times a task is
printed in the section of the day starting `i` times 24 hours after `now`. -/
theorem count_dayTasks_steady (now : Time) (hv : now.Valid) (hs : now.Steady) (i : Nat)
    (hi : i < 7) (l : List Task) (t : Task) :
    (dayTasks (now.addSeconds (secondsPerDay * i)) l).count t =
      if (now.sec + 86400 * i < t.DueDate.sec ∨
          (t.DueDate.sec = now.sec + 86400 * i ∧ now.nsec < t.DueDate.nsec)) ∧
        (t.DueDate.sec < now.sec + 86400 * (i + 1) ∨
          (t.DueDate.sec = now.sec + 86400 * (i + 1) ∧ t.DueDate.nsec < now.nsec))
      then l.count t else 0 := by
  unfold dayTasks
  rw [count_filter_ite]
  rw [AddDate_steady now hv hs i 1 (by omega) (by omega) (by omega)]
  have e : (t.DueDate.After (now.addSeconds (secondsPerDay * i)) &&
      t.DueDate.Before (now.addSeconds (secondsPerDay * (i + 1)))) = true ↔
      ((now.sec + 86400 * i < t.DueDate.sec ∨
          (t.DueDate.sec = now.sec + 86400 * i ∧ now.nsec < t.DueDate.nsec)) ∧
        (t.DueDate.sec < now.sec + 86400 * (i + 1) ∨
          (t.DueDate.sec = now.sec + 86400 * (i + 1) ∧ t.DueDate.nsec < now.nsec))) := by
    rw [Bool.and_eq_true, After_true_iff, Before_true_iff]
    unfold Time.addSeconds secondsPerDay
    simp only
  simp only [e]

theorem Equal_false_iff (t u : Time) :
    t.Equal u = false ↔ ¬ (t.sec = u.sec ∧ t.nsec = u.nsec) := by
  rw [← Equal_iff, Bool.not_eq_true]

/-- The arithmetic of the eight sections: a due instant `(ds, dn)` falls
in at most one of them, and in none exactly when it is a start of a section
or not before the end of the seventh day. -/
theorem sections_count (s n ds dn : Int) (c : Nat) :
    (if ds < s ∨ (ds = s ∧ dn < n) then c else 0) +
      ((if (s + 86400 * 0 < ds ∨ (ds = s + 86400 * 0 ∧ n < dn)) ∧
          (ds < s + 86400 * (0 + 1) ∨ (ds = s + 86400 * (0 + 1) ∧ dn < n)) then c else 0) +
       ((if (s + 86400 * 1 < ds ∨ (ds = s + 86400 * 1 ∧ n < dn)) ∧
          (ds < s + 86400 * (1 + 1) ∨ (ds = s + 86400 * (1 + 1) ∧ dn < n)) then c else 0) +
       ((if (s + 86400 * 2 < ds ∨ (ds = s + 86400 * 2 ∧ n < dn)) ∧
          (ds < s + 86400 * (2 + 1) ∨ (ds = s + 86400 * (2 + 1) ∧ dn < n)) then c else 0) +
       ((if (s + 86400 * 3 < ds ∨ (ds = s + 86400 * 3 ∧ n < dn)) ∧
          (ds < s + 86400 * (3 + 1) ∨ (ds = s + 86400 * (3 + 1) ∧ dn < n)) then c else 0) +
       ((if (s + 86400 * 4 < ds ∨ (ds = s + 86400 * 4 ∧ n < dn)) ∧
          (ds < s + 86400 * (4 + 1) ∨ (ds = s + 86400 * (4 + 1) ∧ dn < n)) then c else 0) +
       ((if (s + 86400 * 5 < ds ∨ (ds = s + 86400 * 5 ∧ n < dn)) ∧
          (ds < s + 86400 * (5 + 1) ∨ (ds = s + 86400 * (5 + 1) ∧ dn < n)) then c else 0) +
        (if (s + 86400 * 6 < ds ∨ (ds = s + 86400 * 6 ∧ n < dn)) ∧
          (ds < s + 86400 * (6 + 1) ∨ (ds = s + 86400 * (6 + 1) ∧ dn < n)) then c else 0))))))) =
    if (ds < s + 86400 * 7 ∨ (ds = s + 86400 * 7 ∧ dn < n)) ∧
        ¬ (ds = s + 86400 * 0 ∧ dn = n) ∧ ¬ (ds = s + 86400 * 1 ∧ dn = n) ∧
        ¬ (ds = s + 86400 * 2 ∧ dn = n) ∧ ¬ (ds = s + 86400 * 3 ∧ dn = n) ∧
        ¬ (ds = s + 86400 * 4 ∧ dn = n) ∧ ¬ (ds = s + 86400 * 5 ∧ dn = n) ∧
        ¬ (ds = s + 86400 * 6 ∧ dn = n)
      then c else 0 := by
  have hpos : ds < s ∨ ds = s ∨ (s < ds ∧ ds < s + 86400) ∨ ds = s + 86400 ∨
      (s + 86400 < ds ∧ ds < s + 172800) ∨ ds = s + 172800 ∨
      (s + 172800 < ds ∧ ds < s + 259200) ∨ ds = s + 259200 ∨
      (s + 259200 < ds ∧ ds < s + 345600) ∨ ds = s + 345600 ∨
      (s + 345600 < ds ∧ ds < s + 432000) ∨ ds = s + 432000 ∨
      (s + 432000 < ds ∧ ds < s + 518400) ∨ ds = s + 518400 ∨
      (s + 518400 < ds ∧ ds < s + 604800) ∨ ds = s + 604800 ∨ s + 604800 < ds := by omega
  rcases lt_trichotomy dn n with h1 | h1 | h1 <;>
  rcases hpos with h | h | h | h | h | h | h | h | h | h | h | h | h | h | h | h | h <;>
  (repeat (first | rw [if_pos (by omega)] | rw [if_neg (by omega)])) <;> omega

/-- In every section the tasks stand in the order of the sorted
collection. -/
theorem sections_sublist (sort : List Task → List Task) (now : Time) (tasks : List Task)
    (fuel : Nat) (a : Agenda) (ha : agenda sort fuel now tasks = some a) :
    a.pastDue.Sublist (sort tasks) ∧
      ∀ i x, a.days.get? i = some x → x.2.Sublist (sort tasks) := by
  obtain ⟨hp, -, hday⟩ := agenda_sections sort fuel now tasks a ha
  refine ⟨by rw [hp]; exact List.filter_sublist _, ?_⟩
  intro i x hx
  rw [hday i x hx]
  exact List.filter_sublist _

/-- In a week without a change of offset an admitted task is printed
exactly once if it is due before `now + 7*24h` and not at `now + k*24h` for
any `k` in `0..6`, and nowhere otherwise. -/
theorem coverage_steady (sort : List Task → List Task) (hS : SliceSort sort) (now : Time)
    (tasks : List Task) (hv : now.Valid) (hs : now.Steady) (fuel : Nat) (hfuel : 7 ≤ fuel) :
    ∃ a, agenda sort fuel now tasks = some a ∧
      ∀ t, a.rendered.count t =
        if t.DueDate.Before (now.addSeconds (24 * 3600 * 7)) = true ∧
            ∀ k : Nat, k < 7 →
              t.DueDate.Equal (now.addSeconds (24 * 3600 * k)) = false
        then tasks.count t else 0 := by
  obtain ⟨-, days, ha, hl, -⟩ := agenda_steady sort now hv hs tasks fuel hfuel
  refine ⟨_, ha, ?_⟩
  intro t
  obtain ⟨-, -, hday⟩ := agenda_sections sort fuel now tasks _ ha
  simp only at hday
  -- the seven sections, one by one
  rcases days with _ | ⟨x0, _ | ⟨x1, _ | ⟨x2, _ | ⟨x3, _ | ⟨x4, _ | ⟨x5, _ | ⟨x6, _ | ⟨x7, r⟩⟩⟩⟩⟩⟩⟩⟩
    <;> simp only [List.length_cons, List.length_nil] at hl <;> try omega
  have d0 := hday 0 x0 rfl
  have d1 := hday 1 x1 rfl
  have d2 := hday 2 x2 rfl
  have d3 := hday 3 x3 rfl
  have d4 := hday 4 x4 rfl
  have d5 := hday 5 x5 rfl
  have d6 := hday 6 x6 rfl
  rw [dayStart_steady now hv hs 0 (by omega)] at d0
  rw [dayStart_steady now hv hs 1 (by omega)] at d1
  rw [dayStart_steady now hv hs 2 (by omega)] at d2
  rw [dayStart_steady now hv hs 3 (by omega)] at d3
  rw [dayStart_steady now hv hs 4 (by omega)] at d4
  rw [dayStart_steady now hv hs 5 (by omega)] at d5
  rw [dayStart_steady now hv hs 6 (by omega)] at d6
  have hc : (sort tasks).count t = tasks.count t := (hS.perm tasks).count_eq t
  have c0 := count_dayTasks_steady now hv hs 0 (by omega) (sort tasks) t
  have c1 := count_dayTasks_steady now hv hs 1 (by omega) (sort tasks) t
  have c2 := count_dayTasks_steady now hv hs 2 (by omega) (sort tasks) t
  have c3 := count_dayTasks_steady now hv hs 3 (by omega) (sort tasks) t
  have c4 := count_dayTasks_steady now hv hs 4 (by omega) (sort tasks) t
  have c5 := count_dayTasks_steady now hv hs 5 (by omega) (sort tasks) t
  have c6 := count_dayTasks_steady now hv hs 6 (by omega) (sort tasks) t
  have cp : (pastDue now (sort tasks)).count t =
      if t.DueDate.sec < now.sec ∨ (t.DueDate.sec = now.sec ∧ t.DueDate.nsec < now.nsec)
      then (sort tasks).count t else 0 := by
    unfold pastDue
    rw [count_filter_ite]
    simp only [Before_true_iff]
  have hcond : (t.DueDate.Before (now.addSeconds (24 * 3600 * 7)) = true ∧
        ∀ k : Nat, k < 7 →
          t.DueDate.Equal (now.addSeconds (24 * 3600 * k)) = false) ↔
      ((t.DueDate.sec < now.sec + 86400 * 7 ∨
          (t.DueDate.sec = now.sec + 86400 * 7 ∧ t.DueDate.nsec < now.nsec)) ∧
        ¬ (t.DueDate.sec = now.sec + 86400 * 0 ∧ t.DueDate.nsec = now.nsec) ∧
        ¬ (t.DueDate.sec = now.sec + 86400 * 1 ∧ t.DueDate.nsec = now.nsec) ∧
        ¬ (t.DueDate.sec = now.sec + 86400 * 2 ∧ t.DueDate.nsec = now.nsec) ∧
        ¬ (t.DueDate.sec = now.sec + 86400 * 3 ∧ t.DueDate.nsec = now.nsec) ∧
        ¬ (t.DueDate.sec = now.sec + 86400 * 4 ∧ t.DueDate.nsec = now.nsec) ∧
        ¬ (t.DueDate.sec = now.sec + 86400 * 5 ∧ t.DueDate.nsec = now.nsec) ∧
        ¬ (t.DueDate.sec = now.sec + 86400 * 6 ∧ t.DueDate.nsec = now.nsec)) := by
    rw [Before_true_iff]
    simp only [Equal_false_iff, Time.addSeconds]
    constructor
    · rintro ⟨hb, hk⟩
      have k0 := hk 0 (by omega)
      have k1 := hk 1 (by omega)
      have k2 := hk 2 (by omega)
      have k3 := hk 3 (by omega)
      have k4 := hk 4 (by omega)
      have k5 := hk 5 (by omega)
      have k6 := hk 6 (by omega)
      push_cast at k0 k1 k2 k3 k4 k5 k6
      refine ⟨by omega, ?_, ?_, ?_, ?_, ?_, ?_, ?_⟩ <;> omega
    · rintro ⟨hb, e0, e1, e2, e3, e4, e5, e6⟩
      refine ⟨by omega, ?_⟩
      intro k hk
      interval_cases k <;> push_cast <;> omega
  unfold Agenda.rendered
  simp only [List.map_cons, List.map_nil, List.flatten_cons, List.flatten_nil,
    List.append_nil, List.count_append]
  rw [d0, d1, d2, d3, d4, d5, d6]
  simp only
  rw [cp, c0, c1, c2, c3, c4, c5, c6, hc, if_congr hcond rfl rfl]
  push_cast
  exact sections_count now.sec now.nsec t.DueDate.sec t.DueDate.nsec (tasks.count t)

/-- C19, at the input where `main` departs from it: with `now` =
2024-03-09 02:30 in a location that moves to daylight saving time on
2024-03-10, the task due 2024-03-16T23:59:59 UTC is due after `endDate`,
`now` plus seven days (both as seven calendar days and as 7 times 24
hours), and is printed, in an eighth daily section. -/
theorem C19_printed_after_week :
    Time.Before (Date 2024 3 16 23 59 59 0 UTC)
      ((Date 2024 3 9 2 30 0 0 newYork).AddDate 0 0 7) = false ∧
    Time.Before (Date 2024 3 16 23 59 59 0 UTC)
      ((Date 2024 3 9 2 30 0 0 newYork).addSeconds (7 * 24 * 3600)) = false ∧
    pastDueLines (run pdqSort 8 (Date 2024 3 9 2 30 0 0 newYork) [fileIdes]) = [] ∧
    dayTexts (run pdqSort 8 (Date 2024 3 9 2 30 0 0 newYork) [fileIdes]) =
      [[], [], [], [], [], [], [], ["call due:2024-03-16".toList]] := by
  decide

end TodoAgenda
